import Mathlib

/-!
Shallow embedding of the core of the blackjack-cv-ev-engine repository
(card tracking, hand grouping, blackjack scoring, shoe model, hand
evaluation), with theorems checking the natural-language specification
against the code.

Floating-point coordinates, thresholds and expected values are modelled
as rationals (ℚ); Python dicts (which preserve insertion order) are
modelled as association lists.
-/

/-- Bounding box (x1, y1, x2, y2), from the data model used throughout
`psrc/detection`. -/
structure Box where
  x1 : ℚ
  y1 : ℚ
  x2 : ℚ
  y2 : ℚ
deriving DecidableEq, Repr

namespace DetectionUtils

/-- Embedding of `detection_utils.compute_overlap`: intersection area over
the smaller box's area, 0.0 when the boxes do not intersect or the smaller
area is zero. -/
def compute_overlap (boxA boxB : Box) : ℚ :=
  let x_left := max boxA.x1 boxB.x1
  let y_top := max boxA.y1 boxB.y1
  let x_right := min boxA.x2 boxB.x2
  let y_bottom := min boxA.y2 boxB.y2
  if x_right < x_left ∨ y_bottom < y_top then 0
  else
    let intersection_area := (x_right - x_left) * (y_bottom - y_top)
    let areaA := (boxA.x2 - boxA.x1) * (boxA.y2 - boxA.y1)
    let areaB := (boxB.x2 - boxB.x1) * (boxB.y2 - boxB.y1)
    let min_area := min areaA areaB
    if min_area = 0 then 0
    else intersection_area / min_area

end DetectionUtils

namespace HandTracker

/-- Embedding of `HandTracker._score_hand`: ace (label 0) counts 1,
labels 1..8 count label+1, labels ≥ 9 count 10; then aces are promoted
by +10 while the total stays ≤ 21. -/
def score_hand (cards : List Int) : Int :=
  let rec base : List Int → Int × Int
    | [] => (0, 0)
    | card :: rest =>
      let (total, aces) := base rest
      if card = 0 then (total + 1, aces + 1)
      else if 1 ≤ card ∧ card ≤ 8 then (total + card + 1, aces)
      else (total + 10, aces)
  let (total, aces) := base cards
  -- while aces > 0 and total + 10 <= 21: total += 10; aces -= 1
  let rec promote (total : Int) : Nat → Int
    | 0 => total
    | aces + 1 => if total + 10 ≤ 21 then promote (total + 10) aces else total
  promote total aces.toNat

end HandTracker

/-! ### Shoe / deck model (`psrc/evaluation/card_deck.py`)

The deck's `cards` dictionary is modelled as an insertion-ordered
association list from card label to count. -/

/-- Lookup in an insertion-ordered association list (Python `dict` get). -/
def dictGet? (d : List (Int × Int)) (k : Int) : Option Int :=
  match d with
  | [] => none
  | (k', v) :: rest => if k' = k then some v else dictGet? rest k

/-- In-place update of an existing key in an association list
(Python `d[k] = v` for a key already present keeps its position). -/
def dictSetExisting (d : List (Int × Int)) (k : Int) (v : Int) : List (Int × Int) :=
  match d with
  | [] => []
  | (k', v') :: rest =>
    if k' = k then (k', v) :: rest else (k', v') :: dictSetExisting rest k v

namespace CardDeck

/-- Embedding of `CardDeck.__init__`: counts for labels 0..8 are
`4 * deck_count`, label 9 gets `16 * deck_count`. -/
def initCards (deck_count : Int) : List (Int × Int) :=
  ((List.range 9).map (fun i => ((i : Int), 4 * deck_count))) ++ [(9, 16 * deck_count)]

/-- Label normalization used by `add_card` / `remove_card`:
face labels 9, 10, 11, 12 all map to 9. -/
def normalized_label (card_label : Int) : Int :=
  if card_label = 9 ∨ card_label = 10 ∨ card_label = 11 ∨ card_label = 12 then 9
  else card_label

/-- Embedding of `CardDeck.add_card`: increment the normalized bucket if
present, reporting success; otherwise fail and leave the deck unchanged. -/
def add_card (cards : List (Int × Int)) (card_label : Int) : List (Int × Int) × Bool :=
  let n := normalized_label card_label
  match dictGet? cards n with
  | some c => (dictSetExisting cards n (c + 1), true)
  | none => (cards, false)

/-- Embedding of `CardDeck.remove_card`: decrement the normalized bucket
if present with a positive count, reporting success; otherwise fail and
leave the deck unchanged. -/
def remove_card (cards : List (Int × Int)) (card_label : Int) : List (Int × Int) × Bool :=
  let n := normalized_label card_label
  match dictGet? cards n with
  | some c => if c > 0 then (dictSetExisting cards n (c - 1), true) else (cards, false)
  | none => (cards, false)

/-- A deck operation: the only mutation paths of the deck. -/
inductive DeckOp where
  | add (card_label : Int)
  | remove (card_label : Int)
deriving DecidableEq, Repr

/-- Apply one deck operation, dropping the success flag. -/
def applyOp (cards : List (Int × Int)) : DeckOp → List (Int × Int)
  | DeckOp.add l => (add_card cards l).1
  | DeckOp.remove l => (remove_card cards l).1

/-- Apply a sequence of deck operations. -/
def applyOps (cards : List (Int × Int)) : List DeckOp → List (Int × Int)
  | [] => cards
  | op :: rest => applyOps (applyOp cards op) rest

end CardDeck

/-! ### Association-list lemmas for the deck -/

theorem dictGet?_mem {d : List (Int × Int)} {k v : Int} (h : dictGet? d k = some v) :
    (k, v) ∈ d := by
  induction d with
  | nil => simp [dictGet?] at h
  | cons p rest ih =>
    obtain ⟨k', v'⟩ := p
    by_cases hk : k' = k
    · subst hk
      simp [dictGet?] at h
      simp [h]
    · simp [dictGet?, hk] at h
      exact List.mem_cons_of_mem _ (ih h)

theorem dictGet?_dictSetExisting_self {d : List (Int × Int)} {k c : Int} (v : Int)
    (h : dictGet? d k = some c) :
    dictGet? (dictSetExisting d k v) k = some v := by
  induction d with
  | nil => simp [dictGet?] at h
  | cons p rest ih =>
    obtain ⟨k', v'⟩ := p
    by_cases hk : k' = k
    · subst hk
      simp [dictSetExisting, dictGet?]
    · simp [dictGet?, hk] at h
      simp [dictSetExisting, dictGet?, hk, ih h]

theorem dictGet?_dictSetExisting_ne {d : List (Int × Int)} {k k' : Int} (v : Int)
    (h : k' ≠ k) :
    dictGet? (dictSetExisting d k v) k' = dictGet? d k' := by
  induction d with
  | nil => simp [dictSetExisting]
  | cons p rest ih =>
    obtain ⟨k0, v0⟩ := p
    by_cases hk : k0 = k
    · subst hk
      have : k0 ≠ k' := fun hh => h (hh ▸ rfl)
      simp [dictSetExisting, dictGet?, this]
    · simp [dictSetExisting, hk, dictGet?]
      by_cases h0 : k0 = k'
      · simp [h0]
      · simp [h0, ih]

/-- All counts in a deck dictionary are nonnegative. -/
def NonnegDeck (d : List (Int × Int)) : Prop :=
  ∀ k v : Int, dictGet? d k = some v → 0 ≤ v

theorem nonnegDeck_initCards {dc : Int} (h : 0 ≤ dc) : NonnegDeck (CardDeck.initCards dc) := by
  intro k v hv
  have hmem := dictGet?_mem hv
  simp [CardDeck.initCards] at hmem
  rcases hmem with ⟨i, _, _, hv'⟩ | ⟨_, hv'⟩
  · subst hv'
    positivity
  · subst hv'
    positivity

theorem nonnegDeck_add {d : List (Int × Int)} (h : NonnegDeck d) (l : Int) :
    NonnegDeck (CardDeck.add_card d l).1 := by
  unfold CardDeck.add_card
  cases hg : dictGet? d (CardDeck.normalized_label l) with
  | none => simpa [hg] using h
  | some c =>
    simp only [hg]
    intro k v hv
    by_cases hk : k = CardDeck.normalized_label l
    · subst hk
      rw [dictGet?_dictSetExisting_self _ hg] at hv
      have hc := h _ _ hg
      injection hv with hv
      omega
    · rw [dictGet?_dictSetExisting_ne _ hk] at hv
      exact h _ _ hv

theorem nonnegDeck_remove {d : List (Int × Int)} (h : NonnegDeck d) (l : Int) :
    NonnegDeck (CardDeck.remove_card d l).1 := by
  unfold CardDeck.remove_card
  cases hg : dictGet? d (CardDeck.normalized_label l) with
  | none => simpa [hg] using h
  | some c =>
    simp only [hg]
    by_cases hc : c > 0
    · simp only [hc, if_true]
      intro k v hv
      by_cases hk : k = CardDeck.normalized_label l
      · subst hk
        rw [dictGet?_dictSetExisting_self _ hg] at hv
        injection hv with hv
        omega
      · rw [dictGet?_dictSetExisting_ne _ hk] at hv
        exact h _ _ hv
    · simpa [hc] using h

theorem nonnegDeck_applyOps {d : List (Int × Int)} (h : NonnegDeck d) (ops : List CardDeck.DeckOp) :
    NonnegDeck (CardDeck.applyOps d ops) := by
  induction ops generalizing d with
  | nil => exact h
  | cons op rest ih =>
    cases op with
    | add l => exact ih (nonnegDeck_add h l)
    | remove l => exact ih (nonnegDeck_remove h l)

/-- Claim C2 counterexample: the spec's Section 8 example `score([8,8,8]) == 30`
fails on the code: rank 8 (a nine) counts 9, so the hand scores 27. -/
theorem score_hand_888_not_30 : ¬ (HandTracker.score_hand [8, 8, 8] = 30) := by decide

/-- Claim C2 (amended): hand scoring on the spec's Section 8 examples, with
the third corrected: `score([0,9]) = 21`, `score([0,0,9]) = 12`,
`score([8,8,8]) = 27` (three nines; three tens are `[9,9,9]`, scoring 30),
and `score([0,0]) = 12`. -/
theorem score_hand_spec_examples :
    HandTracker.score_hand [0, 9] = 21 ∧
    HandTracker.score_hand [0, 0, 9] = 12 ∧
    HandTracker.score_hand [8, 8, 8] = 27 ∧
    HandTracker.score_hand [9, 9, 9] = 30 ∧
    HandTracker.score_hand [0, 0] = 12 := by decide

/-- Claim C5: shoe conservation and underflow atomicity. Face labels
9..12 normalize to bucket 9; a one-deck shoe starts with count 16 in
bucket 9 and 4 in buckets 0..8; a successful `remove_card` decrements
exactly the normalized bucket by one and reports success; when the
normalized bucket is 0 (or absent) `remove_card` fails and leaves the
deck unchanged; hence along any add/remove sequence from the initial
deck no count is ever negative. -/
theorem card_deck_conservation :
    (∀ l ∈ ({9, 10, 11, 12} : Finset Int), CardDeck.normalized_label l = 9) ∧
    (dictGet? (CardDeck.initCards 1) 9 = some 16 ∧
      ∀ i ∈ Finset.Icc (0 : Int) 8, dictGet? (CardDeck.initCards 1) i = some 4) ∧
    (∀ cards l c, dictGet? cards (CardDeck.normalized_label l) = some c → 0 < c →
      (CardDeck.remove_card cards l).2 = true ∧
      dictGet? (CardDeck.remove_card cards l).1 (CardDeck.normalized_label l) = some (c - 1) ∧
      ∀ k, k ≠ CardDeck.normalized_label l →
        dictGet? (CardDeck.remove_card cards l).1 k = dictGet? cards k) ∧
    (∀ cards l, (dictGet? cards (CardDeck.normalized_label l) = some 0 ∨
        dictGet? cards (CardDeck.normalized_label l) = none) →
      CardDeck.remove_card cards l = (cards, false)) ∧
    (∀ dc : Int, 0 ≤ dc → ∀ ops, NonnegDeck (CardDeck.applyOps (CardDeck.initCards dc) ops)) := by
  refine ⟨by decide, ⟨by decide, by decide⟩, ?_, ?_, ?_⟩
  · intro cards l c hg hc
    have hc' : c > 0 := hc
    refine ⟨?_, ?_, ?_⟩
    · simp [CardDeck.remove_card, hg, hc']
    · simp only [CardDeck.remove_card, hg, hc', if_true]
      exact dictGet?_dictSetExisting_self _ hg
    · intro k hk
      simp only [CardDeck.remove_card, hg, hc', if_true]
      exact dictGet?_dictSetExisting_ne _ hk
  · intro cards l h
    rcases h with h | h
    · simp [CardDeck.remove_card, h]
    · simp [CardDeck.remove_card, h]
  · intro dc hdc ops
    exact nonnegDeck_applyOps (nonnegDeck_initCards hdc) ops

/-- Witness for C5 at concrete inputs: removing a face card from a fresh
one-deck shoe leaves 15, removing from an empty bucket fails atomically,
and counts stay nonnegative along a concrete operation sequence. -/
theorem card_deck_conservation_witness :
    dictGet? (CardDeck.remove_card (CardDeck.initCards 1) 9).1
      (CardDeck.normalized_label 9) = some (16 - 1) ∧
    CardDeck.remove_card [((9 : Int), 0)] 9 = ([((9 : Int), 0)], false) ∧
    NonnegDeck (CardDeck.applyOps (CardDeck.initCards 1) [CardDeck.DeckOp.remove 9]) :=
  ⟨(card_deck_conservation.2.2.1 (CardDeck.initCards 1) 9 16 (by decide) (by decide)).2.1,
   card_deck_conservation.2.2.2.1 [((9 : Int), 0)] 9 (Or.inl (by decide)),
   card_deck_conservation.2.2.2.2 1 (by decide) [CardDeck.DeckOp.remove 9]⟩

/-- `compute_overlap` with its local bindings expanded. -/
theorem compute_overlap_eq (A B : Box) : DetectionUtils.compute_overlap A B =
    if min A.x2 B.x2 < max A.x1 B.x1 ∨ min A.y2 B.y2 < max A.y1 B.y1 then 0
    else if min ((A.x2 - A.x1) * (A.y2 - A.y1)) ((B.x2 - B.x1) * (B.y2 - B.y1)) = 0 then 0
    else ((min A.x2 B.x2 - max A.x1 B.x1) * (min A.y2 B.y2 - max A.y1 B.y1)) /
      min ((A.x2 - A.x1) * (A.y2 - A.y1)) ((B.x2 - B.x1) * (B.y2 - B.y1)) := rfl

/-- Claim C8: overlap-ratio containment and degeneracy. For a box A fully
inside a box B with positive area, the overlap ratio is 1 in both argument
orders; and for well-formed boxes `compute_overlap` returns 0 whenever the
boxes do not intersect or either box has zero area (the guarded division
never divides by zero). -/
theorem compute_overlap_containment_degenerate : ∀ A B : Box,
    ((B.x1 ≤ A.x1 ∧ B.y1 ≤ A.y1 ∧ A.x2 ≤ B.x2 ∧ A.y2 ≤ B.y2 ∧ A.x1 < A.x2 ∧ A.y1 < A.y2) →
      DetectionUtils.compute_overlap A B = 1 ∧ DetectionUtils.compute_overlap B A = 1) ∧
    ((A.x1 ≤ A.x2 ∧ A.y1 ≤ A.y2 ∧ B.x1 ≤ B.x2 ∧ B.y1 ≤ B.y2) →
      ((min A.x2 B.x2 < max A.x1 B.x1 ∨ min A.y2 B.y2 < max A.y1 B.y1) →
        DetectionUtils.compute_overlap A B = 0) ∧
      (((A.x2 - A.x1) * (A.y2 - A.y1) = 0 ∨ (B.x2 - B.x1) * (B.y2 - B.y1) = 0) →
        DetectionUtils.compute_overlap A B = 0)) := by
  intro A B
  refine ⟨?_, ?_⟩
  · rintro ⟨h1, h2, h3, h4, h5, h6⟩
    have hadx : (0 : ℚ) < A.x2 - A.x1 := by linarith
    have hady : (0 : ℚ) < A.y2 - A.y1 := by linarith
    have hpos : (0 : ℚ) < (A.x2 - A.x1) * (A.y2 - A.y1) := mul_pos hadx hady
    have hle : (A.x2 - A.x1) * (A.y2 - A.y1) ≤ (B.x2 - B.x1) * (B.y2 - B.y1) :=
      mul_le_mul (by linarith) (by linarith) (le_of_lt hady) (by linarith)
    constructor
    · have hne : ¬ (min A.x2 B.x2 < max A.x1 B.x1 ∨ min A.y2 B.y2 < max A.y1 B.y1) := by
        rw [max_eq_left h1, min_eq_left h3, max_eq_left h2, min_eq_left h4]
        push_neg
        exact ⟨by linarith, by linarith⟩
      have hmin : min ((A.x2 - A.x1) * (A.y2 - A.y1)) ((B.x2 - B.x1) * (B.y2 - B.y1)) =
          (A.x2 - A.x1) * (A.y2 - A.y1) := min_eq_left hle
      have hm0 : ¬ (min ((A.x2 - A.x1) * (A.y2 - A.y1)) ((B.x2 - B.x1) * (B.y2 - B.y1)) = 0) := by
        rw [hmin]; exact ne_of_gt hpos
      rw [compute_overlap_eq, if_neg hne, if_neg hm0,
        max_eq_left h1, min_eq_left h3, max_eq_left h2, min_eq_left h4, hmin]
      exact div_self (ne_of_gt hpos)
    · have hne : ¬ (min B.x2 A.x2 < max B.x1 A.x1 ∨ min B.y2 A.y2 < max B.y1 A.y1) := by
        rw [max_eq_right h1, min_eq_right h3, max_eq_right h2, min_eq_right h4]
        push_neg
        exact ⟨by linarith, by linarith⟩
      have hmin : min ((B.x2 - B.x1) * (B.y2 - B.y1)) ((A.x2 - A.x1) * (A.y2 - A.y1)) =
          (A.x2 - A.x1) * (A.y2 - A.y1) := min_eq_right hle
      have hm0 : ¬ (min ((B.x2 - B.x1) * (B.y2 - B.y1)) ((A.x2 - A.x1) * (A.y2 - A.y1)) = 0) := by
        rw [hmin]; exact ne_of_gt hpos
      rw [compute_overlap_eq, if_neg hne, if_neg hm0,
        max_eq_right h1, min_eq_right h3, max_eq_right h2, min_eq_right h4, hmin]
      exact div_self (ne_of_gt hpos)
  · rintro ⟨ha1, ha2, hb1, hb2⟩
    have hA0 : (0 : ℚ) ≤ (A.x2 - A.x1) * (A.y2 - A.y1) :=
      mul_nonneg (by linarith) (by linarith)
    have hB0 : (0 : ℚ) ≤ (B.x2 - B.x1) * (B.y2 - B.y1) :=
      mul_nonneg (by linarith) (by linarith)
    constructor
    · intro hguard
      rw [compute_overlap_eq, if_pos hguard]
    · intro hzero
      rw [compute_overlap_eq]
      by_cases hguard : min A.x2 B.x2 < max A.x1 B.x1 ∨ min A.y2 B.y2 < max A.y1 B.y1
      · rw [if_pos hguard]
      · rw [if_neg hguard, if_pos]
        rcases hzero with h | h
        · rw [h]; exact min_eq_left hB0
        · rw [h]; exact min_eq_right hA0

/-- Witness for C8 at concrete boxes: a unit box inside a 3x3 box overlaps
fully both ways; disjoint boxes and a zero-width box give ratio 0. -/
theorem compute_overlap_containment_degenerate_witness :
    (DetectionUtils.compute_overlap ⟨1, 1, 2, 2⟩ ⟨0, 0, 3, 3⟩ = 1 ∧
      DetectionUtils.compute_overlap ⟨0, 0, 3, 3⟩ ⟨1, 1, 2, 2⟩ = 1) ∧
    DetectionUtils.compute_overlap ⟨0, 0, 1, 1⟩ ⟨5, 5, 6, 6⟩ = 0 ∧
    DetectionUtils.compute_overlap ⟨0, 0, 0, 1⟩ ⟨0, 0, 3, 3⟩ = 0 :=
  ⟨(compute_overlap_containment_degenerate ⟨1, 1, 2, 2⟩ ⟨0, 0, 3, 3⟩).1 (by norm_num),
   ((compute_overlap_containment_degenerate ⟨0, 0, 1, 1⟩ ⟨5, 5, 6, 6⟩).2 (by norm_num)).1
     (by norm_num),
   ((compute_overlap_containment_degenerate ⟨0, 0, 0, 1⟩ ⟨0, 0, 3, 3⟩).2 (by norm_num)).2
     (by norm_num)⟩

/-! ### Generic insertion-ordered dictionaries (Python `dict` semantics) -/

/-- Lookup in an insertion-ordered association list. -/
def alistGet? {κ α : Type} [DecidableEq κ] (d : List (κ × α)) (k : κ) : Option α :=
  match d with
  | [] => none
  | (k', v) :: rest => if k' = k then some v else alistGet? rest k

/-- Python dict assignment `d[k] = v`: replace in place if the key exists,
otherwise append at the end. -/
def alistSet {κ α : Type} [DecidableEq κ] (d : List (κ × α)) (k : κ) (v : α) : List (κ × α) :=
  match d with
  | [] => [(k, v)]
  | (k', v') :: rest => if k' = k then (k, v) :: rest else (k', v') :: alistSet rest k v

theorem alistGet?_eq_none_iff {κ α : Type} [DecidableEq κ] {d : List (κ × α)} {k : κ} :
    alistGet? d k = none ↔ k ∉ d.map Prod.fst := by
  induction d with
  | nil => simp [alistGet?]
  | cons p rest ih =>
    obtain ⟨k', v⟩ := p
    by_cases h : k' = k
    · subst h
      simp [alistGet?]
    · simp [alistGet?, h, ih, Ne.symm h]

theorem alistGet?_mem {κ α : Type} [DecidableEq κ] {d : List (κ × α)} {k : κ} {v : α}
    (h : alistGet? d k = some v) : (k, v) ∈ d := by
  induction d with
  | nil => simp [alistGet?] at h
  | cons p rest ih =>
    obtain ⟨k', v'⟩ := p
    by_cases hk : k' = k
    · subst hk
      simp [alistGet?] at h
      simp [h]
    · simp [alistGet?, hk] at h
      exact List.mem_cons_of_mem _ (ih h)

theorem alistGet?_eq_some_of_mem_nodup {κ α : Type} [DecidableEq κ] {d : List (κ × α)}
    (hnd : (d.map Prod.fst).Nodup) {p : κ × α} (hp : p ∈ d) :
    alistGet? d p.1 = some p.2 := by
  induction d with
  | nil => simp at hp
  | cons q rest ih =>
    obtain ⟨k', v'⟩ := q
    simp only [List.map_cons, List.nodup_cons] at hnd
    rcases List.mem_cons.1 hp with h | h
    · subst h
      simp [alistGet?]
    · have hne : k' ≠ p.1 := by
        intro he
        exact hnd.1 (he ▸ List.mem_map_of_mem Prod.fst h)
      simp only [alistGet?, if_neg hne]
      exact ih hnd.2 h

theorem alistGet?_alistSet_self {κ α : Type} [DecidableEq κ] (d : List (κ × α)) (k : κ) (v : α) :
    alistGet? (alistSet d k v) k = some v := by
  induction d with
  | nil => simp [alistSet, alistGet?]
  | cons p rest ih =>
    obtain ⟨k', v'⟩ := p
    by_cases hk : k' = k
    · subst hk
      simp [alistSet, alistGet?]
    · simp [alistSet, hk, alistGet?, ih]

theorem alistGet?_alistSet_ne {κ α : Type} [DecidableEq κ] {d : List (κ × α)} {k k' : κ}
    (v : α) (h : k' ≠ k) : alistGet? (alistSet d k v) k' = alistGet? d k' := by
  induction d with
  | nil => simp [alistSet, alistGet?, Ne.symm h]
  | cons p rest ih =>
    obtain ⟨k0, v0⟩ := p
    by_cases hk : k0 = k
    · subst hk
      simp [alistSet, alistGet?, Ne.symm h]
    · simp only [alistSet, if_neg hk, alistGet?]
      by_cases h0 : k0 = k'
      · simp [h0]
      · simp [h0, ih]

theorem alistSet_keys_of_mem {κ α : Type} [DecidableEq κ] {d : List (κ × α)} {k : κ}
    (v : α) (h : k ∈ d.map Prod.fst) :
    (alistSet d k v).map Prod.fst = d.map Prod.fst := by
  induction d with
  | nil => simp at h
  | cons p rest ih =>
    obtain ⟨k', v'⟩ := p
    by_cases hk : k' = k
    · subst hk
      simp [alistSet]
    · simp only [List.map_cons, List.mem_cons] at h
      rcases h with h | h
    
      · exact absurd h.symm hk
      · simp [alistSet, hk, ih h]

theorem alistSet_of_not_mem {κ α : Type} [DecidableEq κ] {d : List (κ × α)} {k : κ}
    (v : α) (h : k ∉ d.map Prod.fst) :
    alistSet d k v = d ++ [(k, v)] := by
  induction d with
  | nil => simp [alistSet]
  | cons p rest ih =>
    obtain ⟨k', v'⟩ := p
    simp only [List.map_cons, List.mem_cons] at h
    push_neg at h
    simp [alistSet, Ne.symm h.1, ih h.2]

theorem mem_alistSet_weak {κ α : Type} [DecidableEq κ] {d : List (κ × α)} {k : κ} {v : α}
    {p : κ × α} (h : p ∈ alistSet d k v) : p = (k, v) ∨ p ∈ d := by
  induction d with
  | nil =>
    simp only [alistSet, List.mem_singleton] at h
    exact Or.inl h
  | cons q rest ih =>
    obtain ⟨k', v'⟩ := q
    by_cases hk : k' = k
    · subst hk
      have h2 : p = (k', v) ∨ p ∈ rest := by simpa [alistSet] using h
      rcases h2 with h2 | h2
      · exact Or.inl h2
      · exact Or.inr (List.mem_cons_of_mem _ h2)
    · simp only [alistSet, if_neg hk, List.mem_cons] at h
      rcases h with h | h
      · exact Or.inr (h ▸ List.mem_cons_self _ _)
      · rcases ih h with h | h
        · exact Or.inl h
        · exact Or.inr (List.mem_cons_of_mem _ h)

theorem mem_alistSet_nodup {κ α : Type} [DecidableEq κ] {d : List (κ × α)} {k : κ} {v : α}
    (hnd : (d.map Prod.fst).Nodup) {p : κ × α} (h : p ∈ alistSet d k v) :
    p = (k, v) ∨ (p ∈ d ∧ p.1 ≠ k) := by
  induction d with
  | nil =>
    simp only [alistSet, List.mem_singleton] at h
    exact Or.inl h
  | cons q rest ih =>
    obtain ⟨k', v'⟩ := q
    simp only [List.map_cons, List.nodup_cons] at hnd
    by_cases hk : k' = k
    · subst hk
      have h2 : p = (k', v) ∨ p ∈ rest := by simpa [alistSet] using h
      rcases h2 with h2 | h2
      · exact Or.inl h2
      · refine Or.inr ⟨List.mem_cons_of_mem _ h2, ?_⟩
        intro he
        exact hnd.1 (he ▸ List.mem_map_of_mem Prod.fst h2)
    · simp only [alistSet, if_neg hk, List.mem_cons] at h
      rcases h with h | h
      · exact Or.inr ⟨h ▸ List.mem_cons_self _ _, h ▸ hk⟩
      · rcases ih hnd.2 h with h' | h'
        · exact Or.inl h'
        · exact Or.inr ⟨List.mem_cons_of_mem _ h'.1, h'.2⟩

theorem alistSet_keys_nodup {κ α : Type} [DecidableEq κ] {d : List (κ × α)} {k : κ} (v : α)
    (hnd : (d.map Prod.fst).Nodup) : ((alistSet d k v).map Prod.fst).Nodup := by
  by_cases h : k ∈ d.map Prod.fst
  · rw [alistSet_keys_of_mem v h]
    exact hnd
  · rw [alistSet_of_not_mem v h]
    simp only [List.map_append, List.map_cons, List.map_nil]
    refine List.Nodup.append hnd (List.nodup_singleton k) ?_
    intro a ha hb
    exact h ((List.mem_singleton.1 hb) ▸ ha)

/-! ### Card tracker (`psrc/detection/card_tracker.py`) -/

namespace CardTracker

/-- `TrackState.TENTATIVE`. -/
def TENTATIVE : Nat := 0

/-- `TrackState.CONFIRMED`. -/
def CONFIRMED : Nat := 1

/-- `TrackState.DELETED`. -/
def DELETED : Nat := 2

/-- Embedding of the `Track` class: one tracked card. -/
structure Track where
  track_id : Nat
  bbox : Box
  label : Option Int
  state : Nat
  hits : Nat
  misses : Nat
deriving DecidableEq, Repr

/-- `Track.__init__`: a fresh tentative track with one hit. -/
def Track.create (track_id : Nat) (bbox : Box) (label : Option Int) : Track :=
  { track_id := track_id, bbox := bbox, label := label,
    state := TENTATIVE, hits := 1, misses := 0 }

/-- `Track.register_hit`: update box and label, reset misses, increment hits. -/
def Track.register_hit (t : Track) (bbox : Box) (label : Option Int) : Track :=
  { t with bbox := bbox, label := label, misses := 0, hits := t.hits + 1 }

/-- `Track.register_miss`: increment misses, reset hits. -/
def Track.register_miss (t : Track) : Track :=
  { t with misses := t.misses + 1, hits := 0 }

/-- Per-detection info dictionary (the values of the `detections` mapping):
a label (possibly absent) and a confidence. -/
structure DetInfo where
  label : Option Int
  confidence : ℚ
deriving DecidableEq, Repr

/-- The mutable state of a `CardTracker` object. The optional confirmation
callback is modelled separately: `update_tracks` returns the list of tracks
the callback was invoked on, in invocation order. -/
structure TrackerState where
  tracks : List (Nat × Track)
  next_track_id : Nat
  confidence_threshold : ℚ
  iou_threshold : ℚ
  confirmation_frames : Nat
  removal_frames : Nat
deriving DecidableEq, Repr

/-- One entry of the `_compute_iou` matrix: pairwise IoU with the `1e-6`
epsilon added to the denominator. -/
def iou (b1 b2 : Box) : ℚ :=
  let xA := max b1.x1 b2.x1
  let yA := max b1.y1 b2.y1
  let xB := min b1.x2 b2.x2
  let yB := min b1.y2 b2.y2
  let interArea := max 0 (xB - xA) * max 0 (yB - yA)
  let boxArea1 := (b1.x2 - b1.x1) * (b1.y2 - b1.y1)
  let boxArea2 := (b2.x2 - b2.x1) * (b2.y2 - b2.y1)
  interArea / (boxArea1 + boxArea2 - interArea + 1 / 1000000)

/-- Abstract interface for scipy's `linear_sum_assignment` (an external
library, out of scope): from the track boxes and detection boxes (from
which the cost matrix `1 - iou` is formed) it returns `(row, column)`
index pairs. -/
def Solver : Type := List Box → List Box → List (Nat × Nat)

/-- The output shape scipy guarantees for `linear_sum_assignment`:
indices in range, and no row or column selected twice. -/
def ValidAssignment (pairs : List (Nat × Nat)) (nTracks nDets : Nat) : Prop :=
  (∀ p ∈ pairs, p.1 < nTracks ∧ p.2 < nDets) ∧
  (pairs.map Prod.fst).Nodup ∧ (pairs.map Prod.snd).Nodup

/-- One iteration of the acceptance loop of `_data_association`: accept a
solver pair `(r, c)` only when its IoU meets the threshold, recording the
accepted assignment under the r-th track id and removing `c` from the
unmatched set. The Python unmatched set of small nonnegative ints is
modelled as the increasing list `range`; `set.remove` is `List.erase`. -/
def assoc_step (iou_threshold : ℚ) (track_boxes : List Box) (track_ids : List Nat)
    (detection_boxes : List Box) (acc : List (Nat × Nat) × List Nat)
    (rc : Nat × Nat) : List (Nat × Nat) × List Nat :=
  if iou (track_boxes.getD rc.1 ⟨0, 0, 0, 0⟩) (detection_boxes.getD rc.2 ⟨0, 0, 0, 0⟩) ≥
      iou_threshold then
    (alistSet acc.1 (track_ids.getD rc.1 0) rc.2, acc.2.erase rc.2)
  else acc

/-- Embedding of the acceptance loop of `_data_association` over the
solver's `(row, column)` pairs. -/
def data_association (solver : Solver) (st : TrackerState)
    (detection_boxes : List Box) : List (Nat × Nat) × List Nat :=
  if detection_boxes.length = 0 then ([], [])
  else
    let track_boxes := st.tracks.map (fun p => p.2.bbox)
    let track_ids := st.tracks.map (fun p => p.1)
    let pairs := solver track_boxes detection_boxes
    pairs.foldl (assoc_step st.iou_threshold track_boxes track_ids detection_boxes)
      ([], List.range detection_boxes.length)

/-- `detections.get(tuple(bbox), {}).get("label", None)`. -/
def lookup_label (detections : List (Box × DetInfo)) (bbox : Box) : Option Int :=
  match alistGet? detections bbox with
  | some info => info.label
  | none => none

/-- The body of the assignment loop of `_update_tracks` for one accepted
pair: register a hit, then—if the track is tentative and its hits reached
`confirmation_frames`—set it confirmed and fire the callback (flag). -/
def hit_step (confirmation_frames : Nat) (t : Track) (bbox : Box) (label : Option Int) :
    Track × Bool :=
  let t := t.register_hit bbox label
  if t.state = TENTATIVE ∧ t.hits ≥ confirmation_frames then
    ({ t with state := CONFIRMED }, true)
  else (t, false)

/-- One iteration of the assignment loop of `_update_tracks`: look up the
assigned track (the source indexes `self.tracks[track_id]` directly; the
ids produced by `_data_association` are always present), register the hit
and record the confirmation callback when it fires. -/
def assign_step (confirmation_frames : Nat) (detection_boxes : List Box)
    (detections : List (Box × DetInfo)) (acc : List (Nat × Track) × List Track)
    (a : Nat × Nat) : List (Nat × Track) × List Track :=
  match alistGet? acc.1 a.1 with
  | none => acc
  | some track =>
    let detection_bbox := detection_boxes.getD a.2 ⟨0, 0, 0, 0⟩
    let detection_label := lookup_label detections detection_bbox
    let r := hit_step confirmation_frames track detection_bbox detection_label
    (alistSet acc.1 a.1 r.1, if r.2 then acc.2 ++ [r.1] else acc.2)

/-- The miss loop of `_update_tracks` for one track: keep assigned tracks,
register a miss on the others and delete them past `removal_frames`. -/
def miss_step (removal_frames : Nat) (assignments : List (Nat × Nat))
    (p : Nat × Track) : Option (Nat × Track) :=
  if (assignments.map Prod.fst).contains p.1 then some p
  else
    let t := p.2.register_miss
    if t.misses > removal_frames then none else some (p.1, t)

/-- The new-track loop of `_update_tracks` for one unmatched detection:
spawn a tentative track under the next (monotonically increasing) id. -/
def spawn_step (detection_boxes : List Box) (detections : List (Box × DetInfo))
    (acc : List (Nat × Track) × Nat) (det_idx : Nat) : List (Nat × Track) × Nat :=
  let new_bbox := detection_boxes.getD det_idx ⟨0, 0, 0, 0⟩
  let detection_label := lookup_label detections new_bbox
  (alistSet acc.1 acc.2 (Track.create acc.2 new_bbox detection_label), acc.2 + 1)

/-- Embedding of `CardTracker._update_tracks`. Returns the new state and
the list of tracks passed to the confirmation callback, in order. The
unmatched-detection set is iterated in increasing index order, modelling
the Python set of small nonnegative ints. -/
def update_tracks (st : TrackerState) (assignments : List (Nat × Nat))
    (unmatched : List Nat) (detection_boxes : List Box)
    (detections : List (Box × DetInfo)) : TrackerState × List Track :=
  -- Process tracks that have been assigned a detection
  let phase1 := assignments.foldl
    (assign_step st.confirmation_frames detection_boxes detections) (st.tracks, [])
  -- Process tracks that did not receive a matching detection
  let tracks2 := phase1.1.filterMap (miss_step st.removal_frames assignments)
  -- Create new tracks for any detection that was not matched
  let step3 := unmatched.foldl (spawn_step detection_boxes detections)
    (tracks2, st.next_track_id)
  ({ st with tracks := step3.1, next_track_id := step3.2 }, phase1.2)

/-- The per-track dictionary returned by `CardTracker.update`. -/
structure TrackView where
  bbox : Box
  label : Option Int
  state : Nat
deriving DecidableEq, Repr

/-- Embedding of `CardTracker.update`: association, track update, and the
returned mapping of track ids to tracking info (with the confirmation
callback log in between). -/
def update (solver : Solver) (st : TrackerState) (detections : List (Box × DetInfo)) :
    TrackerState × List Track × List (Nat × TrackView) :=
  let detection_boxes := detections.map Prod.fst
  let assoc := data_association solver st detection_boxes
  let r := update_tracks st assoc.1 assoc.2 detection_boxes detections
  (r.1, r.2, r.1.tracks.map (fun p => (p.1, ⟨p.2.bbox, p.2.label, p.2.state⟩)))

end CardTracker

namespace CardTracker

theorem hit_step_misses (cf : Nat) (t : Track) (b : Box) (l : Option Int) :
    (hit_step cf t b l).1.misses = 0 := by
  simp only [hit_step, Track.register_hit]
  split <;> rfl

theorem hit_step_hits (cf : Nat) (t : Track) (b : Box) (l : Option Int) :
    (hit_step cf t b l).1.hits = t.hits + 1 := by
  simp only [hit_step, Track.register_hit]
  split <;> rfl

theorem assign_step_keys (cf : Nat) (db : List Box) (dets : List (Box × DetInfo))
    (acc : List (Nat × Track) × List Track) (a : Nat × Nat) :
    (assign_step cf db dets acc a).1.map Prod.fst = acc.1.map Prod.fst := by
  unfold assign_step
  cases h : alistGet? acc.1 a.1 with
  | none => rfl
  | some track =>
    exact alistSet_keys_of_mem _ (List.mem_map_of_mem Prod.fst (alistGet?_mem h))

theorem phase1_fold_keys (cf : Nat) (db : List Box) (dets : List (Box × DetInfo))
    (assignments : List (Nat × Nat)) (acc : List (Nat × Track) × List Track) :
    (assignments.foldl (assign_step cf db dets) acc).1.map Prod.fst = acc.1.map Prod.fst := by
  induction assignments generalizing acc with
  | nil => rfl
  | cons a rest ih =>
    rw [List.foldl_cons, ih, assign_step_keys]

theorem phase1_fold_mem (cf : Nat) (db : List Box) (dets : List (Box × DetInfo))
    (assignments : List (Nat × Nat)) (acc : List (Nat × Track) × List Track)
    (hnd : (acc.1.map Prod.fst).Nodup) :
    ∀ p ∈ (assignments.foldl (assign_step cf db dets) acc).1,
      (p ∈ acc.1 ∧ p.1 ∉ assignments.map Prod.fst) ∨ p.2.misses = 0 := by
  induction assignments generalizing acc with
  | nil =>
    intro p hp
    exact Or.inl ⟨hp, by simp⟩
  | cons a rest ih =>
    intro p hp
    rw [List.foldl_cons] at hp
    have hnd' : ((assign_step cf db dets acc a).1.map Prod.fst).Nodup := by
      rw [assign_step_keys]; exact hnd
    rcases ih (assign_step cf db dets acc a) hnd' p hp with ⟨hmem, hnot⟩ | hm
    · revert hmem
      unfold assign_step
      cases h : alistGet? acc.1 a.1 with
      | none =>
        intro hmem
        refine Or.inl ⟨hmem, ?_⟩
        have ha : a.1 ∉ acc.1.map Prod.fst := alistGet?_eq_none_iff.1 h
        have hp1 : p.1 ∈ acc.1.map Prod.fst := List.mem_map_of_mem Prod.fst hmem
        simp only [List.map_cons, List.mem_cons]
        rintro (he | he)
        · exact ha (he ▸ hp1)
        · exact hnot he
      | some track =>
        intro hmem
        rcases mem_alistSet_nodup hnd hmem with he | ⟨hmem', hne⟩
        · exact Or.inr (he ▸ hit_step_misses cf track _ _)
        · refine Or.inl ⟨hmem', ?_⟩
          simp only [List.map_cons, List.mem_cons]
          rintro (he | he)
          · exact hne he
          · exact hnot he
    · exact Or.inr hm

theorem spawn_fold_mem (db : List Box) (dets : List (Box × DetInfo))
    (unmatched : List Nat) (acc : List (Nat × Track) × Nat) :
    ∀ p ∈ (unmatched.foldl (spawn_step db dets) acc).1,
      p ∈ acc.1 ∨ (p.2.hits = 1 ∧ p.2.misses = 0 ∧ p.2.state = TENTATIVE) := by
  induction unmatched generalizing acc with
  | nil => intro p hp; exact Or.inl hp
  | cons i rest ih =>
    intro p hp
    rw [List.foldl_cons] at hp
    rcases ih (spawn_step db dets acc i) p hp with hmem | hnew
    · unfold spawn_step at hmem
      rcases mem_alistSet_weak hmem with he | hmem'
      · exact Or.inr (by rw [he]; exact ⟨rfl, rfl, rfl⟩)
      · exact Or.inl hmem'
    · exact Or.inr hnew

/-- Claim C9: hit/miss mutual exclusion. Creation gives (hits, misses) =
(1, 0) in the tentative state, `register_hit` zeroes `misses`,
`register_miss` zeroes `hits`, and after any `CardTracker.update` step
(on a well-formed track dictionary) no live track has both counters
nonzero. -/
theorem track_hit_miss_exclusion :
    (∀ id b l, (Track.create id b l).hits = 1 ∧ (Track.create id b l).misses = 0 ∧
      (Track.create id b l).state = TENTATIVE) ∧
    (∀ t b l, (Track.register_hit t b l).misses = 0) ∧
    (∀ t, (Track.register_miss t).hits = 0) ∧
    (∀ (solver : Solver) (st : TrackerState) (dets : List (Box × DetInfo)),
      (st.tracks.map Prod.fst).Nodup →
      ∀ p ∈ (update solver st dets).1.tracks, p.2.hits = 0 ∨ p.2.misses = 0) := by
  refine ⟨fun id b l => ⟨rfl, rfl, rfl⟩, fun t b l => rfl, fun t => rfl, ?_⟩
  intro solver st dets hnd p hp
  simp only [update, update_tracks] at hp
  rcases spawn_fold_mem _ _ _ _ p hp with hp2 | hnew
  · rcases List.mem_filterMap.1 hp2 with ⟨q, hq, hstep⟩
    have hq' := phase1_fold_mem st.confirmation_frames _ _ _ (st.tracks, []) hnd q hq
    unfold miss_step at hstep
    by_cases hc : (((data_association solver st (dets.map Prod.fst)).1.map Prod.fst).contains q.1 : Bool)
    · rw [if_pos hc] at hstep
      rcases hq' with ⟨_, hnot⟩ | hm
      · exact absurd (by simpa using hc) hnot
      · injection hstep with hstep
        exact Or.inr (hstep ▸ hm)
    · rw [if_neg hc] at hstep
      by_cases hdel : q.2.register_miss.misses > st.removal_frames
      · rw [if_pos hdel] at hstep
        exact absurd hstep (by simp)
      · rw [if_neg hdel] at hstep
        injection hstep with hstep
        exact Or.inl (hstep ▸ rfl)
  · exact Or.inr hnew.2.1

/-- Witness for C9 at a concrete update: an empty tracker receiving one
detection spawns one tentative track, which satisfies the exclusion. -/
theorem track_hit_miss_exclusion_witness :
    ((0, Track.create 0 ⟨0, 0, 1, 1⟩ (some 3)) : Nat × Track).2.hits = 0 ∨
    ((0, Track.create 0 ⟨0, 0, 1, 1⟩ (some 3)) : Nat × Track).2.misses = 0 :=
  track_hit_miss_exclusion.2.2.2 (fun _ _ => [])
    { tracks := [], next_track_id := 0, confidence_threshold := 0,
      iou_threshold := 1/2, confirmation_frames := 5, removal_frames := 10 }
    [(⟨0, 0, 1, 1⟩, ⟨some 3, 9/10⟩)] (by decide) _ (by decide)

end CardTracker

namespace CardTracker

theorem lookup_label_cons (q : Box × DetInfo) (l : List (Box × DetInfo)) (b : Box) :
    lookup_label (q :: l) b = if q.1 = b then q.2.label else lookup_label l b := by
  by_cases h : q.1 = b
  · simp [lookup_label, alistGet?, h]
  · simp [lookup_label, alistGet?, h]

theorem lookup_label_proj {dets dets' : List (Box × DetInfo)}
    (h : dets'.map (fun p => (p.1, p.2.label)) = dets.map (fun p => (p.1, p.2.label))) :
    lookup_label dets' = lookup_label dets := by
  funext b
  induction dets generalizing dets' with
  | nil =>
    cases dets' with
    | nil => rfl
    | cons q rest' => simp at h
  | cons p rest ih =>
    cases dets' with
    | nil => simp at h
    | cons q rest' =>
      simp only [List.map_cons, List.cons.injEq, Prod.mk.injEq] at h
      rw [lookup_label_cons, lookup_label_cons, h.1.1, h.1.2, ih h.2]

/-- Claim C10: the tracker ignores confidence. Changing the stored
`confidence_threshold` and the `confidence` entries of the detection
infos (keeping boxes and labels) leaves the updated track dictionary,
the allocated ids, the confirmation-callback log and the returned
track views unchanged. -/
theorem update_ignores_confidence (solver : Solver) (st : TrackerState) (ct' : ℚ)
    (dets dets' : List (Box × DetInfo))
    (h : dets'.map (fun p => (p.1, p.2.label)) = dets.map (fun p => (p.1, p.2.label))) :
    (update solver { st with confidence_threshold := ct' } dets').1.tracks
      = (update solver st dets).1.tracks ∧
    (update solver { st with confidence_threshold := ct' } dets').1.next_track_id
      = (update solver st dets).1.next_track_id ∧
    (update solver { st with confidence_threshold := ct' } dets').2
      = (update solver st dets).2 := by
  have hboxes : dets'.map Prod.fst = dets.map Prod.fst := by
    have h2 := congrArg (List.map Prod.fst) h
    simpa [List.map_map] using h2
  have hlab : lookup_label dets' = lookup_label dets := lookup_label_proj h
  have hassign : assign_step st.confirmation_frames (dets.map Prod.fst) dets'
      = assign_step st.confirmation_frames (dets.map Prod.fst) dets := by
    funext acc a
    simp only [assign_step, hlab]
  have hspawn : spawn_step (dets.map Prod.fst) dets'
      = spawn_step (dets.map Prod.fst) dets := by
    funext acc i
    simp only [spawn_step, hlab]
  simp only [update, update_tracks, data_association, hboxes, hassign, hspawn]
  exact ⟨trivial, trivial, trivial⟩

/-- Witness for C10 at concrete inputs: same box and label, different
confidences and thresholds, identical tracking results. -/
theorem update_ignores_confidence_witness :
    (update (fun _ _ => [(0, 0)])
        { tracks := [(0, Track.create 0 ⟨0, 0, 1, 1⟩ (some 4))], next_track_id := 1,
          confidence_threshold := 7, iou_threshold := 1/2,
          confirmation_frames := 2, removal_frames := 3 }
        [(⟨0, 0, 1, 1⟩, ⟨some 4, 1/10⟩)]).1.tracks
      = (update (fun _ _ => [(0, 0)])
          { tracks := [(0, Track.create 0 ⟨0, 0, 1, 1⟩ (some 4))], next_track_id := 1,
            confidence_threshold := 3/10, iou_threshold := 1/2,
            confirmation_frames := 2, removal_frames := 3 }
          [(⟨0, 0, 1, 1⟩, ⟨some 4, 9/10⟩)]).1.tracks ∧
    (update (fun _ _ => [(0, 0)])
        { tracks := [(0, Track.create 0 ⟨0, 0, 1, 1⟩ (some 4))], next_track_id := 1,
          confidence_threshold := 7, iou_threshold := 1/2,
          confirmation_frames := 2, removal_frames := 3 }
        [(⟨0, 0, 1, 1⟩, ⟨some 4, 1/10⟩)]).1.next_track_id
      = (update (fun _ _ => [(0, 0)])
          { tracks := [(0, Track.create 0 ⟨0, 0, 1, 1⟩ (some 4))], next_track_id := 1,
            confidence_threshold := 3/10, iou_threshold := 1/2,
            confirmation_frames := 2, removal_frames := 3 }
          [(⟨0, 0, 1, 1⟩, ⟨some 4, 9/10⟩)]).1.next_track_id ∧
    (update (fun _ _ => [(0, 0)])
        { tracks := [(0, Track.create 0 ⟨0, 0, 1, 1⟩ (some 4))], next_track_id := 1,
          confidence_threshold := 7, iou_threshold := 1/2,
          confirmation_frames := 2, removal_frames := 3 }
        [(⟨0, 0, 1, 1⟩, ⟨some 4, 1/10⟩)]).2
      = (update (fun _ _ => [(0, 0)])
          { tracks := [(0, Track.create 0 ⟨0, 0, 1, 1⟩ (some 4))], next_track_id := 1,
            confidence_threshold := 3/10, iou_threshold := 1/2,
            confirmation_frames := 2, removal_frames := 3 }
          [(⟨0, 0, 1, 1⟩, ⟨some 4, 9/10⟩)]).2 :=
  update_ignores_confidence (fun _ _ => [(0, 0)])
    { tracks := [(0, Track.create 0 ⟨0, 0, 1, 1⟩ (some 4))], next_track_id := 1,
      confidence_threshold := 3/10, iou_threshold := 1/2,
      confirmation_frames := 2, removal_frames := 3 }
    7 [(⟨0, 0, 1, 1⟩, ⟨some 4, 9/10⟩)] [(⟨0, 0, 1, 1⟩, ⟨some 4, 1/10⟩)] (by decide)

end CardTracker

theorem nodup_append_singleton {α : Type} {l : List α} {a : α}
    (hl : l.Nodup) (ha : a ∉ l) : (l ++ [a]).Nodup := by
  refine List.Nodup.append hl (List.nodup_singleton a) ?_
  intro x hx hx'
  exact ha ((List.mem_singleton.1 hx') ▸ hx)

namespace CardTracker

/-- Invariant of `_data_association`'s acceptance loop: accepted pairs
meet the IoU threshold against the looked-up track, the assignment is
one-to-one, and the unmatched set holds exactly the unassigned detection
indices. -/
def AssocInv (θ : ℚ) (d : List (Nat × Track)) (db : List Box)
    (res : List (Nat × Nat) × List Nat) : Prop :=
  (∀ a ∈ res.1, ∃ tr, alistGet? d a.1 = some tr ∧
      θ ≤ iou tr.bbox (db.getD a.2 ⟨0, 0, 0, 0⟩) ∧ a.2 < db.length) ∧
  (res.1.map Prod.fst).Nodup ∧ (res.1.map Prod.snd).Nodup ∧
  (∀ c, c ∈ res.2 ↔ (c < db.length ∧ c ∉ res.1.map Prod.snd)) ∧
  res.2.Nodup

theorem assoc_fold_spec (θ : ℚ) (d : List (Nat × Track)) (db : List Box)
    (hnd : (d.map Prod.fst).Nodup) :
    ∀ (ps : List (Nat × Nat)) (asg : List (Nat × Nat)) (unm : List Nat),
    (ps.map Prod.fst).Nodup → (ps.map Prod.snd).Nodup →
    (∀ rc ∈ ps, rc.1 < d.length ∧ rc.2 < db.length) →
    AssocInv θ d db (asg, unm) →
    (∀ rc ∈ ps, (d.map (fun p => p.1)).getD rc.1 0 ∉ asg.map Prod.fst ∧
      rc.2 ∉ asg.map Prod.snd) →
    AssocInv θ d db
      (ps.foldl (assoc_step θ (d.map (fun p => p.2.bbox)) (d.map (fun p => p.1)) db)
        (asg, unm)) := by
  intro ps
  induction ps with
  | nil => intro asg unm _ _ _ hinv _; exact hinv
  | cons rc rest ih =>
    intro asg unm hf hs hb hinv hfresh
    obtain ⟨ha, hafst, hasnd, hcu, hcn⟩ := hinv
    simp only [List.map_cons, List.nodup_cons] at hf hs
    have hrc := hb rc (List.mem_cons_self rc rest)
    rw [List.foldl_cons]
    unfold assoc_step
    by_cases hacc :
        iou ((d.map (fun p => p.2.bbox)).getD rc.1 ⟨0, 0, 0, 0⟩) (db.getD rc.2 ⟨0, 0, 0, 0⟩) ≥ θ
    · rw [if_pos hacc]
      -- the accepted pair, rewritten through the index maps
      have hi1 : rc.1 < (d.map (fun p => (p : Nat × Track).1)).length := by
        simpa using hrc.1
      have hi2 : rc.1 < (d.map (fun p => (p : Nat × Track).2.bbox)).length := by
        simpa using hrc.1
      have htid : (d.map (fun p => p.1)).getD rc.1 0 = (d.get ⟨rc.1, hrc.1⟩).1 := by
        rw [List.getD_eq_get _ _ hi1, List.get_map]
      have htb : (d.map (fun p => p.2.bbox)).getD rc.1 ⟨0, 0, 0, 0⟩
          = (d.get ⟨rc.1, hrc.1⟩).2.bbox := by
        rw [List.getD_eq_get _ _ hi2, List.get_map]
      have hfr := hfresh rc (List.mem_cons_self rc rest)
      have hset : alistSet asg ((d.map (fun p => p.1)).getD rc.1 0) rc.2
          = asg ++ [((d.map (fun p => p.1)).getD rc.1 0, rc.2)] :=
        alistSet_of_not_mem _ hfr.1
      rw [hset]
      refine ih _ _ hf.2 hs.2 (fun x hx => hb x (List.mem_cons_of_mem _ hx)) ?_ ?_
      · refine ⟨?_, ?_, ?_, ?_, ?_⟩
        · intro a hamem
          rcases List.mem_append.1 hamem with h | h
          · exact ha a h
          · rw [List.mem_singleton] at h
            obtain ⟨a1, a2⟩ := a
            rw [Prod.mk.injEq] at h
            obtain ⟨h1, h2⟩ := h
            subst h1
            subst h2
            refine ⟨(d.get ⟨rc.1, hrc.1⟩).2, ?_, ?_, hrc.2⟩
            · rw [htid]
              exact alistGet?_eq_some_of_mem_nodup hnd (List.get_mem d _ _)
            · rw [htb] at hacc
              exact hacc
        · simp only [List.map_append, List.map_cons, List.map_nil]
          exact nodup_append_singleton hafst hfr.1
        · simp only [List.map_append, List.map_cons, List.map_nil]
          exact nodup_append_singleton hasnd hfr.2
        · intro c
          rw [(List.Nodup.mem_erase_iff hcn : c ∈ unm.erase rc.2 ↔ _), hcu c]
          simp only [List.map_append, List.map_cons, List.map_nil, List.mem_append,
            List.mem_singleton]
          constructor
          · rintro ⟨hne, hlt, hnm⟩
            exact ⟨hlt, fun hc => hc.elim hnm hne⟩
          · rintro ⟨hlt, hnm⟩
            push_neg at hnm
            exact ⟨hnm.2, hlt, hnm.1⟩
        · exact List.Nodup.erase _ hcn
      · intro rc' hrc'
        have hfr' := hfresh rc' (List.mem_cons_of_mem _ hrc')
        have hb' := hb rc' (List.mem_cons_of_mem _ hrc')
        constructor
        · simp only [List.map_append, List.map_cons, List.map_nil, List.mem_append,
            List.mem_singleton]
          rintro (hc | hc)
          · exact hfr'.1 hc
          · -- distinct rows give distinct track ids
            have hi1' : rc'.1 < (d.map (fun p => (p : Nat × Track).1)).length := by
              simpa using hb'.1
            have htid' : (d.map (fun p => p.1)).getD rc'.1 0 = (d.get ⟨rc'.1, hb'.1⟩).1 := by
              rw [List.getD_eq_get _ _ hi1', List.get_map]
            rw [htid', htid] at hc
            have hnd' : ((d.map fun p => (p : Nat × Track).1)).Nodup := hnd
            have hg : (d.map fun p => (p : Nat × Track).1).get ⟨rc'.1, hi1'⟩
                = (d.map fun p => (p : Nat × Track).1).get ⟨rc.1, hi1⟩ := by
              rw [List.get_map, List.get_map]
              exact hc
            have heq : rc'.1 = rc.1 :=
              congrArg Fin.val ((List.Nodup.get_inj_iff hnd').1 hg)
            exact hf.1 (heq ▸ List.mem_map_of_mem Prod.fst hrc')
        · simp only [List.map_append, List.map_cons, List.map_nil, List.mem_append,
            List.mem_singleton]
          rintro (hc | hc)
          · exact hfr'.2 hc
          · exact hs.1 (hc ▸ List.mem_map_of_mem Prod.snd hrc')
    · rw [if_neg hacc]
      refine ih _ _ hf.2 hs.2 (fun x hx => hb x (List.mem_cons_of_mem _ hx))
        ⟨ha, hafst, hasnd, hcu, hcn⟩
        (fun rc' hrc' => hfresh rc' (List.mem_cons_of_mem _ hrc'))

end CardTracker

namespace CardTracker

/-- Claim C6: assignment threshold enforcement. On any tracker state with
well-formed (duplicate-free) track dictionary and any lawful solver
output, every accepted (track, detection) pair meets the IoU threshold,
the accepted assignment is one-to-one, and each detection index is
either assigned (to exactly one track) or in the unmatched set, never
both. -/
theorem data_association_threshold (solver : Solver) (st : TrackerState)
    (detection_boxes : List Box)
    (hnd : (st.tracks.map Prod.fst).Nodup)
    (hva : ValidAssignment (solver (st.tracks.map (fun p => p.2.bbox)) detection_boxes)
      st.tracks.length detection_boxes.length) :
    (∀ a ∈ (data_association solver st detection_boxes).1,
      ∃ tr, alistGet? st.tracks a.1 = some tr ∧
        st.iou_threshold ≤ iou tr.bbox (detection_boxes.getD a.2 ⟨0, 0, 0, 0⟩) ∧
        a.2 < detection_boxes.length) ∧
    ((data_association solver st detection_boxes).1.map Prod.fst).Nodup ∧
    ((data_association solver st detection_boxes).1.map Prod.snd).Nodup ∧
    (∀ c < detection_boxes.length,
      (c ∈ (data_association solver st detection_boxes).2 ↔
        c ∉ (data_association solver st detection_boxes).1.map Prod.snd)) := by
  by_cases hlen : detection_boxes.length = 0
  · simp only [data_association, if_pos hlen]
    refine ⟨by simp, by simp, by simp, ?_⟩
    intro c hc
    exact absurd (hlen ▸ hc) (Nat.not_lt_zero c)
  · obtain ⟨hbounds, hfstnd, hsndnd⟩ := hva
    have hinit : AssocInv st.iou_threshold st.tracks detection_boxes
        ([], List.range detection_boxes.length) := by
      unfold AssocInv
      refine ⟨by simp, by simp, by simp, ?_, by simpa using List.nodup_range _⟩
      intro c
      simp [List.mem_range]
    have key := assoc_fold_spec st.iou_threshold st.tracks detection_boxes hnd
      (solver (st.tracks.map (fun p => p.2.bbox)) detection_boxes)
      [] (List.range detection_boxes.length)
      hfstnd hsndnd hbounds hinit (by simp)
    have hda : data_association solver st detection_boxes
        = (solver (st.tracks.map (fun p => p.2.bbox)) detection_boxes).foldl
            (assoc_step st.iou_threshold (st.tracks.map (fun p => p.2.bbox))
              (st.tracks.map (fun p => p.1)) detection_boxes)
            ([], List.range detection_boxes.length) := by
      simp only [data_association, if_neg hlen]
    rw [hda]
    obtain ⟨k1, k2, k3, k4, _⟩ := key
    refine ⟨k1, k2, k3, ?_⟩
    intro c hc
    constructor
    · intro hcm
      exact ((k4 c).1 hcm).2
    · intro hcn
      exact (k4 c).2 ⟨hc, hcn⟩

/-- Witness for C6 at a concrete state: one track, one coincident
detection, diagonal solver; the pair is accepted and meets the
threshold. -/
theorem data_association_threshold_witness :
    ∃ tr, alistGet? [((0 : Nat), Track.create 0 ⟨0, 0, 2, 2⟩ (some 1))] 0 = some tr ∧
      (1 : ℚ)/2 ≤ iou tr.bbox (([⟨0, 0, 2, 2⟩] : List Box).getD 0 ⟨0, 0, 0, 0⟩) ∧
      0 < ([⟨0, 0, 2, 2⟩] : List Box).length :=
  (data_association_threshold (fun _ _ => [(0, 0)])
      { tracks := [(0, Track.create 0 ⟨0, 0, 2, 2⟩ (some 1))], next_track_id := 1,
        confidence_threshold := 0, iou_threshold := 1/2,
        confirmation_frames := 5, removal_frames := 10 }
      [⟨0, 0, 2, 2⟩] (by decide)
      (by unfold ValidAssignment; decide)).1 (0, 0)
    (by
      have hiou : (2 : ℚ)⁻¹ ≤ iou (Track.create 0 ⟨0, 0, 2, 2⟩ (some 1)).bbox ⟨0, 0, 2, 2⟩ := by
        unfold iou Track.create
        norm_num
      simp [data_association, assoc_step, alistSet, hiou])

end CardTracker

namespace CardTracker

/-- Scenario harness for the lifecycle claim: feed a tentative-or-confirmed
track a sequence of matched detections, one `hit_step` (the assignment-loop
body of `_update_tracks`) per frame, counting confirmation-callback
firings. -/
def feed_hits (cf : Nat) (t : Track) : List (Box × Option Int) → Track × Nat
  | [] => (t, 0)
  | p :: rest =>
    let r := hit_step cf t p.1 p.2
    let r2 := feed_hits cf r.1 rest
    (r2.1, (if r.2 then 1 else 0) + r2.2)

theorem hit_step_not_tentative (cf : Nat) {t : Track} (h : ¬ t.state = TENTATIVE)
    (b : Box) (l : Option Int) : hit_step cf t b l = (t.register_hit b l, false) := by
  unfold hit_step
  rw [if_neg]
  intro hc
  exact h hc.1

theorem feed_hits_confirmed (cf : Nat) {t : Track} (h : t.state = CONFIRMED) :
    ∀ bl, (feed_hits cf t bl).1.state = CONFIRMED ∧ (feed_hits cf t bl).2 = 0 := by
  intro bl
  induction bl generalizing t with
  | nil => exact ⟨h, rfl⟩
  | cons p rest ih =>
    have hnt : ¬ t.state = TENTATIVE := by
      rw [h]
      decide
    simp only [feed_hits, hit_step_not_tentative cf hnt]
    have hst : (t.register_hit p.1 p.2).state = CONFIRMED := h
    have := ih hst
    exact ⟨this.1, by simp [this.2]⟩

theorem feed_hits_below (cf : Nat) {t : Track} (h : t.state = TENTATIVE) :
    ∀ bl, t.hits + bl.length < cf →
      (feed_hits cf t bl).1.state = TENTATIVE ∧
      (feed_hits cf t bl).1.hits = t.hits + bl.length ∧
      (feed_hits cf t bl).2 = 0 := by
  intro bl
  induction bl generalizing t with
  | nil => exact fun _ => ⟨h, by simp [feed_hits], rfl⟩
  | cons p rest ih =>
    intro hlt
    have hfire : ¬ ((t.register_hit p.1 p.2).state = TENTATIVE ∧
        (t.register_hit p.1 p.2).hits ≥ cf) := by
      intro hc
      have : t.hits + 1 ≥ cf := hc.2
      simp only [List.length_cons] at hlt
      omega
    simp only [feed_hits, hit_step, if_neg hfire]
    have hst : (t.register_hit p.1 p.2).state = TENTATIVE := h
    have hrec := ih hst (by
      show (t.register_hit p.1 p.2).hits + rest.length < cf
      simp only [Track.register_hit, List.length_cons] at hlt ⊢
      omega)
    refine ⟨hrec.1, ?_, by simpa using hrec.2.2⟩
    rw [hrec.2.1]
    simp only [Track.register_hit, List.length_cons]
    omega

theorem feed_hits_reach (cf : Nat) {t : Track} (h : t.state = TENTATIVE) :
    ∀ bl, t.hits < cf → cf ≤ t.hits + bl.length →
      (feed_hits cf t bl).1.state = CONFIRMED ∧ (feed_hits cf t bl).2 = 1 := by
  intro bl
  induction bl generalizing t with
  | nil =>
    intro h1 h2
    simp only [List.length_nil, Nat.add_zero] at h2
    omega
  | cons p rest ih =>
    intro h1 h2
    by_cases hfire : (t.register_hit p.1 p.2).state = TENTATIVE ∧
        (t.register_hit p.1 p.2).hits ≥ cf
    · simp only [feed_hits, hit_step, if_pos hfire]
      have hconf := feed_hits_confirmed cf
        (t := { t.register_hit p.1 p.2 with state := CONFIRMED }) rfl rest
      exact ⟨hconf.1, by simp [hconf.2]⟩
    · have hge : ¬ ((t.register_hit p.1 p.2).hits ≥ cf) := by
        intro hc
        exact hfire ⟨h, hc⟩
      simp only [feed_hits, hit_step, if_neg hfire]
      have hst : (t.register_hit p.1 p.2).state = TENTATIVE := h
      have hrec := ih hst
        (by
          show (t.register_hit p.1 p.2).hits < cf
          simp only [Track.register_hit] at hge ⊢
          omega)
        (by
          show cf ≤ (t.register_hit p.1 p.2).hits + rest.length
          simp only [Track.register_hit, List.length_cons] at h2 ⊢
          omega)
      exact ⟨hrec.1, by simp [hrec.2]⟩

end CardTracker

namespace CardTracker

/-- Well-formedness of a tracker state, guaranteed in Python by dict key
uniqueness and the monotonically increasing id counter. -/
def WFTracks (st : TrackerState) : Prop :=
  (st.tracks.map Prod.fst).Nodup ∧
  ∀ k ∈ st.tracks.map Prod.fst, k < st.next_track_id

/-- One frame's worth of input to `_update_tracks`. -/
structure StepInput where
  assignments : List (Nat × Nat)
  unmatched : List Nat
  detection_boxes : List Box
  detections : List (Box × DetInfo)

/-- Run a sequence of `_update_tracks` steps. -/
def run_steps (st : TrackerState) : List StepInput → TrackerState
  | [] => st
  | s :: rest =>
    run_steps (update_tracks st s.assignments s.unmatched s.detection_boxes s.detections).1 rest

theorem miss_step_key (rf : Nat) (asg : List (Nat × Nat)) (p q : Nat × Track)
    (h : miss_step rf asg p = some q) : q.1 = p.1 := by
  unfold miss_step at h
  by_cases hc : ((asg.map Prod.fst).contains p.1 : Bool)
  · rw [if_pos hc] at h
    injection h with h
    rw [← h]
  · rw [if_neg hc] at h
    by_cases hd : (p.2.register_miss).misses > rf
    · rw [if_pos hd] at h
      exact absurd h (by simp)
    · rw [if_neg hd] at h
      injection h with h
      rw [← h]

theorem filterMap_miss_keys_sublist (rf : Nat) (asg : List (Nat × Nat))
    (d : List (Nat × Track)) :
    ((d.filterMap (miss_step rf asg)).map Prod.fst).Sublist (d.map Prod.fst) := by
  induction d with
  | nil => simp
  | cons p rest ih =>
    cases h : miss_step rf asg p with
    | none =>
      simp only [List.filterMap_cons, h, List.map_cons]
      exact ih.cons _
    | some q =>
      simp only [List.filterMap_cons, h, List.map_cons]
      rw [miss_step_key rf asg p q h]
      exact ih.cons₂ _

theorem spawn_fold_wf (db : List Box) (dets : List (Box × DetInfo)) :
    ∀ (unm : List Nat) (acc : List (Nat × Track) × Nat),
    (acc.1.map Prod.fst).Nodup → (∀ k ∈ acc.1.map Prod.fst, k < acc.2) →
    ((((unm.foldl (spawn_step db dets) acc).1.map Prod.fst).Nodup) ∧
      (∀ k ∈ (unm.foldl (spawn_step db dets) acc).1.map Prod.fst,
        k < (unm.foldl (spawn_step db dets) acc).2)) ∧
    acc.2 ≤ (unm.foldl (spawn_step db dets) acc).2 := by
  intro unm
  induction unm with
  | nil => exact fun acc h1 h2 => ⟨⟨h1, h2⟩, Nat.le_refl _⟩
  | cons i rest ih =>
    intro acc h1 h2
    rw [List.foldl_cons]
    have hnotin : acc.2 ∉ acc.1.map Prod.fst := fun hc => Nat.lt_irrefl _ (h2 _ hc)
    have hkeys : (spawn_step db dets acc i).1.map Prod.fst
        = acc.1.map Prod.fst ++ [acc.2] := by
      simp only [spawn_step]
      rw [alistSet_of_not_mem _ hnotin]
      simp
    have h1' : ((spawn_step db dets acc i).1.map Prod.fst).Nodup := by
      rw [hkeys]
      exact nodup_append_singleton h1 hnotin
    have h2' : ∀ k ∈ (spawn_step db dets acc i).1.map Prod.fst,
        k < (spawn_step db dets acc i).2 := by
      intro k hk
      rw [hkeys] at hk
      rcases List.mem_append.1 hk with hk | hk
      · exact Nat.lt_succ_of_lt (h2 _ hk)
      · rw [List.mem_singleton] at hk
        exact hk ▸ Nat.lt_succ_self _
    have := ih (spawn_step db dets acc i) h1' h2'
    exact ⟨this.1, Nat.le_trans (Nat.le_succ _) this.2⟩

theorem update_tracks_wf {st : TrackerState} (hwf : WFTracks st)
    (a : List (Nat × Nat)) (u : List Nat) (db : List Box)
    (dets : List (Box × DetInfo)) :
    WFTracks (update_tracks st a u db dets).1 ∧
    st.next_track_id ≤ (update_tracks st a u db dets).1.next_track_id ∧
    (update_tracks st a u db dets).1.removal_frames = st.removal_frames ∧
    (update_tracks st a u db dets).1.confirmation_frames = st.confirmation_frames := by
  obtain ⟨hnd, hbound⟩ := hwf
  have hkeys1 : (a.foldl (assign_step st.confirmation_frames db dets) (st.tracks, [])).1.map
      Prod.fst = st.tracks.map Prod.fst := phase1_fold_keys _ _ _ _ _
  have hnd2 : (((a.foldl (assign_step st.confirmation_frames db dets)
      (st.tracks, [])).1.filterMap (miss_step st.removal_frames a)).map Prod.fst).Nodup := by
    refine List.Nodup.sublist (filterMap_miss_keys_sublist _ _ _) ?_
    rw [hkeys1]
    exact hnd
  have hbound2 : ∀ k ∈ ((a.foldl (assign_step st.confirmation_frames db dets)
      (st.tracks, [])).1.filterMap (miss_step st.removal_frames a)).map Prod.fst,
      k < st.next_track_id := by
    intro k hk
    have := (filterMap_miss_keys_sublist st.removal_frames a _).mem hk
    rw [hkeys1] at this
    exact hbound _ this
  have hs := spawn_fold_wf db dets u
    (((a.foldl (assign_step st.confirmation_frames db dets) (st.tracks, [])).1.filterMap
      (miss_step st.removal_frames a)), st.next_track_id) hnd2 hbound2
  exact ⟨⟨hs.1.1, hs.1.2⟩, hs.2, rfl, rfl⟩

end CardTracker

namespace CardTracker

theorem phase1_get_not_assigned (cf : Nat) (db : List Box) (dets : List (Box × DetInfo))
    (asg : List (Nat × Nat)) (tid : Nat) (hna : tid ∉ asg.map Prod.fst) :
    ∀ acc : List (Nat × Track) × List Track,
    alistGet? (asg.foldl (assign_step cf db dets) acc).1 tid = alistGet? acc.1 tid := by
  induction asg with
  | nil => exact fun acc => rfl
  | cons a rest ih =>
    intro acc
    simp only [List.map_cons, List.mem_cons] at hna
    push_neg at hna
    rw [List.foldl_cons, ih hna.2]
    unfold assign_step
    cases h : alistGet? acc.1 a.1 with
    | none => rfl
    | some track => exact alistGet?_alistSet_ne _ hna.1

theorem filterMap_miss_get (rf : Nat) (asg : List (Nat × Nat)) (tid : Nat) :
    ∀ (d : List (Nat × Track)), (d.map Prod.fst).Nodup →
    alistGet? (d.filterMap (miss_step rf asg)) tid =
      match alistGet? d tid with
      | none => none
      | some t => (miss_step rf asg (tid, t)).map Prod.snd := by
  intro d
  induction d with
  | nil => intro _; rfl
  | cons p rest ih =>
    intro hnd
    obtain ⟨k, v⟩ := p
    simp only [List.map_cons, List.nodup_cons] at hnd
    by_cases hk : k = tid
    · subst hk
      have hrest : alistGet? (rest.filterMap (miss_step rf asg)) k = none := by
        rw [alistGet?_eq_none_iff]
        intro hc
        exact hnd.1 ((filterMap_miss_keys_sublist rf asg rest).mem hc)
      cases h : miss_step rf asg (k, v) with
      | none =>
        simp only [List.filterMap_cons, h]
        rw [hrest]
        simp [alistGet?, h]
      | some q =>
        have hq1 : q.1 = k := miss_step_key rf asg _ _ h
        simp only [List.filterMap_cons, h]
        have : alistGet? (q :: rest.filterMap (miss_step rf asg)) k = some q.2 := by
          simp [alistGet?, hq1]
        rw [this]
        simp [alistGet?, h]
    · have hL : alistGet? ((k, v) :: rest) tid = alistGet? rest tid := by
        simp [alistGet?, hk]
      rw [hL, ← ih hnd.2]
      cases h : miss_step rf asg (k, v) with
      | none => simp [List.filterMap_cons, h]
      | some q =>
        have hq1 : q.1 = k := miss_step_key rf asg _ _ h
        simp only [List.filterMap_cons, h]
        simp [alistGet?, hq1, hk]

theorem spawn_fold_next_mono (db : List Box) (dets : List (Box × DetInfo)) :
    ∀ (unm : List Nat) (acc : List (Nat × Track) × Nat),
    acc.2 ≤ (unm.foldl (spawn_step db dets) acc).2 := by
  intro unm
  induction unm with
  | nil => exact fun acc => Nat.le_refl _
  | cons i rest ih =>
    intro acc
    rw [List.foldl_cons]
    exact Nat.le_trans (Nat.le_succ _) (ih (spawn_step db dets acc i))

theorem spawn_fold_get (db : List Box) (dets : List (Box × DetInfo)) (tid : Nat) :
    ∀ (unm : List Nat) (acc : List (Nat × Track) × Nat), tid < acc.2 →
    alistGet? (unm.foldl (spawn_step db dets) acc).1 tid = alistGet? acc.1 tid := by
  intro unm
  induction unm with
  | nil => exact fun acc _ => rfl
  | cons i rest ih =>
    intro acc hlt
    rw [List.foldl_cons, ih (spawn_step db dets acc i) (Nat.lt_succ_of_lt hlt)]
    show alistGet? (alistSet acc.1 acc.2 _) tid = _
    exact alistGet?_alistSet_ne _ (Nat.ne_of_lt hlt)

theorem update_tracks_get_miss {st : TrackerState} (hwf : WFTracks st) {tid : Nat} {t : Track}
    (hget : alistGet? st.tracks tid = some t)
    (a : List (Nat × Nat)) (u : List Nat) (db : List Box) (dets : List (Box × DetInfo))
    (hna : tid ∉ a.map Prod.fst) :
    alistGet? (update_tracks st a u db dets).1.tracks tid =
      if t.register_miss.misses > st.removal_frames then none else some t.register_miss := by
  have htidlt : tid < st.next_track_id :=
    hwf.2 tid (List.mem_map_of_mem Prod.fst (alistGet?_mem hget))
  have hnd1 : ((a.foldl (assign_step st.confirmation_frames db dets)
      (st.tracks, [])).1.map Prod.fst).Nodup := by
    rw [phase1_fold_keys]
    exact hwf.1
  simp only [update_tracks]
  rw [spawn_fold_get db dets tid u _ htidlt]
  rw [filterMap_miss_get st.removal_frames a tid _ hnd1]
  rw [phase1_get_not_assigned st.confirmation_frames db dets a tid hna]
  rw [hget]
  have hcont : ¬ (((a.map Prod.fst).contains tid : Bool) = true) := by
    simpa using hna
  by_cases hdel : (t.register_miss).misses > st.removal_frames
  · simp [miss_step, hcont, hdel]
    intro x hx
    exact hna (List.mem_map_of_mem Prod.fst hx)
  · simp [miss_step, hcont, hdel]
    exact ⟨tid, by rw [if_neg hcont]⟩

theorem update_tracks_absent {st : TrackerState} {tid : Nat}
    (hnotin : tid ∉ st.tracks.map Prod.fst) (hlt : tid < st.next_track_id)
    (a : List (Nat × Nat)) (u : List Nat) (db : List Box) (dets : List (Box × DetInfo)) :
    tid ∉ (update_tracks st a u db dets).1.tracks.map Prod.fst ∧
    tid < (update_tracks st a u db dets).1.next_track_id := by
  have h1 : tid ∉ (a.foldl (assign_step st.confirmation_frames db dets)
      (st.tracks, [])).1.map Prod.fst := by
    rw [phase1_fold_keys]
    exact hnotin
  have h2 : tid ∉ ((a.foldl (assign_step st.confirmation_frames db dets)
      (st.tracks, [])).1.filterMap (miss_step st.removal_frames a)).map Prod.fst :=
    fun hc => h1 ((filterMap_miss_keys_sublist _ _ _).mem hc)
  have h3 : alistGet? ((a.foldl (assign_step st.confirmation_frames db dets)
      (st.tracks, [])).1.filterMap (miss_step st.removal_frames a)) tid = none :=
    alistGet?_eq_none_iff.2 h2
  constructor
  · simp only [update_tracks]
    rw [← alistGet?_eq_none_iff]
    rw [spawn_fold_get db dets tid u _ hlt]
    exact h3
  · simp only [update_tracks]
    exact Nat.lt_of_lt_of_le hlt (spawn_fold_next_mono db dets u
      (((a.foldl (assign_step st.confirmation_frames db dets) (st.tracks, [])).1.filterMap
        (miss_step st.removal_frames a)), st.next_track_id))

theorem run_steps_absent (tid : Nat) :
    ∀ (steps : List StepInput) (st : TrackerState),
    tid ∉ st.tracks.map Prod.fst → tid < st.next_track_id →
    tid ∉ (run_steps st steps).tracks.map Prod.fst ∧
    tid < (run_steps st steps).next_track_id := by
  intro steps
  induction steps with
  | nil => exact fun st h1 h2 => ⟨h1, h2⟩
  | cons s rest ih =>
    intro st h1 h2
    have := update_tracks_absent h1 h2 s.assignments s.unmatched s.detection_boxes s.detections
    exact ih _ this.1 this.2

theorem run_steps_removal (tid : Nat) :
    ∀ (steps : List StepInput) (st : TrackerState) (t : Track),
    WFTracks st → alistGet? st.tracks tid = some t →
    (∀ s ∈ steps, tid ∉ s.assignments.map Prod.fst) →
    st.removal_frames < t.misses + steps.length → 1 ≤ steps.length →
    tid ∉ (run_steps st steps).tracks.map Prod.fst ∧
    tid < (run_steps st steps).next_track_id := by
  intro steps
  induction steps with
  | nil =>
    intro st t _ _ _ _ hlen
    exact absurd hlen (by simp)
  | cons s rest ih =>
    intro st t hwf hget hmiss hcount _
    have htidlt : tid < st.next_track_id :=
      hwf.2 tid (List.mem_map_of_mem Prod.fst (alistGet?_mem hget))
    have hwf' := update_tracks_wf hwf s.assignments s.unmatched s.detection_boxes s.detections
    have hget' := update_tracks_get_miss hwf hget s.assignments s.unmatched
      s.detection_boxes s.detections (hmiss s (List.mem_cons_self s rest))
    show tid ∉ (run_steps (update_tracks st s.assignments s.unmatched s.detection_boxes
        s.detections).1 rest).tracks.map Prod.fst ∧ _
    by_cases hdel : (t.register_miss).misses > st.removal_frames
    · rw [if_pos hdel] at hget'
      have habs : tid ∉ (update_tracks st s.assignments s.unmatched s.detection_boxes
          s.detections).1.tracks.map Prod.fst := alistGet?_eq_none_iff.1 hget'
      exact run_steps_absent tid rest _ habs (Nat.lt_of_lt_of_le htidlt hwf'.2.1)
    · rw [if_neg hdel] at hget'
      have hmisses : (t.register_miss).misses = t.misses + 1 := rfl
      have hrest1 : 1 ≤ rest.length := by
        simp only [List.length_cons] at hcount
        rw [hmisses] at hdel
        omega
      refine ih _ t.register_miss hwf'.1 hget'
        (fun x hx => hmiss x (List.mem_cons_of_mem _ hx)) ?_ hrest1
      rw [hwf'.2.2.1, hmisses]
      simp only [List.length_cons] at hcount
      omega

end CardTracker

namespace CardTracker

/-- Claim C1 (amended): track lifecycle. For `confirmation_frames ≥ 2`, a
freshly created tentative track (hits = 1) fed the creating detection plus
`confirmation_frames - 1` subsequent matched frames ends Confirmed with
the confirmation callback fired exactly once, at the transition instant
(every proper prefix leaves it Tentative with zero firings); a Confirmed
track never re-fires the callback on later hits; and a live track fed
`removal_frames + 1` consecutive unmatched frames is removed from the
live track set and never appears in any later update result. (With
`confirmation_frames = 1` the code does not confirm at creation; see the
counterexample.) -/
theorem track_lifecycle :
    (∀ cf : Nat, 2 ≤ cf → ∀ (id : Nat) (b0 : Box) (l0 : Option Int)
      (bl : List (Box × Option Int)), bl.length = cf - 1 →
      (feed_hits cf (Track.create id b0 l0) bl).1.state = CONFIRMED ∧
      (feed_hits cf (Track.create id b0 l0) bl).2 = 1 ∧
      (∀ k, k < cf - 1 →
        (feed_hits cf (Track.create id b0 l0) (bl.take k)).1.state = TENTATIVE ∧
        (feed_hits cf (Track.create id b0 l0) (bl.take k)).2 = 0)) ∧
    (∀ (cf : Nat) (t : Track), t.state = CONFIRMED → ∀ bl,
      (feed_hits cf t bl).1.state = CONFIRMED ∧ (feed_hits cf t bl).2 = 0) ∧
    (∀ (st : TrackerState) (tid : Nat) (t : Track) (steps : List StepInput),
      WFTracks st → alistGet? st.tracks tid = some t →
      steps.length = st.removal_frames + 1 →
      (∀ s ∈ steps, tid ∉ s.assignments.map Prod.fst) →
      tid ∉ (run_steps st steps).tracks.map Prod.fst ∧
      ∀ more, tid ∉ (run_steps (run_steps st steps) more).tracks.map Prod.fst) := by
  refine ⟨?_, ?_, ?_⟩
  · intro cf hcf id b0 l0 bl hlen
    have hstate : (Track.create id b0 l0).state = TENTATIVE := rfl
    have hhits : (Track.create id b0 l0).hits = 1 := rfl
    have hmain := feed_hits_reach cf hstate bl
      (by rw [hhits]; omega) (by rw [hhits, hlen]; omega)
    refine ⟨hmain.1, hmain.2, ?_⟩
    intro k hk
    have hlen' : (bl.take k).length = k := by
      rw [List.length_take, hlen]
      omega
    have hpre := feed_hits_below cf hstate (bl.take k)
      (by rw [hhits, hlen']; omega)
    exact ⟨hpre.1, hpre.2.2⟩
  · intro cf t h bl
    exact feed_hits_confirmed cf h bl
  · intro st tid t steps hwf hget hlen hmiss
    have hrem := run_steps_removal tid steps st t hwf hget hmiss
      (by rw [hlen]; omega) (by rw [hlen]; omega)
    exact ⟨hrem.1, fun more => (run_steps_absent tid more _ hrem.1 hrem.2).1⟩

/-- Claim C1 counterexample, at `confirmation_frames = 1`: the creating
detection plus zero subsequent hits (the claim's scenario) leaves the
track Tentative with zero callback firings, because the code checks
confirmation only in the assignment loop, never at creation. -/
theorem track_lifecycle_cf1_counterexample :
    ¬ ((feed_hits 1 (Track.create 0 ⟨0, 0, 1, 1⟩ none) []).1.state = CONFIRMED ∧
       (feed_hits 1 (Track.create 0 ⟨0, 0, 1, 1⟩ none) []).2 = 1) := by
  decide

/-- Witness for C1 at concrete inputs: confirmation at
`confirmation_frames = 2` after one subsequent hit, and removal after
`removal_frames + 1 = 1` miss with permanent absence. -/
theorem track_lifecycle_witness :
    ((feed_hits 2 (Track.create 7 ⟨0, 0, 1, 1⟩ (some 3)) [(⟨0, 0, 1, 1⟩, some 3)]).1.state
        = CONFIRMED ∧
      (feed_hits 2 (Track.create 7 ⟨0, 0, 1, 1⟩ (some 3)) [(⟨0, 0, 1, 1⟩, some 3)]).2 = 1 ∧
      (∀ k, k < 2 - 1 →
        (feed_hits 2 (Track.create 7 ⟨0, 0, 1, 1⟩ (some 3))
          ([(⟨0, 0, 1, 1⟩, some 3)].take k)).1.state = TENTATIVE ∧
        (feed_hits 2 (Track.create 7 ⟨0, 0, 1, 1⟩ (some 3))
          ([(⟨0, 0, 1, 1⟩, some 3)].take k)).2 = 0)) ∧
    (0 ∉ (run_steps
        { tracks := [(0, Track.create 0 ⟨0, 0, 1, 1⟩ (some 5))], next_track_id := 1,
          confidence_threshold := 0, iou_threshold := 1/2,
          confirmation_frames := 5, removal_frames := 0 }
        [⟨[], [], [], []⟩]).tracks.map Prod.fst ∧
      ∀ more, 0 ∉ (run_steps (run_steps
        { tracks := [(0, Track.create 0 ⟨0, 0, 1, 1⟩ (some 5))], next_track_id := 1,
          confidence_threshold := 0, iou_threshold := 1/2,
          confirmation_frames := 5, removal_frames := 0 }
        [⟨[], [], [], []⟩]) more).tracks.map Prod.fst) :=
  ⟨track_lifecycle.1 2 (by decide) 7 ⟨0, 0, 1, 1⟩ (some 3) [(⟨0, 0, 1, 1⟩, some 3)]
      (by decide),
   track_lifecycle.2.2
    { tracks := [(0, Track.create 0 ⟨0, 0, 1, 1⟩ (some 5))], next_track_id := 1,
      confidence_threshold := 0, iou_threshold := 1/2,
      confirmation_frames := 5, removal_frames := 0 }
    0 (Track.create 0 ⟨0, 0, 1, 1⟩ (some 5)) [⟨[], [], [], []⟩]
    (by unfold WFTracks; exact ⟨by decide, by decide⟩)
    (by decide) (by decide) (by decide)⟩

end CardTracker

/-! ### Hand evaluator (`psrc/evaluation/hand_evaluator.py`)

The external EV calculator (a Java library behind JPype) is modelled as
five fallible functions; a raised exception is an `Except.error`. -/

namespace HandEvaluator

/-- The per-hand dictionary produced by the hand tracker. -/
structure HandInfo where
  cards : List Int
  score : Int
  boxes : List Box
deriving DecidableEq, Repr

/-- One entry of the results mapping: the evs dictionary and the best
action. -/
structure EvalResult where
  evs : List (String × ℚ)
  best_action : String
deriving DecidableEq, Repr

/-- The `IExpectedValueCalculator` interface: each action independently
computable and independently failable. -/
structure EVCalculator where
  calculate_stand_ev : List (Int × Int) → List Int → List Int → Except String ℚ
  calculate_hit_ev : List (Int × Int) → List Int → List Int → Except String ℚ
  calculate_double_ev : List (Int × Int) → List Int → List Int → Except String ℚ
  calculate_split_ev : List (Int × Int) → List Int → List Int → Except String ℚ
  calculate_surrender_ev : List (Int × Int) → List Int → List Int → Except String ℚ

/-- Python's `max(evs, key=evs.get)` over an insertion-ordered dict: the
first key attaining the maximal value. -/
def best_action_key : List (String × ℚ) → String
  | [] => ""
  | e :: rest => (rest.foldl (fun best p => if p.2 > best.2 then p else best) e).1

/-- The body of the per-hand loop of `evaluate_hands`: skip the dealer,
otherwise query all five EVs (any exception propagates — the source has
no try/except) and append the result. -/
def hand_step (evc : EVCalculator) (deck_cards : List (Int × Int))
    (dealer_cards : List Int) (results : List (String × EvalResult))
    (p : String × HandInfo) : Except String (List (String × EvalResult)) :=
  if p.1 = "Dealer" then Except.ok results
  else do
    let player_cards := p.2.cards
    let ev_stand ← evc.calculate_stand_ev deck_cards player_cards dealer_cards
    let ev_hit ← evc.calculate_hit_ev deck_cards player_cards dealer_cards
    let ev_double ← evc.calculate_double_ev deck_cards player_cards dealer_cards
    let ev_split ← evc.calculate_split_ev deck_cards player_cards dealer_cards
    let ev_surrender ← evc.calculate_surrender_ev deck_cards player_cards dealer_cards
    let evs := [("stand", ev_stand), ("hit", ev_hit), ("double", ev_double),
                ("split", ev_split), ("surrender", ev_surrender)]
    Except.ok (results ++ [(p.1, { evs := evs, best_action := best_action_key evs })])

/-- Embedding of `HandEvaluator.evaluate_hands`. -/
def evaluate_hands (evc : EVCalculator) (deck_cards : List (Int × Int))
    (hands_info : List (String × HandInfo)) :
    Except String (List (String × EvalResult)) :=
  let dealer_cards :=
    match alistGet? hands_info "Dealer" with
    | some info => info.cards
    | none => []
  if dealer_cards = [] then Except.ok []
  else hands_info.foldlM (hand_step evc deck_cards dealer_cards) []

end HandEvaluator

namespace HandEvaluator

theorem except_bind_ok {ε α β : Type} (a : α) (f : α → Except ε β) :
    (Except.ok a >>= f) = f a := rfl

theorem except_bind_error {ε α β : Type} (e : ε) (f : α → Except ε β) :
    ((Except.error e : Except ε α) >>= f) = Except.error e := rfl

theorem hand_step_ok_shape (evc : EVCalculator) (dc : List (Int × Int)) (dlr : List Int)
    (acc : List (String × EvalResult)) (p : String × HandInfo)
    (acc' : List (String × EvalResult)) (h : hand_step evc dc dlr acc p = Except.ok acc') :
    acc' = acc ∨ ∃ entry : String × EvalResult, acc' = acc ++ [entry] ∧
      entry.2.evs.map Prod.fst = ["stand", "hit", "double", "split", "surrender"] := by
  unfold hand_step at h
  by_cases hd : p.1 = "Dealer"
  · rw [if_pos hd] at h
    injection h with h
    exact Or.inl h.symm
  · rw [if_neg hd] at h
    simp only [] at h
    cases h1 : evc.calculate_stand_ev dc p.2.cards dlr with
    | error e => rw [h1, except_bind_error] at h; exact absurd h (by simp)
    | ok v1 =>
    rw [h1, except_bind_ok] at h
    cases h2 : evc.calculate_hit_ev dc p.2.cards dlr with
    | error e => rw [h2, except_bind_error] at h; exact absurd h (by simp)
    | ok v2 =>
    rw [h2, except_bind_ok] at h
    cases h3 : evc.calculate_double_ev dc p.2.cards dlr with
    | error e => rw [h3, except_bind_error] at h; exact absurd h (by simp)
    | ok v3 =>
    rw [h3, except_bind_ok] at h
    cases h4 : evc.calculate_split_ev dc p.2.cards dlr with
    | error e => rw [h4, except_bind_error] at h; exact absurd h (by simp)
    | ok v4 =>
    rw [h4, except_bind_ok] at h
    cases h5 : evc.calculate_surrender_ev dc p.2.cards dlr with
    | error e => rw [h5, except_bind_error] at h; exact absurd h (by simp)
    | ok v5 =>
    rw [h5, except_bind_ok] at h
    injection h with h
    exact Or.inr ⟨_, h.symm, by simp⟩

theorem hand_fold_all_actions (evc : EVCalculator) (dc : List (Int × Int)) (dlr : List Int) :
    ∀ (hands : List (String × HandInfo)) (acc r : List (String × EvalResult)),
    hands.foldlM (hand_step evc dc dlr) acc = Except.ok r →
    (∀ q ∈ acc, q.2.evs.map Prod.fst = ["stand", "hit", "double", "split", "surrender"]) →
    ∀ q ∈ r, q.2.evs.map Prod.fst = ["stand", "hit", "double", "split", "surrender"] := by
  intro hands
  induction hands with
  | nil =>
    intro acc r h hacc
    simp only [List.foldlM_nil] at h
    injection h with h
    exact h ▸ hacc
  | cons p rest ih =>
    intro acc r h hacc
    rw [List.foldlM_cons] at h
    cases hstep : hand_step evc dc dlr acc p with
    | error e => rw [hstep, except_bind_error] at h; exact absurd h (by simp)
    | ok acc' =>
      rw [hstep, except_bind_ok] at h
      refine ih acc' r h ?_
      rcases hand_step_ok_shape evc dc dlr acc p acc' hstep with he | ⟨entry, he, hp⟩
      · exact he ▸ hacc
      · subst he
        intro q hq
        rcases List.mem_append.1 hq with hq | hq
        · exact hacc q hq
        · rw [List.mem_singleton] at hq
          exact hq ▸ hp

/-- Claim C3 counterexample: one failing EV call (here `calculate_hit_ev`)
is not caught per-action — the exception propagates out of
`evaluate_hands`, instead of the hit action being omitted from that
hand's evs mapping. -/
theorem evaluate_hands_uncaught_counterexample :
    evaluate_hands
      { calculate_stand_ev := fun _ _ _ => Except.ok 0,
        calculate_hit_ev := fun _ _ _ => Except.error "engine failure",
        calculate_double_ev := fun _ _ _ => Except.ok 0,
        calculate_split_ev := fun _ _ _ => Except.ok 0,
        calculate_surrender_ev := fun _ _ _ => Except.ok 0 }
      (CardDeck.initCards 1)
      [("Dealer", ⟨[9], 10, []⟩), ("Player 1", ⟨[0, 9], 21, []⟩)]
      = Except.error "engine failure" := rfl

/-- Claim C3 (amended): `evaluate_hands` has no per-action exception
handling: a raised EV-calculator exception propagates out, aborting the
evaluation; actions are never omitted — whenever `evaluate_hands`
returns normally, every returned hand's evs mapping contains exactly
the five actions stand, hit, double, split, surrender. -/
theorem evaluate_hands_all_actions (evc : EVCalculator) (deck_cards : List (Int × Int))
    (hands_info : List (String × HandInfo)) (r : List (String × EvalResult))
    (h : evaluate_hands evc deck_cards hands_info = Except.ok r) :
    ∀ q ∈ r, q.2.evs.map Prod.fst = ["stand", "hit", "double", "split", "surrender"] := by
  unfold evaluate_hands at h
  by_cases hd :
      (match alistGet? hands_info "Dealer" with
        | some info => info.cards
        | none => []) = []
  · rw [if_pos hd] at h
    injection h with h
    subst h
    intro q hq
    exact absurd hq (by simp)
  · rw [if_neg hd] at h
    exact hand_fold_all_actions evc deck_cards _ hands_info [] r h (by simp)

/-- Witness for C3 at a concrete success: an all-succeeding calculator
gives the lone player hand all five actions. -/
theorem evaluate_hands_all_actions_witness :
    (("Player 1", ({ evs := [("stand", 1), ("hit", 0), ("double", 0), ("split", 0),
        ("surrender", 0)], best_action := "stand" } : EvalResult)) :
        String × EvalResult).2.evs.map Prod.fst
      = ["stand", "hit", "double", "split", "surrender"] :=
  evaluate_hands_all_actions
    { calculate_stand_ev := fun _ _ _ => Except.ok 1,
      calculate_hit_ev := fun _ _ _ => Except.ok 0,
      calculate_double_ev := fun _ _ _ => Except.ok 0,
      calculate_split_ev := fun _ _ _ => Except.ok 0,
      calculate_surrender_ev := fun _ _ _ => Except.ok 0 }
    (CardDeck.initCards 1)
    [("Dealer", ⟨[9], 10, []⟩), ("Player 1", ⟨[0, 9], 21, []⟩)]
    [("Player 1", { evs := [("stand", 1), ("hit", 0), ("double", 0), ("split", 0),
        ("surrender", 0)], best_action := "stand" })]
    rfl _ (by decide)

end HandEvaluator

/-! ### Connected-component grouping: the DFS grouper
(`detection_utils.group_cards`) and the union-find grouper
(`HandTracker._group_cards`).

Box indices are modelled as `Fin n` (every index the Python code builds
is in range); the Python parent list is a function `Fin n → Fin n`, and
the `while` loops of `_find` are fueled with `n`, which suffices for
every forest the algorithm builds. -/

/-- The nested `for i in range(n): for j in range(i+1, n)` pair loop. -/
def pairsFin (n : Nat) : List (Fin n × Fin n) :=
  (List.finRange n).bind (fun i => ((List.finRange n).filter (fun j => i < j)).map (fun j => (i, j)))

theorem mem_pairsFin {n : Nat} (i j : Fin n) : (i, j) ∈ pairsFin n ↔ i < j := by
  simp only [pairsFin, List.mem_bind, List.mem_map, List.mem_filter, List.mem_finRange,
    decide_eq_true_eq, true_and]
  constructor
  · rintro ⟨a, ⟨b, hb, hab⟩⟩
    obtain ⟨h1, h2⟩ := Prod.mk.injEq .. ▸ hab
    exact h1 ▸ h2 ▸ hb
  · intro h
    exact ⟨i, ⟨j, by simpa using h, rfl⟩⟩

namespace DetectionUtils

/-- `graph[i].append(j)` on the adjacency-list graph. -/
def graph_add {n : Nat} (g : Fin n → List (Fin n)) (i j : Fin n) : Fin n → List (Fin n) :=
  Function.update g i (g i ++ [j])

theorem card_sdiff_insert_lt {n : Nat} {visited : Finset (Fin n)} {node : Fin n}
    (h : node ∉ visited) :
    (Finset.univ \ insert node visited).card < (Finset.univ \ visited).card := by
  apply Finset.card_lt_card
  rw [Finset.ssubset_iff_of_subset
    (Finset.sdiff_subset_sdiff (le_refl _) (Finset.subset_insert _ _))]
  refine ⟨node, ?_, ?_⟩
  · simp [h]
  · simp

/-- The `while stack:` loop of the DFS in `group_cards`. The Python list
stack pops at its far end; the Lean list is kept reversed (head = top),
so `stack.extend(graph[node])` pushes `(graph node).reverse`. -/
def dfs_loop {n : Nat} (graph : Fin n → List (Fin n)) :
    Finset (Fin n) → List (Fin n) → List (Fin n) → Finset (Fin n) × List (Fin n)
  | visited, [], grp => (visited, grp)
  | visited, node :: stack, grp =>
    if h : node ∈ visited then dfs_loop graph visited stack grp
    else dfs_loop graph (insert node visited) ((graph node).reverse ++ stack) (grp ++ [node])
termination_by visited stack _ => ((Finset.univ \ visited).card, stack.length)
decreasing_by
  · exact Prod.Lex.right _ (Nat.lt_succ_self _)
  · exact Prod.Lex.left _ _ (card_sdiff_insert_lt h)

/-- The outer DFS loop body of `group_cards`: skip visited start nodes,
otherwise run the stack DFS from `i` and append the produced group. -/
def dfs_outer_step {n : Nat} (graph : Fin n → List (Fin n))
    (acc : Finset (Fin n) × List (List (Fin n))) (i : Fin n) :
    Finset (Fin n) × List (List (Fin n)) :=
  if i ∈ acc.1 then acc
  else
    let r := dfs_loop graph acc.1 [i] []
    (r.1, acc.2 ++ [r.2])

/-- The edge-building double loop of `group_cards`: for every `i < j`
pair whose overlap meets the threshold, `graph[i].append(j)` and
`graph[j].append(i)`. -/
def build_graph {n : Nat} (test : Fin n → Fin n → Bool) : Fin n → List (Fin n) :=
  (pairsFin n).foldl
    (fun g ij => if test ij.1 ij.2 then graph_add (graph_add g ij.1 ij.2) ij.2 ij.1 else g)
    (fun _ => [])

/-- Embedding of `detection_utils.group_cards`: build the overlap graph
over all `i < j` pairs, then collect connected components by DFS in
increasing start-index order. -/
def group_cards (boxes : List Box) (overlap_threshold : ℚ) : List (List Nat) :=
  let n := boxes.length
  let graph := build_graph (fun i j : Fin n =>
    if compute_overlap (boxes.get i) (boxes.get j) ≥ overlap_threshold then true else false)
  let outer := (List.finRange n).foldl (dfs_outer_step graph)
    ((∅ : Finset (Fin n)), ([] : List (List (Fin n))))
  outer.2.map (fun g => g.map Fin.val)

end DetectionUtils

namespace HandTracker

/-- One entry of `HandTracker._compute_overlap_matrix`: intersection area
over the smaller box area, with the `1e-6` epsilon added to the
denominator. -/
def overlap_entry (b1 b2 : Box) : ℚ :=
  let x_left := max b1.x1 b2.x1
  let y_top := max b1.y1 b2.y1
  let x_right := min b1.x2 b2.x2
  let y_bottom := min b1.y2 b2.y2
  let inter_width := max 0 (x_right - x_left)
  let inter_height := max 0 (y_bottom - y_top)
  let inter_area := inter_width * inter_height
  let area1 := (b1.x2 - b1.x1) * (b1.y2 - b1.y1)
  let area2 := (b2.x2 - b2.x1) * (b2.y2 - b2.y1)
  inter_area / (min area1 area2 + 1 / 1000000)

/-- The `while parent[x] != x` loop of `_find`, with path compression
(`parent[x] = parent[parent[x]]; x = parent[x]`), fueled. -/
def uf_find {n : Nat} (parent : Fin n → Fin n) (x : Fin n) :
    Nat → (Fin n → Fin n) × Fin n
  | 0 => (parent, x)
  | fuel + 1 =>
    if parent x = x then (parent, x)
    else
      let parent' := Function.update parent x (parent (parent x))
      uf_find parent' (parent' x) fuel

/-- `_union`: find both roots (compressing), then graft the second root
under the first when they differ. -/
def uf_union {n : Nat} (parent : Fin n → Fin n) (x y : Fin n) : Fin n → Fin n :=
  let r1 := uf_find parent x n
  let r2 := uf_find r1.1 y n
  if r1.2 ≠ r2.2 then Function.update r2.1 r2.2 r1.2 else r2.1

/-- `groups_dict[root].append(i)` on an insertion-ordered dict of lists:
append to the existing key's list, or add the key at the end. -/
def alistPush {κ α : Type} [DecidableEq κ] (d : List (κ × List α)) (k : κ) (v : α) :
    List (κ × List α) :=
  match d with
  | [] => [(k, [v])]
  | (k', l) :: rest =>
    if k' = k then (k', l ++ [v]) :: rest else (k', l) :: alistPush rest k v

/-- One iteration of the grouping loop of `_group_cards`: find (and
compress) the root of `i`, then append `i` under it. -/
def group_collect {n : Nat} (acc : (Fin n → Fin n) × List (Fin n × List (Fin n)))
    (i : Fin n) : (Fin n → Fin n) × List (Fin n × List (Fin n)) :=
  let r := uf_find acc.1 i n
  (r.1, alistPush acc.2 r.2 i)

/-- Embedding of `HandTracker._group_cards`: adjacency from the epsilon
overlap matrix (diagonal cleared), union-find over all `i < j` adjacent
pairs, then group indices by representative. -/
def group_cards (overlap_threshold : ℚ) (boxes : List Box) : List (List Nat) :=
  let n := boxes.length
  if n = 0 then []
  else
    let adj : Fin n → Fin n → Bool := fun i j =>
      if i = j then false
      else if overlap_entry (boxes.get i) (boxes.get j) ≥ overlap_threshold then true
      else false
    let parent := (pairsFin n).foldl
      (fun p ij => if adj ij.1 ij.2 then uf_union p ij.1 ij.2 else p)
      (fun x => x)
    let collected := (List.finRange n).foldl group_collect (parent, [])
    collected.2.map (fun e => e.2.map Fin.val)

end HandTracker

namespace DetectionUtils

/-- Reachability along graph edges using only nodes outside the avoid set
`V` (the DFS visited set): the start, every intermediate node and the end
lie outside `V`. -/
inductive AReach {n : Nat} (graph : Fin n → List (Fin n)) (V : Finset (Fin n)) :
    Fin n → Fin n → Prop
  | base {x : Fin n} : x ∉ V → AReach graph V x x
  | step {x y z : Fin n} : AReach graph V x y → z ∈ graph y → z ∉ V → AReach graph V x z

theorem AReach.start_not_mem {n : Nat} {graph : Fin n → List (Fin n)} {V : Finset (Fin n)}
    {x z : Fin n} (h : AReach graph V x z) : x ∉ V := by
  induction h with
  | base hx => exact hx
  | step _ _ _ ih => exact ih

theorem AReach.end_not_mem {n : Nat} {graph : Fin n → List (Fin n)} {V : Finset (Fin n)}
    {x z : Fin n} (h : AReach graph V x z) : z ∉ V := by
  cases h with
  | base hx => exact hx
  | step _ _ hz => exact hz

theorem AReach.chain {n : Nat} {graph : Fin n → List (Fin n)} {V : Finset (Fin n)}
    {x y z : Fin n} (h1 : AReach graph V x y) (h2 : AReach graph V y z) :
    AReach graph V x z := by
  induction h2 with
  | base _ => exact h1
  | step _ hadj hz ih => exact AReach.step ih hadj hz

theorem AReach.mono {n : Nat} {graph : Fin n → List (Fin n)} {V₀ V : Finset (Fin n)}
    (hsub : V₀ ⊆ V) {x z : Fin n} (h : AReach graph V x z) : AReach graph V₀ x z := by
  induction h with
  | base hx => exact AReach.base (fun hc => hx (hsub hc))
  | step _ hadj hz ih => exact AReach.step ih hadj (fun hc => hz (hsub hc))

theorem AReach.split {n : Nat} {graph : Fin n → List (Fin n)} {V : Finset (Fin n)}
    (v : Fin n) {x z : Fin n} (h : AReach graph V x z) :
    AReach graph (insert v V) x z ∨ z = v ∨
      ∃ u ∈ graph v, AReach graph (insert v V) u z := by
  induction h with
  | base hx =>
    by_cases hxv : x = v
    · exact Or.inr (Or.inl hxv)
    · exact Or.inl (AReach.base (by simp [hxv, hx]))
  | step hxy hadj hz ih =>
    rename_i b c
    by_cases hzv : c = v
    · exact Or.inr (Or.inl hzv)
    · have hznew : c ∉ insert v V := by simp [hzv, hz]
      rcases ih with h' | h' | ⟨u, hu, h'⟩
      · exact Or.inl (AReach.step h' hadj hznew)
      · subst h'
        exact Or.inr (Or.inr ⟨c, hadj, AReach.base hznew⟩)
      · exact Or.inr (Or.inr ⟨u, hu, AReach.step h' hadj hznew⟩)

theorem reach_insert_iff {n : Nat} (graph : Fin n → List (Fin n)) {V : Finset (Fin n)}
    {node : Fin n} (hnode : node ∉ V) (rest : List (Fin n)) (z : Fin n) :
    (∃ s ∈ (graph node).reverse ++ rest, AReach graph (insert node V) s z) ↔
    (z ≠ node ∧ ∃ s ∈ node :: rest, AReach graph V s z) := by
  constructor
  · rintro ⟨s, hs, hr⟩
    have hzne : z ≠ node := by
      have := hr.end_not_mem
      intro hc
      exact this (hc ▸ Finset.mem_insert_self node V)
    refine ⟨hzne, ?_⟩
    rcases List.mem_append.1 hs with hs | hs
    · -- s is a neighbour of node: prepend the edge node → s
      rw [List.mem_reverse] at hs
      have hsV : s ∉ V := fun hc => hr.start_not_mem (Finset.mem_insert_of_mem hc)
      have hstep : AReach graph V node s :=
        AReach.step (AReach.base hnode) hs hsV
      exact ⟨node, List.mem_cons_self _ _,
        hstep.chain (hr.mono (Finset.subset_insert _ _))⟩
    · exact ⟨s, List.mem_cons_of_mem _ hs, hr.mono (Finset.subset_insert _ _)⟩
  · rintro ⟨hzne, s, hs, hr⟩
    rcases List.mem_cons.1 hs with hs | hs
    · subst hs
      rcases hr.split s with h' | h' | ⟨u, hu, h'⟩
      · exact absurd h'.start_not_mem (by simp)
      · exact absurd h' hzne
      · exact ⟨u, List.mem_append.2 (Or.inl (List.mem_reverse.2 hu)), h'⟩
    · rcases hr.split node with h' | h' | ⟨u, hu, h'⟩
      · exact ⟨s, List.mem_append.2 (Or.inr hs), h'⟩
      · exact absurd h' hzne
      · exact ⟨u, List.mem_append.2 (Or.inl (List.mem_reverse.2 hu)), h'⟩

end DetectionUtils

namespace DetectionUtils

theorem dfs_loop_nil {n : Nat} (graph : Fin n → List (Fin n)) (visited : Finset (Fin n))
    (grp : List (Fin n)) : dfs_loop graph visited [] grp = (visited, grp) := by
  rw [dfs_loop]

theorem dfs_loop_cons_mem {n : Nat} (graph : Fin n → List (Fin n)) {visited : Finset (Fin n)}
    {node : Fin n} (h : node ∈ visited) (stack grp : List (Fin n)) :
    dfs_loop graph visited (node :: stack) grp = dfs_loop graph visited stack grp := by
  conv_lhs => rw [dfs_loop]
  rw [dif_pos h]

theorem dfs_loop_cons_not_mem {n : Nat} (graph : Fin n → List (Fin n))
    {visited : Finset (Fin n)} {node : Fin n} (h : node ∉ visited) (stack grp : List (Fin n)) :
    dfs_loop graph visited (node :: stack) grp =
      dfs_loop graph (insert node visited) ((graph node).reverse ++ stack) (grp ++ [node]) := by
  conv_lhs => rw [dfs_loop]
  rw [dif_neg h]

end DetectionUtils

namespace DetectionUtils

theorem dfs_loop_spec {n : Nat} (graph : Fin n → List (Fin n)) :
    ∀ (c : Nat) (visited : Finset (Fin n)), (Finset.univ \ visited).card ≤ c →
    ∀ (stack grp : List (Fin n)),
    (∀ z, z ∈ (dfs_loop graph visited stack grp).1 ↔
      z ∈ visited ∨ ∃ s ∈ stack, AReach graph visited s z) ∧
    (∀ z, z ∈ (dfs_loop graph visited stack grp).2 ↔
      z ∈ grp ∨ ((∃ s ∈ stack, AReach graph visited s z) ∧ z ∉ visited)) := by
  intro c
  induction c with
  | zero =>
    intro visited hc stack
    have huniv : ∀ z : Fin n, z ∈ visited := by
      intro z
      by_contra hz
      have hmem : z ∈ Finset.univ \ visited := by simp [hz]
      have := Finset.card_pos.2 ⟨z, hmem⟩
      omega
    induction stack with
    | nil =>
      intro grp
      rw [dfs_loop_nil]
      exact ⟨fun z => by simp [huniv z], fun z => by simp [huniv z]⟩
    | cons node rest ihs =>
      intro grp
      rw [dfs_loop_cons_mem graph (huniv node)]
      refine ⟨fun z => ?_, fun z => ?_⟩
      · rw [(ihs grp).1 z]
        constructor
        · rintro (hz | ⟨s, hs, hr⟩)
          · exact Or.inl hz
          · exact Or.inr ⟨s, List.mem_cons_of_mem _ hs, hr⟩
        · rintro (hz | ⟨s, hs, hr⟩)
          · exact Or.inl hz
          · rcases List.mem_cons.1 hs with hs | hs
            · exact absurd (huniv s) (hs ▸ hr.start_not_mem)
            · exact Or.inr ⟨s, hs, hr⟩
      · rw [(ihs grp).2 z]
        constructor
        · rintro (hz | ⟨⟨s, hs, hr⟩, hzv⟩)
          · exact Or.inl hz
          · exact Or.inr ⟨⟨s, List.mem_cons_of_mem _ hs, hr⟩, hzv⟩
        · rintro (hz | ⟨⟨s, hs, hr⟩, hzv⟩)
          · exact Or.inl hz
          · rcases List.mem_cons.1 hs with hs | hs
            · exact absurd (huniv s) (hs ▸ hr.start_not_mem)
            · exact Or.inr ⟨⟨s, hs, hr⟩, hzv⟩
  | succ c ihc =>
    intro visited hc stack
    induction stack with
    | nil =>
      intro grp
      rw [dfs_loop_nil]
      exact ⟨fun z => by simp, fun z => by simp⟩
    | cons node rest ihs =>
      intro grp
      by_cases hv : node ∈ visited
      · rw [dfs_loop_cons_mem graph hv]
        refine ⟨fun z => ?_, fun z => ?_⟩
        · rw [(ihs grp).1 z]
          constructor
          · rintro (hz | ⟨s, hs, hr⟩)
            · exact Or.inl hz
            · exact Or.inr ⟨s, List.mem_cons_of_mem _ hs, hr⟩
          · rintro (hz | ⟨s, hs, hr⟩)
            · exact Or.inl hz
            · rcases List.mem_cons.1 hs with hs | hs
              · exact absurd hv (hs ▸ hr.start_not_mem)
              · exact Or.inr ⟨s, hs, hr⟩
        · rw [(ihs grp).2 z]
          constructor
          · rintro (hz | ⟨⟨s, hs, hr⟩, hzv⟩)
            · exact Or.inl hz
            · exact Or.inr ⟨⟨s, List.mem_cons_of_mem _ hs, hr⟩, hzv⟩
          · rintro (hz | ⟨⟨s, hs, hr⟩, hzv⟩)
            · exact Or.inl hz
            · rcases List.mem_cons.1 hs with hs | hs
              · exact absurd hv (hs ▸ hr.start_not_mem)
              · exact Or.inr ⟨⟨s, hs, hr⟩, hzv⟩
      · rw [dfs_loop_cons_not_mem graph hv]
        have hc' : (Finset.univ \ insert node visited).card ≤ c := by
          have := card_sdiff_insert_lt hv
          omega
        have ih := ihc (insert node visited) hc' ((graph node).reverse ++ rest) (grp ++ [node])
        refine ⟨fun z => ?_, fun z => ?_⟩
        · rw [ih.1 z]
          constructor
          · rintro (hz | hz)
            · rcases Finset.mem_insert.1 hz with hz | hz
              · subst hz
                exact Or.inr ⟨z, List.mem_cons_self _ _, AReach.base hv⟩
              · exact Or.inl hz
            · exact Or.inr ((reach_insert_iff graph hv rest z).1 hz).2
          · rintro (hz | hz)
            · exact Or.inl (Finset.mem_insert_of_mem hz)
            · by_cases hzn : z = node
              · exact Or.inl (hzn ▸ Finset.mem_insert_self _ _)
              · exact Or.inr ((reach_insert_iff graph hv rest z).2 ⟨hzn, hz⟩)
        · rw [ih.2 z]
          constructor
          · rintro (hz | ⟨hz, hzv⟩)
            · rcases List.mem_append.1 hz with hz | hz
              · exact Or.inl hz
              · rw [List.mem_singleton] at hz
                subst hz
                exact Or.inr ⟨⟨z, List.mem_cons_self _ _, AReach.base hv⟩, hv⟩
            · refine Or.inr ⟨((reach_insert_iff graph hv rest z).1 hz).2, ?_⟩
              exact fun hc => hzv (Finset.mem_insert_of_mem hc)
          · rintro (hz | ⟨hz, hzv⟩)
            · exact Or.inl (List.mem_append.2 (Or.inl hz))
            · by_cases hzn : z = node
              · exact Or.inl (List.mem_append.2 (Or.inr (by simp [hzn])))
              · refine Or.inr ⟨(reach_insert_iff graph hv rest z).2 ⟨hzn, hz⟩, ?_⟩
                simp [hzn, hzv]

end DetectionUtils

/-- The symmetric adjacency relation both groupers build from their pair
loop: `i < j` pairs passing the pairwise test, symmetrized. -/
def AdjRel {n : Nat} (test : Fin n → Fin n → Bool) (a b : Fin n) : Prop :=
  (a < b ∧ test a b = true) ∨ (b < a ∧ test b a = true)

/-- Connectivity: the reflexive-transitive closure of the adjacency. -/
def ConnRel {n : Nat} (test : Fin n → Fin n → Bool) : Fin n → Fin n → Prop :=
  Relation.ReflTransGen (AdjRel test)

theorem adjRel_symm {n : Nat} {test : Fin n → Fin n → Bool} {a b : Fin n}
    (h : AdjRel test a b) : AdjRel test b a := h.elim Or.inr Or.inl

theorem connRel_symm {n : Nat} {test : Fin n → Fin n → Bool} {a b : Fin n}
    (h : ConnRel test a b) : ConnRel test b a :=
  Relation.ReflTransGen.symmetric (fun _ _ hab => adjRel_symm hab) h

theorem connRel_trans {n : Nat} {test : Fin n → Fin n → Bool} {a b c : Fin n}
    (h1 : ConnRel test a b) (h2 : ConnRel test b c) : ConnRel test a c :=
  Relation.ReflTransGen.trans h1 h2

theorem connRel_refl {n : Nat} {test : Fin n → Fin n → Bool} {a : Fin n} :
    ConnRel test a a := Relation.ReflTransGen.refl

theorem ConnRel.class_iff {n : Nat} {test : Fin n → Fin n → Bool} {a b : Fin n}
    (h : ConnRel test a b) : ∀ z, ConnRel test a z ↔ ConnRel test b z :=
  fun z => ⟨fun hz => connRel_trans (connRel_symm h) hz, fun hz => connRel_trans h hz⟩

namespace DetectionUtils

theorem mem_graph_add {n : Nat} (g : Fin n → List (Fin n)) (a b x y : Fin n) :
    y ∈ graph_add g a b x ↔ y ∈ g x ∨ (x = a ∧ y = b) := by
  unfold graph_add
  by_cases hx : x = a
  · subst hx
    simp [Function.update_same]
  · simp [Function.update_noteq hx, hx]

theorem mem_build_graph_fold {n : Nat} (test : Fin n → Fin n → Bool) :
    ∀ (ps : List (Fin n × Fin n)) (g0 : Fin n → List (Fin n)) (x y : Fin n),
    y ∈ (ps.foldl
      (fun g ij => if test ij.1 ij.2 then graph_add (graph_add g ij.1 ij.2) ij.2 ij.1 else g)
      g0) x ↔
    y ∈ g0 x ∨ ∃ p ∈ ps, test p.1 p.2 = true ∧
      ((x = p.1 ∧ y = p.2) ∨ (x = p.2 ∧ y = p.1)) := by
  intro ps
  induction ps with
  | nil => intro g0 x y; simp
  | cons p rest ih =>
    intro g0 x y
    rw [List.foldl_cons, ih]
    by_cases ht : test p.1 p.2 = true
    · simp only [if_pos ht, mem_graph_add]
      constructor
      · rintro (((hg | ⟨hx, hy⟩) | ⟨hx, hy⟩) | ⟨q, hq, hqt, hqc⟩)
        · exact Or.inl hg
        · exact Or.inr ⟨p, List.mem_cons_self _ _, ht, Or.inl ⟨hx, hy⟩⟩
        · exact Or.inr ⟨p, List.mem_cons_self _ _, ht, Or.inr ⟨hx, hy⟩⟩
        · exact Or.inr ⟨q, List.mem_cons_of_mem _ hq, hqt, hqc⟩
      · rintro (hg | ⟨q, hq, hqt, hqc⟩)
        · exact Or.inl (Or.inl (Or.inl hg))
        · rcases List.mem_cons.1 hq with hq | hq
          · subst hq
            rcases hqc with ⟨hx, hy⟩ | ⟨hx, hy⟩
            · exact Or.inl (Or.inl (Or.inr ⟨hx, hy⟩))
            · exact Or.inl (Or.inr ⟨hx, hy⟩)
          · exact Or.inr ⟨q, hq, hqt, hqc⟩
    · simp only [if_neg ht]
      constructor
      · rintro (hg | ⟨q, hq, hqt, hqc⟩)
        · exact Or.inl hg
        · exact Or.inr ⟨q, List.mem_cons_of_mem _ hq, hqt, hqc⟩
      · rintro (hg | ⟨q, hq, hqt, hqc⟩)
        · exact Or.inl hg
        · rcases List.mem_cons.1 hq with hq | hq
          · subst hq
            exact absurd hqt ht
          · exact Or.inr ⟨q, hq, hqt, hqc⟩

theorem mem_build_graph {n : Nat} (test : Fin n → Fin n → Bool) (x y : Fin n) :
    y ∈ build_graph test x ↔ AdjRel test x y := by
  unfold build_graph
  rw [mem_build_graph_fold]
  simp only [List.not_mem_nil, false_or]
  constructor
  · rintro ⟨p, hp, ht, hc⟩
    obtain ⟨p1, p2⟩ := p
    have hlt : p1 < p2 := (mem_pairsFin p1 p2).1 hp
    rcases hc with ⟨hx, hy⟩ | ⟨hx, hy⟩
    · exact Or.inl ⟨hx ▸ hy ▸ hlt, hx ▸ hy ▸ ht⟩
    · exact Or.inr ⟨hx ▸ hy ▸ hlt, hx ▸ hy ▸ ht⟩
  · rintro (⟨hlt, ht⟩ | ⟨hlt, ht⟩)
    · exact ⟨(x, y), (mem_pairsFin x y).2 hlt, ht, Or.inl ⟨rfl, rfl⟩⟩
    · exact ⟨(y, x), (mem_pairsFin y x).2 hlt, ht, Or.inr ⟨rfl, rfl⟩⟩

theorem AReach_to_Conn {n : Nat} (test : Fin n → Fin n → Bool) {V : Finset (Fin n)}
    {x z : Fin n} (h : AReach (build_graph test) V x z) : ConnRel test x z := by
  induction h with
  | base _ => exact connRel_refl
  | step _ hadj _ ih =>
    exact Relation.ReflTransGen.tail ih ((mem_build_graph test _ _).1 hadj)

theorem Conn_to_AReach {n : Nat} (test : Fin n → Fin n → Bool) {V : Finset (Fin n)}
    {i : Fin n} (hclosed : ∀ u, ConnRel test i u → u ∉ V) {z : Fin n}
    (h : ConnRel test i z) : AReach (build_graph test) V i z := by
  induction h with
  | refl => exact AReach.base (hclosed i connRel_refl)
  | tail hc hadj ih =>
    rename_i b c
    exact AReach.step ih ((mem_build_graph test b c).2 hadj)
      (hclosed c (Relation.ReflTransGen.tail hc hadj))

end DetectionUtils

namespace DetectionUtils

/-- Invariant of the outer DFS loop: the visited set is the union of the
components of the processed start nodes, and the accumulated groups are
exactly those components. -/
def DfsInv {n : Nat} (test : Fin n → Fin n → Bool) (processed : List (Fin n))
    (acc : Finset (Fin n) × List (List (Fin n))) : Prop :=
  (∀ z, z ∈ acc.1 ↔ ∃ i ∈ processed, ConnRel test i z) ∧
  (∀ G ∈ acc.2, ∃ i, ∀ z, z ∈ G ↔ ConnRel test i z) ∧
  (∀ i ∈ processed, ∃ G ∈ acc.2, ∀ z, z ∈ G ↔ ConnRel test i z)

theorem dfs_outer_step_inv {n : Nat} (test : Fin n → Fin n → Bool)
    (processed : List (Fin n)) (acc : Finset (Fin n) × List (List (Fin n))) (i : Fin n)
    (hinv : DfsInv test processed acc) :
    DfsInv test (processed ++ [i]) (dfs_outer_step (build_graph test) acc i) := by
  obtain ⟨h1, h2a, h2b⟩ := hinv
  unfold dfs_outer_step
  by_cases hv : i ∈ acc.1
  · rw [if_pos hv]
    obtain ⟨i0, hi0, hconn⟩ := (h1 i).1 hv
    refine ⟨?_, h2a, ?_⟩
    · intro z
      rw [h1 z]
      constructor
      · rintro ⟨j, hj, hc⟩
        exact ⟨j, List.mem_append.2 (Or.inl hj), hc⟩
      · rintro ⟨j, hj, hc⟩
        rcases List.mem_append.1 hj with hj | hj
        · exact ⟨j, hj, hc⟩
        · rw [List.mem_singleton] at hj
          subst hj
          exact ⟨i0, hi0, connRel_trans hconn hc⟩
    · intro j hj
      rcases List.mem_append.1 hj with hj | hj
      · exact h2b j hj
      · rw [List.mem_singleton] at hj
        subst hj
        obtain ⟨G, hG, hGc⟩ := h2b i0 hi0
        refine ⟨G, hG, ?_⟩
        intro z
        rw [hGc z]
        exact hconn.class_iff z
  · rw [if_neg hv]
    have hclosed : ∀ u, ConnRel test i u → u ∉ acc.1 := by
      intro u hu hmem
      obtain ⟨j, hj, hjc⟩ := (h1 u).1 hmem
      exact hv ((h1 i).2 ⟨j, hj, connRel_trans hjc (connRel_symm hu)⟩)
    have hspec := dfs_loop_spec (build_graph test) (Finset.univ \ acc.1).card acc.1
      (le_refl _) [i] []
    have hreach : ∀ z, AReach (build_graph test) acc.1 i z ↔ ConnRel test i z := by
      intro z
      exact ⟨AReach_to_Conn test, Conn_to_AReach test hclosed⟩
    have hvis : ∀ z, z ∈ (dfs_loop (build_graph test) acc.1 [i] []).1 ↔
        z ∈ acc.1 ∨ ConnRel test i z := by
      intro z
      rw [hspec.1 z]
      simp only [List.mem_singleton, exists_eq_left]
      rw [hreach z]
    have hgrp : ∀ z, z ∈ (dfs_loop (build_graph test) acc.1 [i] []).2 ↔
        ConnRel test i z := by
      intro z
      rw [hspec.2 z]
      simp only [List.not_mem_nil, false_or, List.mem_singleton, exists_eq_left]
      rw [hreach z]
      constructor
      · rintro ⟨hc, _⟩
        exact hc
      · intro hc
        exact ⟨hc, hclosed z hc⟩
    refine ⟨?_, ?_, ?_⟩
    · intro z
      rw [hvis z, h1 z]
      constructor
      · rintro (⟨j, hj, hc⟩ | hc)
        · exact ⟨j, List.mem_append.2 (Or.inl hj), hc⟩
        · exact ⟨i, List.mem_append.2 (Or.inr (List.mem_singleton.2 rfl)), hc⟩
      · rintro ⟨j, hj, hc⟩
        rcases List.mem_append.1 hj with hj | hj
        · exact Or.inl ⟨j, hj, hc⟩
        · rw [List.mem_singleton] at hj
          subst hj
          exact Or.inr hc
    · intro G hG
      rcases List.mem_append.1 hG with hG | hG
      · exact h2a G hG
      · rw [List.mem_singleton] at hG
        subst hG
        exact ⟨i, hgrp⟩
    · intro j hj
      rcases List.mem_append.1 hj with hj | hj
      · obtain ⟨G, hG, hGc⟩ := h2b j hj
        exact ⟨G, List.mem_append.2 (Or.inl hG), hGc⟩
      · rw [List.mem_singleton] at hj
        subst hj
        exact ⟨(dfs_loop (build_graph test) acc.1 [j] []).2,
          List.mem_append.2 (Or.inr (List.mem_singleton.2 rfl)), hgrp⟩

theorem dfs_outer_fold_inv {n : Nat} (test : Fin n → Fin n → Bool) :
    ∀ (todo processed : List (Fin n)) (acc : Finset (Fin n) × List (List (Fin n))),
    DfsInv test processed acc →
    DfsInv test (processed ++ todo) (todo.foldl (dfs_outer_step (build_graph test)) acc) := by
  intro todo
  induction todo with
  | nil => intro processed acc h; simpa using h
  | cons i rest ih =>
    intro processed acc h
    rw [List.foldl_cons]
    have := ih (processed ++ [i]) _ (dfs_outer_step_inv test processed acc i h)
    simpa [List.append_assoc] using this

end DetectionUtils

namespace DetectionUtils

/-- The pairwise test `group_cards` uses. -/
def dfs_test (boxes : List Box) (t : ℚ) (a b : Fin boxes.length) : Bool :=
  if compute_overlap (boxes.get a) (boxes.get b) ≥ t then true else false

/-- Characterization of the DFS grouper: its groups, viewed as finsets of
indices, are exactly the connected components of the overlap graph. -/
theorem dfs_group_cards_char (boxes : List Box) (t : ℚ) (S : Finset Nat) :
    S ∈ (group_cards boxes t).map List.toFinset ↔
      ∃ i : Fin boxes.length,
        (∀ z : Fin boxes.length, z.val ∈ S ↔ ConnRel (dfs_test boxes t) i z) ∧
        (∀ m ∈ S, m < boxes.length) := by
  have hinv := dfs_outer_fold_inv (dfs_test boxes t) (List.finRange boxes.length) []
    (∅, []) ⟨by simp, by simp, by simp⟩
  simp only [List.nil_append] at hinv
  obtain ⟨h1, h2a, h2b⟩ := hinv
  have hgc : group_cards boxes t
      = ((List.finRange boxes.length).foldl
          (dfs_outer_step (build_graph (dfs_test boxes t))) (∅, [])).2.map
          (fun g => g.map Fin.val) := rfl
  rw [hgc]
  constructor
  · intro hS
    rw [List.map_map, List.mem_map] at hS
    obtain ⟨G, hG, hSG⟩ := hS
    obtain ⟨i, hic⟩ := h2a G hG
    refine ⟨i, ?_, ?_⟩
    · intro z
      rw [← hSG]
      simp only [Function.comp_apply, List.mem_toFinset, List.mem_map]
      constructor
      · rintro ⟨w, hw, hwz⟩
        exact (hic z).1 ((Fin.ext hwz : w = z) ▸ hw)
      · intro hc
        exact ⟨z, (hic z).2 hc, rfl⟩
    · intro m hm
      rw [← hSG] at hm
      simp only [Function.comp_apply, List.mem_toFinset, List.mem_map] at hm
      obtain ⟨w, _, hwm⟩ := hm
      exact hwm ▸ w.isLt
  · rintro ⟨i, hiS, hbound⟩
    obtain ⟨G, hG, hGc⟩ := h2b i (List.mem_finRange i)
    rw [List.map_map, List.mem_map]
    refine ⟨G, hG, ?_⟩
    apply Finset.ext
    intro m
    simp only [Function.comp_apply, List.mem_toFinset, List.mem_map]
    by_cases hm : m < boxes.length
    · constructor
      · rintro ⟨w, hw, hwm⟩
        exact hwm ▸ (hiS w).2 ((hGc w).1 hw)
      · intro hmS
        refine ⟨⟨m, hm⟩, (hGc ⟨m, hm⟩).2 ((hiS ⟨m, hm⟩).1 hmS), rfl⟩
    · constructor
      · rintro ⟨w, _, hwm⟩
        exact absurd (hwm ▸ w.isLt) hm
      · intro hmS
        exact absurd (hbound m hmS) hm

end DetectionUtils

namespace HandTracker

/-- A union-find root: a fixpoint of the parent map. -/
def isRoot {n : Nat} (p : Fin n → Fin n) (x : Fin n) : Prop := p x = x

/-- The union-find forest invariant: every chain reaches a root. -/
def UFInv {n : Nat} (p : Fin n → Fin n) : Prop :=
  ∀ x, ∃ k, isRoot p (p^[k] x)

/-- `r` is the root of `x`'s chain. -/
def RootRel {n : Nat} (p : Fin n → Fin n) (x r : Fin n) : Prop :=
  isRoot p r ∧ ∃ k, p^[k] x = r

/-- Two nodes share a representative. -/
def sameRoot {n : Nat} (p : Fin n → Fin n) (x y : Fin n) : Prop :=
  ∃ r, RootRel p x r ∧ RootRel p y r

theorem isRoot_iterate {n : Nat} {p : Fin n → Fin n} {r : Fin n} (h : isRoot p r) :
    ∀ k, p^[k] r = r := by
  intro k
  induction k with
  | zero => rfl
  | succ k ih => rw [Function.iterate_succ_apply, h, ih]

theorem RootRel.unique {n : Nat} {p : Fin n → Fin n} {x r r' : Fin n}
    (h1 : RootRel p x r) (h2 : RootRel p x r') : r = r' := by
  obtain ⟨hr, k, hk⟩ := h1
  obtain ⟨hr', k', hk'⟩ := h2
  rcases Nat.le_total k k' with hle | hle
  · have : p^[k'] x = r := by
      rw [show k' = (k' - k) + k from (Nat.sub_add_cancel hle).symm,
        Function.iterate_add_apply, hk, isRoot_iterate hr]
    rw [← hk', this]
  · have : p^[k] x = r' := by
      rw [show k = (k - k') + k' from (Nat.sub_add_cancel hle).symm,
        Function.iterate_add_apply, hk', isRoot_iterate hr']
    rw [← hk, this]

theorem RootRel.of_root {n : Nat} {p : Fin n → Fin n} {r : Fin n} (h : isRoot p r) :
    RootRel p r r := ⟨h, 0, rfl⟩

theorem RootRel.shift {n : Nat} {p : Fin n → Fin n} {x r : Fin n}
    (h : RootRel p (p x) r) : RootRel p x r := by
  obtain ⟨hr, k, hk⟩ := h
  exact ⟨hr, k + 1, by rw [Function.iterate_succ_apply]; exact hk⟩

theorem sameRoot_refl {n : Nat} {p : Fin n → Fin n} (hinv : UFInv p) (x : Fin n) :
    sameRoot p x x := by
  obtain ⟨k, hk⟩ := hinv x
  exact ⟨p^[k] x, ⟨hk, k, rfl⟩, ⟨hk, k, rfl⟩⟩

theorem sameRoot_symm {n : Nat} {p : Fin n → Fin n} {x y : Fin n}
    (h : sameRoot p x y) : sameRoot p y x := by
  obtain ⟨r, h1, h2⟩ := h
  exact ⟨r, h2, h1⟩

theorem sameRoot_trans {n : Nat} {p : Fin n → Fin n} {x y z : Fin n}
    (h1 : sameRoot p x y) (h2 : sameRoot p y z) : sameRoot p x z := by
  obtain ⟨r, ha, hb⟩ := h1
  obtain ⟨r', hc, hd⟩ := h2
  rw [RootRel.unique hb hc] at ha
  exact ⟨r', ha, hd⟩

theorem sameRoot_id {n : Nat} {x y : Fin n} (h : sameRoot (fun a => a) x y) : x = y := by
  obtain ⟨r, ⟨_, k, hk⟩, ⟨_, k', hk'⟩⟩ := h
  have hid : ∀ m (a : Fin n), (fun a : Fin n => a)^[m] a = a := by
    intro m
    induction m with
    | zero => intro a; rfl
    | succ m ih => intro a; rw [Function.iterate_succ_apply]; exact ih a
  rw [hid k x] at hk
  rw [hid k' y] at hk'
  rw [hk, hk']

theorem UFInv_id {n : Nat} : UFInv (fun a : Fin n => a) := fun x => ⟨0, rfl⟩

theorem no_cycle {n : Nat} {p : Fin n → Fin n} (hinv : UFInv p) {x : Fin n} {j : Nat}
    (hj : 1 ≤ j) (hx : p^[j] x = x) : isRoot p x := by
  obtain ⟨k, hk⟩ := hinv x
  have hmul : ∀ m, p^[m * j] x = x := by
    intro m
    induction m with
    | zero => simp
    | succ m ih => rw [Nat.succ_mul, Function.iterate_add_apply, hx, ih]
  have hkm : p^[k] x = p^[k % j] x := by
    conv_lhs => rw [← Nat.mod_add_div k j]
    rw [Function.iterate_add_apply, Nat.mul_comm, hmul]
  rw [hkm] at hk
  by_cases hr : k % j = 0
  · rw [hr] at hk
    simpa using hk
  · have hlt : k % j < j := Nat.mod_lt _ (by omega)
    have hR : p^[j - k % j] (p^[k % j] x) = x := by
      rw [← Function.iterate_add_apply, Nat.sub_add_cancel (le_of_lt hlt)]
      exact hx
    rw [isRoot_iterate hk (j - k % j)] at hR
    rwa [hR] at hk

theorem compress_chain {n : Nat} {p : Fin n → Fin n} (hinv : UFInv p) {x : Fin n}
    (hx : p x ≠ x) :
    ∀ m, (Function.update p x (p (p x)))^[m] (p (p x)) = p^[m] (p (p x)) := by
  intro m
  induction m with
  | zero => rfl
  | succ m ih =>
    have hne : p^[m] (p (p x)) ≠ x := by
      intro hc
      apply hx
      have hiter : p^[m + 1 + 1] x = p^[m] (p (p x)) := by
        rw [Function.iterate_succ_apply, Function.iterate_succ_apply]
      exact no_cycle hinv (by omega) (hiter.trans hc)
    rw [Function.iterate_succ_apply', ih, Function.iterate_succ_apply',
      Function.update_noteq hne]

theorem compress_isRoot {n : Nat} {p : Fin n → Fin n} (hinv : UFInv p) {x : Fin n}
    (hx : p x ≠ x) (s : Fin n) :
    isRoot (Function.update p x (p (p x))) s ↔ isRoot p s := by
  by_cases hs : s = x
  · subst hs
    unfold isRoot
    rw [Function.update_same]
    constructor
    · intro h
      have hiter : p^[1 + 1] s = s := by
        rw [Function.iterate_succ_apply, Function.iterate_one]
        exact h
      exact no_cycle hinv (by omega) hiter
    · intro h
      exact absurd h hx
  · unfold isRoot
    rw [Function.update_noteq hs]

theorem compress_chain_to_orig {n : Nat} (p : Fin n → Fin n) (x : Fin n) :
    ∀ (k : Nat) (y : Fin n),
      ∃ k', p^[k'] y = (Function.update p x (p (p x)))^[k] y := by
  intro k
  induction k with
  | zero => intro y; exact ⟨0, rfl⟩
  | succ k ih =>
    intro y
    rw [Function.iterate_succ_apply]
    by_cases hy : y = x
    · subst hy
      obtain ⟨k', hk'⟩ := ih (Function.update p y (p (p y)) y)
      refine ⟨k' + 1 + 1, ?_⟩
      rw [Function.iterate_succ_apply, Function.iterate_succ_apply]
      rw [Function.update_same] at hk' ⊢
      exact hk'
    · obtain ⟨k', hk'⟩ := ih (Function.update p x (p (p x)) y)
      refine ⟨k' + 1, ?_⟩
      rw [Function.iterate_succ_apply]
      rw [Function.update_noteq hy] at hk' ⊢
      exact hk'

theorem compress_orig_chain {n : Nat} {p : Fin n → Fin n} (hinv : UFInv p) {x : Fin n}
    (hx : p x ≠ x) {s : Fin n} (hs : isRoot p s) :
    ∀ (k : Nat) (y : Fin n), p^[k] y = s →
      ∃ k', (Function.update p x (p (p x)))^[k'] y = s := by
  intro k
  induction k using Nat.strong_induction_on with
  | _ k ih =>
    intro y h
    match k, h with
    | 0, h => exact ⟨0, h⟩
    | k + 1, h =>
      by_cases hpy : p y = y
      · rw [isRoot_iterate hpy] at h
        exact ⟨0, h⟩
      · by_cases hyx : y = x
        · subst hyx
          match k, h with
          | 0, h =>
            refine ⟨1, ?_⟩
            rw [Function.iterate_one, Function.update_same]
            rw [Function.iterate_one] at h
            rw [h]
            exact hs
          | k + 1, h =>
            have h' : p^[k] (p (p y)) = s := by
              rw [Function.iterate_succ_apply, Function.iterate_succ_apply] at h
              exact h
            obtain ⟨k', hk'⟩ := ih k (by omega) (p (p y)) h'
            refine ⟨k' + 1, ?_⟩
            rw [Function.iterate_succ_apply, Function.update_same]
            exact hk'
        · have h' : p^[k] (p y) = s := by
            rw [Function.iterate_succ_apply] at h
            exact h
          obtain ⟨k', hk'⟩ := ih k (by omega) (p y) h'
          refine ⟨k' + 1, ?_⟩
          rw [Function.iterate_succ_apply, Function.update_noteq hyx]
          exact hk'

theorem compress_rootRel {n : Nat} {p : Fin n → Fin n} (hinv : UFInv p) {x : Fin n}
    (hx : p x ≠ x) (y s : Fin n) :
    RootRel (Function.update p x (p (p x))) y s ↔ RootRel p y s := by
  constructor
  · rintro ⟨hroot, k, hk⟩
    obtain ⟨k', hk'⟩ := compress_chain_to_orig p x k y
    exact ⟨(compress_isRoot hinv hx s).1 hroot, k', by rw [hk', hk]⟩
  · rintro ⟨hroot, k, hk⟩
    obtain ⟨k', hk'⟩ := compress_orig_chain hinv hx hroot k y hk
    exact ⟨(compress_isRoot hinv hx s).2 hroot, k', hk'⟩

theorem compress_inv {n : Nat} {p : Fin n → Fin n} (hinv : UFInv p) {x : Fin n}
    (hx : p x ≠ x) : UFInv (Function.update p x (p (p x))) := by
  intro y
  obtain ⟨k, hk⟩ := hinv y
  obtain ⟨hr, k', hk'⟩ := (compress_rootRel hinv hx y (p^[k] y)).2 ⟨hk, k, rfl⟩
  exact ⟨k', by rw [hk']; exact hr⟩

theorem compress_fuel {n : Nat} {p : Fin n → Fin n} (hinv : UFInv p) {x : Fin n}
    (hx : p x ≠ x) {fuel k : Nat} (hk : k ≤ fuel + 1) (hroot : isRoot p (p^[k] x)) :
    ∃ k' ≤ fuel, isRoot (Function.update p x (p (p x)))
      ((Function.update p x (p (p x)))^[k'] (Function.update p x (p (p x)) x)) := by
  match k, hk, hroot with
  | 0, hk, hroot => exact absurd hroot hx
  | 1, hk, hroot =>
    refine ⟨0, Nat.zero_le _, ?_⟩
    have h1 : p (p x) = p x := hroot
    have h2 : isRoot p (p (p x)) := by
      show p (p (p x)) = p (p x)
      rw [h1]
      exact h1
    show isRoot (Function.update p x (p (p x))) (Function.update p x (p (p x)) x)
    rw [Function.update_same]
    exact (compress_isRoot hinv hx _).2 h2
  | k + 1 + 1, hk, hroot =>
    refine ⟨k, by omega, ?_⟩
    have hiter : p^[k + 1 + 1] x = p^[k] (p (p x)) := by
      rw [Function.iterate_succ_apply, Function.iterate_succ_apply]
    rw [hiter] at hroot
    have hq : isRoot (Function.update p x (p (p x))) (p^[k] (p (p x))) :=
      (compress_isRoot hinv hx _).2 hroot
    show isRoot (Function.update p x (p (p x)))
      ((Function.update p x (p (p x)))^[k] (Function.update p x (p (p x)) x))
    rw [Function.update_same, compress_chain hinv hx k]
    exact hq

theorem uf_find_spec {n : Nat} :
    ∀ (fuel : Nat) (p : Fin n → Fin n) (x : Fin n), UFInv p →
    (∃ k ≤ fuel, isRoot p (p^[k] x)) →
    UFInv (uf_find p x fuel).1 ∧ RootRel p x (uf_find p x fuel).2 ∧
    (∀ y s, RootRel (uf_find p x fuel).1 y s ↔ RootRel p y s) := by
  intro fuel
  induction fuel with
  | zero =>
    intro p x hinv hfuel
    obtain ⟨k, hk, hroot⟩ := hfuel
    have hk0 : k = 0 := Nat.le_zero.1 hk
    subst hk0
    exact ⟨hinv, ⟨hroot, 0, rfl⟩, fun y s => Iff.rfl⟩
  | succ fuel ih =>
    intro p x hinv hfuel
    by_cases hpx : p x = x
    · have heq : uf_find p x (fuel + 1) = (p, x) := by
        simp only [uf_find, if_pos hpx]
      rw [heq]
      exact ⟨hinv, ⟨hpx, 0, rfl⟩, fun y s => Iff.rfl⟩
    · have heq : uf_find p x (fuel + 1) =
          uf_find (Function.update p x (p (p x))) (Function.update p x (p (p x)) x) fuel := by
        simp only [uf_find, if_neg hpx]
      obtain ⟨k, hk, hroot⟩ := hfuel
      obtain ⟨k', hk', hr'⟩ := compress_fuel hinv hpx hk hroot
      obtain ⟨h1, h2, h3⟩ := ih (Function.update p x (p (p x)))
        (Function.update p x (p (p x)) x) (compress_inv hinv hpx) ⟨k', hk', hr'⟩
      rw [heq]
      refine ⟨h1, ?_, fun y s => (h3 y s).trans (compress_rootRel hinv hpx y s)⟩
      have h2' := (compress_rootRel hinv hpx _ _).1 h2
      nth_rewrite 1 [Function.update_same] at h2'
      exact RootRel.shift (RootRel.shift h2')

theorem uf_fuel_bound {n : Nat} {p : Fin n → Fin n} (hinv : UFInv p) (x : Fin n) :
    ∃ k ≤ n, isRoot p (p^[k] x) := by
  have hcard : Fintype.card (Fin n) < Fintype.card (Fin (n + 1)) := by simp
  obtain ⟨a, b, hab, heq⟩ := Fintype.exists_ne_map_eq_of_card_lt
    (fun i : Fin (n + 1) => p^[i.val] x) hcard
  have main : ∀ (a b : Fin (n + 1)), a.val < b.val → p^[a.val] x = p^[b.val] x →
      ∃ k ≤ n, isRoot p (p^[k] x) := by
    intro a b hlt he
    have hcyc : p^[b.val - a.val] (p^[a.val] x) = p^[a.val] x := by
      rw [← Function.iterate_add_apply, Nat.sub_add_cancel (le_of_lt hlt)]
      exact he.symm
    exact ⟨a.val, Nat.lt_succ_iff.mp a.isLt, no_cycle hinv (by omega) hcyc⟩
  rcases Nat.lt_or_ge a.val b.val with h | h
  · exact main a b h heq
  · have hba : b.val < a.val := by
      rcases Nat.lt_or_ge b.val a.val with h' | h'
      · exact h'
      · exact absurd (Fin.ext (Nat.le_antisymm h' h)) hab
    exact main b a hba heq.symm

theorem uf_find_root {n : Nat} {p : Fin n → Fin n} (hinv : UFInv p) (x : Fin n) :
    UFInv (uf_find p x n).1 ∧ RootRel p x (uf_find p x n).2 ∧
    (∀ y s, RootRel (uf_find p x n).1 y s ↔ RootRel p y s) :=
  uf_find_spec n p x hinv (uf_fuel_bound hinv x)

theorem rootRel_self_iff {n : Nat} {p : Fin n → Fin n} {s : Fin n} :
    RootRel p s s ↔ isRoot p s :=
  ⟨fun h => h.1, fun h => ⟨h, 0, rfl⟩⟩

theorem sameRoot_congr {n : Nat} {p q : Fin n → Fin n}
    (hR : ∀ y s, RootRel q y s ↔ RootRel p y s) (a b : Fin n) :
    sameRoot q a b ↔ sameRoot p a b := by
  unfold sameRoot
  constructor
  · rintro ⟨r, h1, h2⟩
    exact ⟨r, (hR a r).1 h1, (hR b r).1 h2⟩
  · rintro ⟨r, h1, h2⟩
    exact ⟨r, (hR a r).2 h1, (hR b r).2 h2⟩

theorem graft_isRoot {n : Nat} {p : Fin n → Fin n} {r1 r2 : Fin n}
    (hne : r1 ≠ r2) (s : Fin n) :
    isRoot (Function.update p r2 r1) s ↔ (isRoot p s ∧ s ≠ r2) := by
  by_cases hs : s = r2
  · subst hs
    unfold isRoot
    rw [Function.update_same]
    simp [hne]
  · unfold isRoot
    rw [Function.update_noteq hs]
    simp [hs]

theorem graft_chain {n : Nat} {p : Fin n → Fin n} {r1 r2 : Fin n}
    (hr2 : isRoot p r2) {s : Fin n} :
    ∀ (k : Nat) (y : Fin n), p^[k] y = s →
      (s ≠ r2 → ∃ k', (Function.update p r2 r1)^[k'] y = s) ∧
      (s = r2 → ∃ k', (Function.update p r2 r1)^[k'] y = r1) := by
  intro k
  induction k with
  | zero =>
    intro y h
    have hy : y = s := h
    refine ⟨fun _ => ⟨0, h⟩, fun hs => ⟨1, ?_⟩⟩
    rw [Function.iterate_one, hy, hs, Function.update_same]
  | succ k ih =>
    intro y h
    by_cases hpy : p y = y
    · rw [isRoot_iterate hpy] at h
      refine ⟨fun _ => ⟨0, h⟩, fun hs => ⟨1, ?_⟩⟩
      rw [Function.iterate_one, h, hs, Function.update_same]
    · have hyr2 : y ≠ r2 := fun hc => hpy (hc ▸ hr2)
      have h' : p^[k] (p y) = s := by
        rw [Function.iterate_succ_apply] at h
        exact h
      obtain ⟨h1, h2⟩ := ih (p y) h'
      constructor
      · intro hs
        obtain ⟨k', hk'⟩ := h1 hs
        refine ⟨k' + 1, ?_⟩
        rw [Function.iterate_succ_apply, Function.update_noteq hyr2]
        exact hk'
      · intro hs
        obtain ⟨k', hk'⟩ := h2 hs
        refine ⟨k' + 1, ?_⟩
        rw [Function.iterate_succ_apply, Function.update_noteq hyr2]
        exact hk'

theorem graft_chain_back {n : Nat} {p : Fin n → Fin n} {r1 r2 : Fin n}
    (hr1 : isRoot p r1) (hne : r1 ≠ r2) {s : Fin n}
    (hs : isRoot (Function.update p r2 r1) s) :
    ∀ (k : Nat) (y : Fin n), (Function.update p r2 r1)^[k] y = s →
      (∃ k', p^[k'] y = s) ∨ ((∃ k', p^[k'] y = r2) ∧ s = r1) := by
  intro k
  induction k with
  | zero =>
    intro y h
    exact Or.inl ⟨0, h⟩
  | succ k ih =>
    intro y h
    by_cases hyr2 : y = r2
    · have hq1 : isRoot (Function.update p r2 r1) r1 := by
        rw [graft_isRoot hne]
        exact ⟨hr1, hne⟩
      have hchain : (Function.update p r2 r1)^[k] r1 = s := by
        rw [Function.iterate_succ_apply, hyr2, Function.update_same] at h
        exact h
      rw [isRoot_iterate hq1] at hchain
      exact Or.inr ⟨⟨0, hyr2⟩, hchain.symm⟩
    · have h' : (Function.update p r2 r1)^[k] (p y) = s := by
        rw [Function.iterate_succ_apply, Function.update_noteq hyr2] at h
        exact h
      rcases ih (p y) h' with ⟨k', hk'⟩ | ⟨⟨k', hk'⟩, hsr⟩
      · refine Or.inl ⟨k' + 1, ?_⟩
        rw [Function.iterate_succ_apply]
        exact hk'
      · refine Or.inr ⟨⟨k' + 1, ?_⟩, hsr⟩
        rw [Function.iterate_succ_apply]
        exact hk'

theorem graft_rootRel {n : Nat} {p : Fin n → Fin n} {r1 r2 : Fin n}
    (hr1 : isRoot p r1) (hr2 : isRoot p r2) (hne : r1 ≠ r2) (y s : Fin n) :
    RootRel (Function.update p r2 r1) y s ↔
      ((RootRel p y s ∧ s ≠ r2) ∨ (RootRel p y r2 ∧ s = r1)) := by
  constructor
  · rintro ⟨hqs, k, hchain⟩
    rcases graft_chain_back hr1 hne hqs k y hchain with ⟨k', hk'⟩ | ⟨⟨k', hk'⟩, hsr⟩
    · obtain ⟨hps, hsne⟩ := (graft_isRoot hne s).1 hqs
      exact Or.inl ⟨⟨hps, k', hk'⟩, hsne⟩
    · exact Or.inr ⟨⟨hr2, k', hk'⟩, hsr⟩
  · rintro (⟨⟨hps, k, hchain⟩, hsne⟩ | ⟨⟨_, k, hchain⟩, hsr⟩)
    · obtain ⟨k', hk'⟩ := (graft_chain hr2 k y hchain).1 hsne
      exact ⟨(graft_isRoot hne s).2 ⟨hps, hsne⟩, k', hk'⟩
    · subst hsr
      obtain ⟨k', hk'⟩ := (graft_chain hr2 k y hchain).2 rfl
      exact ⟨(graft_isRoot hne s).2 ⟨hr1, hne⟩, k', hk'⟩

theorem graft_inv {n : Nat} {p : Fin n → Fin n} (hinv : UFInv p) {r1 r2 : Fin n}
    (hr1 : isRoot p r1) (hr2 : isRoot p r2) (hne : r1 ≠ r2) :
    UFInv (Function.update p r2 r1) := by
  intro y
  obtain ⟨k, hk⟩ := hinv y
  by_cases hrr : p^[k] y = r2
  · obtain ⟨k', hk'⟩ := (graft_chain hr2 k y hrr).2 rfl
    refine ⟨k', ?_⟩
    rw [hk']
    rw [graft_isRoot hne]
    exact ⟨hr1, hne⟩
  · obtain ⟨k', hk'⟩ := (graft_chain hr2 k y rfl).1 hrr
    refine ⟨k', ?_⟩
    rw [hk']
    rw [graft_isRoot hne]
    exact ⟨hk, hrr⟩

theorem graft_sameRoot {n : Nat} {p : Fin n → Fin n} {r1 r2 : Fin n}
    (hr1 : isRoot p r1) (hr2 : isRoot p r2) (hne : r1 ≠ r2) (a b : Fin n) :
    sameRoot (Function.update p r2 r1) a b ↔
      (sameRoot p a b ∨ (RootRel p a r2 ∧ RootRel p b r1) ∨
        (RootRel p a r1 ∧ RootRel p b r2)) := by
  constructor
  · rintro ⟨s, hqa, hqb⟩
    rcases (graft_rootRel hr1 hr2 hne a s).1 hqa with ⟨ha, hsne⟩ | ⟨ha, hsr⟩
    · rcases (graft_rootRel hr1 hr2 hne b s).1 hqb with ⟨hb, _⟩ | ⟨hb, hsr⟩
      · exact Or.inl ⟨s, ha, hb⟩
      · exact Or.inr (Or.inr ⟨by rw [← hsr]; exact ha, hb⟩)
    · rcases (graft_rootRel hr1 hr2 hne b s).1 hqb with ⟨hb, _⟩ | ⟨hb, _⟩
      · exact Or.inr (Or.inl ⟨ha, by rw [← hsr]; exact hb⟩)
      · exact Or.inl ⟨r2, ha, hb⟩
  · rintro (⟨r, ha, hb⟩ | ⟨ha, hb⟩ | ⟨ha, hb⟩)
    · by_cases hrr2 : r = r2
      · exact ⟨r1, (graft_rootRel hr1 hr2 hne a r1).2
            (Or.inr ⟨by rw [← hrr2]; exact ha, rfl⟩),
          (graft_rootRel hr1 hr2 hne b r1).2
            (Or.inr ⟨by rw [← hrr2]; exact hb, rfl⟩)⟩
      · exact ⟨r, (graft_rootRel hr1 hr2 hne a r).2 (Or.inl ⟨ha, hrr2⟩),
          (graft_rootRel hr1 hr2 hne b r).2 (Or.inl ⟨hb, hrr2⟩)⟩
    · exact ⟨r1, (graft_rootRel hr1 hr2 hne a r1).2 (Or.inr ⟨ha, rfl⟩),
        (graft_rootRel hr1 hr2 hne b r1).2 (Or.inl ⟨hb, hne⟩)⟩
    · exact ⟨r1, (graft_rootRel hr1 hr2 hne a r1).2 (Or.inl ⟨ha, hne⟩),
        (graft_rootRel hr1 hr2 hne b r1).2 (Or.inr ⟨hb, rfl⟩)⟩

theorem uf_union_spec {n : Nat} {p : Fin n → Fin n} (hinv : UFInv p) (x y : Fin n) :
    UFInv (uf_union p x y) ∧
    ∀ a b, sameRoot (uf_union p x y) a b ↔
      (sameRoot p a b ∨ (sameRoot p a x ∧ sameRoot p b y) ∨
        (sameRoot p a y ∧ sameRoot p b x)) := by
  obtain ⟨hinv1, hxr, hR1⟩ := uf_find_root hinv x
  obtain ⟨hinv2, hyr, hR2⟩ := uf_find_root hinv1 y
  set p1 := (uf_find p x n).1 with hp1
  set rx := (uf_find p x n).2 with hrx
  set p2 := (uf_find p1 y n).1 with hp2
  set ry := (uf_find p1 y n).2 with hry
  have hyr' : RootRel p y ry := (hR1 y ry).1 hyr
  have hRx : isRoot p rx := hxr.1
  have hRy : isRoot p ry := hyr'.1
  have hR12 : ∀ a s, RootRel p2 a s ↔ RootRel p a s :=
    fun a s => (hR2 a s).trans (hR1 a s)
  have hS12 : ∀ a b, sameRoot p2 a b ↔ sameRoot p a b := sameRoot_congr hR12
  have hKey : ∀ (z r : Fin n), RootRel p z r → ∀ a, (RootRel p a r ↔ sameRoot p a z) := by
    intro z r hzr a
    constructor
    · intro h
      exact ⟨r, h, hzr⟩
    · rintro ⟨s, has, hzs⟩
      rwa [RootRel.unique hzs hzr] at has
  have huu : uf_union p x y = if rx ≠ ry then Function.update p2 ry rx else p2 := rfl
  by_cases hrr : rx = ry
  · rw [huu, if_neg (not_not_intro hrr)]
    have hxy : sameRoot p x y := ⟨ry, by rw [← hrr]; exact hxr, hyr'⟩
    refine ⟨hinv2, fun a b => ?_⟩
    rw [hS12]
    constructor
    · exact Or.inl
    · rintro (h | ⟨hax, hby⟩ | ⟨hay, hbx⟩)
      · exact h
      · exact sameRoot_trans (sameRoot_trans hax hxy) (sameRoot_symm hby)
      · exact sameRoot_trans (sameRoot_trans hay (sameRoot_symm hxy)) (sameRoot_symm hbx)
  · rw [huu, if_pos hrr]
    have hRx2 : isRoot p2 rx := rootRel_self_iff.1 ((hR12 rx rx).2 (rootRel_self_iff.2 hRx))
    have hRy2 : isRoot p2 ry := rootRel_self_iff.1 ((hR12 ry ry).2 (rootRel_self_iff.2 hRy))
    refine ⟨graft_inv hinv2 hRx2 hRy2 hrr, fun a b => ?_⟩
    rw [graft_sameRoot hRx2 hRy2 hrr a b, hS12]
    have ha2y : RootRel p2 a ry ↔ sameRoot p a y :=
      (hR12 a ry).trans (hKey y ry hyr' a)
    have hb2x : RootRel p2 b rx ↔ sameRoot p b x :=
      (hR12 b rx).trans (hKey x rx hxr b)
    have ha2x : RootRel p2 a rx ↔ sameRoot p a x :=
      (hR12 a rx).trans (hKey x rx hxr a)
    have hb2y : RootRel p2 b ry ↔ sameRoot p b y :=
      (hR12 b ry).trans (hKey y ry hyr' b)
    rw [ha2y, hb2x, ha2x, hb2y]
    constructor
    · rintro (h | ⟨h1, h2⟩ | ⟨h1, h2⟩)
      · exact Or.inl h
      · exact Or.inr (Or.inr ⟨h1, h2⟩)
      · exact Or.inr (Or.inl ⟨h1, h2⟩)
    · rintro (h | ⟨h1, h2⟩ | ⟨h1, h2⟩)
      · exact Or.inl h
      · exact Or.inr (Or.inr ⟨h1, h2⟩)
      · exact Or.inr (Or.inl ⟨h1, h2⟩)

theorem uf_fold_lower {n : Nat} (adj : Fin n → Fin n → Bool) :
    ∀ (L : List (Fin n × Fin n)) (p : Fin n → Fin n), UFInv p →
    UFInv (L.foldl (fun p ij => if adj ij.1 ij.2 then uf_union p ij.1 ij.2 else p) p) ∧
    (∀ a b, sameRoot p a b →
      sameRoot (L.foldl (fun p ij => if adj ij.1 ij.2 then uf_union p ij.1 ij.2 else p) p) a b) ∧
    (∀ ij ∈ L, adj ij.1 ij.2 = true →
      sameRoot (L.foldl (fun p ij => if adj ij.1 ij.2 then uf_union p ij.1 ij.2 else p) p)
        ij.1 ij.2) := by
  intro L
  induction L with
  | nil =>
    intro p hinv
    exact ⟨hinv, fun a b h => h, fun ij hij => absurd hij (List.not_mem_nil ij)⟩
  | cons ij rest ih =>
    intro p hinv
    rw [List.foldl_cons]
    by_cases hadj : adj ij.1 ij.2 = true
    · rw [if_pos hadj]
      obtain ⟨hinv', hmerge⟩ := uf_union_spec hinv ij.1 ij.2
      obtain ⟨h1, h2, h3⟩ := ih (uf_union p ij.1 ij.2) hinv'
      refine ⟨h1, ?_, ?_⟩
      · intro a b hab
        exact h2 a b ((hmerge a b).2 (Or.inl hab))
      · intro kl hkl hakl
        rcases List.mem_cons.1 hkl with hkl | hkl
        · rw [hkl]
          apply h2
          exact (hmerge ij.1 ij.2).2
            (Or.inr (Or.inl ⟨sameRoot_refl hinv ij.1, sameRoot_refl hinv ij.2⟩))
        · exact h3 kl hkl hakl
    · rw [if_neg hadj]
      obtain ⟨h1, h2, h3⟩ := ih p hinv
      refine ⟨h1, h2, ?_⟩
      intro kl hkl hakl
      rcases List.mem_cons.1 hkl with hkl | hkl
      · rw [hkl] at hakl
        exact absurd hakl hadj
      · exact h3 kl hkl hakl

theorem uf_fold_upper {n : Nat} (adj : Fin n → Fin n → Bool) (R : Fin n → Fin n → Prop)
    (hsymm : ∀ a b, R a b → R b a) (htrans : ∀ a b c, R a b → R b c → R a c) :
    ∀ (L : List (Fin n × Fin n)) (p : Fin n → Fin n), UFInv p →
    (∀ a b, sameRoot p a b → R a b) →
    (∀ ij ∈ L, adj ij.1 ij.2 = true → R ij.1 ij.2) →
    ∀ a b, sameRoot
      (L.foldl (fun p ij => if adj ij.1 ij.2 then uf_union p ij.1 ij.2 else p) p) a b →
      R a b := by
  intro L
  induction L with
  | nil =>
    intro p hinv hbase hedge a b h
    exact hbase a b h
  | cons ij rest ih =>
    intro p hinv hbase hedge a b h
    rw [List.foldl_cons] at h
    by_cases hadj : adj ij.1 ij.2 = true
    · rw [if_pos hadj] at h
      obtain ⟨hinv', hmerge⟩ := uf_union_spec hinv ij.1 ij.2
      have hRedge : R ij.1 ij.2 := hedge ij (List.mem_cons_self ij rest) hadj
      have hbase' : ∀ a b, sameRoot (uf_union p ij.1 ij.2) a b → R a b := by
        intro a b hab
        rcases (hmerge a b).1 hab with hh | ⟨h1, h2⟩ | ⟨h1, h2⟩
        · exact hbase a b hh
        · exact htrans a ij.2 b (htrans a ij.1 ij.2 (hbase a ij.1 h1) hRedge)
            (hsymm b ij.2 (hbase b ij.2 h2))
        · exact htrans a ij.1 b (htrans a ij.2 ij.1 (hbase a ij.2 h1)
            (hsymm ij.1 ij.2 hRedge)) (hsymm b ij.1 (hbase b ij.1 h2))
      exact ih (uf_union p ij.1 ij.2) hinv' hbase'
        (fun kl hkl => hedge kl (List.mem_cons_of_mem ij hkl)) a b h
    · rw [if_neg hadj] at h
      exact ih p hinv hbase (fun kl hkl => hedge kl (List.mem_cons_of_mem ij hkl)) a b h

theorem uf_parent_spec {n : Nat} (adj : Fin n → Fin n → Bool) :
    UFInv ((pairsFin n).foldl
      (fun p ij => if adj ij.1 ij.2 then uf_union p ij.1 ij.2 else p) (fun x => x)) ∧
    ∀ a b, sameRoot ((pairsFin n).foldl
      (fun p ij => if adj ij.1 ij.2 then uf_union p ij.1 ij.2 else p) (fun x => x)) a b ↔
      ConnRel adj a b := by
  obtain ⟨h1, h2, h3⟩ := uf_fold_lower adj (pairsFin n) (fun x => x) UFInv_id
  refine ⟨h1, fun a b => ⟨?_, ?_⟩⟩
  · apply uf_fold_upper adj (ConnRel adj)
      (fun a b h => connRel_symm h) (fun a b c h1 h2 => connRel_trans h1 h2)
      (pairsFin n) (fun x => x) UFInv_id
    · intro a b h
      rw [sameRoot_id h]
      exact connRel_refl
    · rintro ⟨i, j⟩ hij hadj
      have hlt : i < j := (mem_pairsFin i j).1 hij
      exact Relation.ReflTransGen.single (Or.inl ⟨hlt, hadj⟩)
  · intro h
    induction h with
    | refl => exact sameRoot_refl h1 a
    | tail hab hbc ihs =>
      rename_i b c
      rcases hbc with ⟨hlt, ht⟩ | ⟨hlt, ht⟩
      · have hmem : (b, c) ∈ pairsFin n := (mem_pairsFin b c).2 hlt
        exact sameRoot_trans ihs (h3 (b, c) hmem ht)
      · have hmem : (c, b) ∈ pairsFin n := (mem_pairsFin c b).2 hlt
        exact sameRoot_trans ihs (sameRoot_symm (h3 (c, b) hmem ht))

theorem alistPush_eq_set_some {κ α : Type} [DecidableEq κ] {d : List (κ × List α)} {k : κ}
    {l : List α} (h : alistGet? d k = some l) (v : α) :
    alistPush d k v = alistSet d k (l ++ [v]) := by
  induction d with
  | nil => simp [alistGet?] at h
  | cons e rest ih =>
    obtain ⟨k', l'⟩ := e
    by_cases hk : k' = k
    · simp only [alistGet?, if_pos hk] at h
      have hl : l' = l := by simpa using h
      simp only [alistPush, if_pos hk, alistSet, if_pos hk]
      rw [hk, hl]
    · simp only [alistGet?, if_neg hk] at h
      simp only [alistPush, if_neg hk, alistSet, if_neg hk]
      rw [ih h]

theorem alistPush_eq_set_none {κ α : Type} [DecidableEq κ] {d : List (κ × List α)} {k : κ}
    (h : alistGet? d k = none) (v : α) :
    alistPush d k v = alistSet d k [v] := by
  induction d with
  | nil => rfl
  | cons e rest ih =>
    obtain ⟨k', l'⟩ := e
    by_cases hk : k' = k
    · simp [alistGet?, hk] at h
    · simp only [alistGet?, if_neg hk] at h
      simp only [alistPush, if_neg hk, alistSet, if_neg hk]
      rw [ih h]

theorem collect_fold_spec {n : Nat} (pstar : Fin n → Fin n) :
    ∀ (todo P : List (Fin n)) (p : Fin n → Fin n) (d : List (Fin n × List (Fin n))),
    UFInv p →
    (∀ y s, RootRel p y s ↔ RootRel pstar y s) →
    (d.map Prod.fst).Nodup →
    (∀ kk l, alistGet? d kk = some l → ∀ z, z ∈ l ↔ (z ∈ P ∧ RootRel pstar z kk)) →
    (∀ i ∈ P, ∃ kk l, RootRel pstar i kk ∧ alistGet? d kk = some l) →
    (∀ kk l, alistGet? d kk = some l → isRoot pstar kk) →
    ((todo.foldl group_collect (p, d)).2.map Prod.fst).Nodup ∧
    (∀ kk l, alistGet? (todo.foldl group_collect (p, d)).2 kk = some l →
      ∀ z, z ∈ l ↔ (z ∈ P ++ todo ∧ RootRel pstar z kk)) ∧
    (∀ i ∈ P ++ todo, ∃ kk l, RootRel pstar i kk ∧
      alistGet? (todo.foldl group_collect (p, d)).2 kk = some l) ∧
    (∀ kk l, alistGet? (todo.foldl group_collect (p, d)).2 kk = some l →
      isRoot pstar kk) := by
  intro todo
  induction todo with
  | nil =>
    intro P p d hinv hC2 hC3 hC4 hC5 hC7
    rw [List.append_nil]
    exact ⟨hC3, hC4, hC5, hC7⟩
  | cons i rest ih =>
    intro P p d hinv hC2 hC3 hC4 hC5 hC7
    rw [List.foldl_cons]
    obtain ⟨hinv', hri, hRiff⟩ := uf_find_root hinv i
    have hstep : group_collect (p, d) i =
        ((uf_find p i n).1, alistPush d (uf_find p i n).2 i) := rfl
    rw [hstep]
    have hri' : RootRel pstar i (uf_find p i n).2 := (hC2 i (uf_find p i n).2).1 hri
    have hrootIs : isRoot pstar (uf_find p i n).2 := hri'.1
    have hC2' : ∀ y s, RootRel (uf_find p i n).1 y s ↔ RootRel pstar y s :=
      fun y s => (hRiff y s).trans (hC2 y s)
    have hmain : ∀ (d' : List (Fin n × List (Fin n))),
        (d'.map Prod.fst).Nodup →
        (∀ kk l, alistGet? d' kk = some l →
          ∀ z, z ∈ l ↔ (z ∈ P ++ [i] ∧ RootRel pstar z kk)) →
        (∀ j ∈ P ++ [i], ∃ kk l, RootRel pstar j kk ∧ alistGet? d' kk = some l) →
        (∀ kk l, alistGet? d' kk = some l → isRoot pstar kk) →
        ((rest.foldl group_collect ((uf_find p i n).1, d')).2.map Prod.fst).Nodup ∧
        (∀ kk l, alistGet? (rest.foldl group_collect ((uf_find p i n).1, d')).2 kk = some l →
          ∀ z, z ∈ l ↔ (z ∈ P ++ i :: rest ∧ RootRel pstar z kk)) ∧
        (∀ j ∈ P ++ i :: rest, ∃ kk l, RootRel pstar j kk ∧
          alistGet? (rest.foldl group_collect ((uf_find p i n).1, d')).2 kk = some l) ∧
        (∀ kk l, alistGet? (rest.foldl group_collect ((uf_find p i n).1, d')).2 kk = some l →
          isRoot pstar kk) := by
      intro d' h3 h4 h5 h7
      have := ih (P ++ [i]) (uf_find p i n).1 d' hinv' hC2' h3 h4 h5 h7
      simpa [List.append_assoc] using this
    rcases hg : alistGet? d (uf_find p i n).2 with _ | l0
    · -- new key: push appends a fresh singleton entry
      rw [alistPush_eq_set_none hg]
      have hnotmem : (uf_find p i n).2 ∉ d.map Prod.fst := alistGet?_eq_none_iff.1 hg
      apply hmain
      · rw [alistSet_of_not_mem _ hnotmem, List.map_append]
        exact nodup_append_singleton hC3 hnotmem
      · intro kk l hget z
        by_cases hkk : kk = (uf_find p i n).2
        · rw [hkk, alistGet?_alistSet_self] at hget
          have hl : l = [i] := by simpa using hget.symm
        
          subst hl
          simp only [List.mem_singleton, List.mem_append]
          constructor
          · intro hz
            refine ⟨Or.inr hz, ?_⟩
            rw [hz, hkk]
            exact hri'
          · rintro ⟨hz | hz, hrel⟩
            · exfalso
              obtain ⟨kk', l', hrel', hget'⟩ := hC5 z hz
              rw [hkk] at hrel
              rw [RootRel.unique hrel' hrel] at hget'
              rw [hget'] at hg
              exact absurd hg (by simp)
            · exact hz
        · rw [alistGet?_alistSet_ne _ hkk] at hget
          rw [hC4 kk l hget z]
          simp only [List.mem_append, List.mem_singleton]
          constructor
          · rintro ⟨hz, hrel⟩
            exact ⟨Or.inl hz, hrel⟩
          · rintro ⟨hz | hz, hrel⟩
            · exact ⟨hz, hrel⟩
            · subst hz
              exact absurd (RootRel.unique hrel hri') hkk
      · intro j hj
        rcases List.mem_append.1 hj with hj | hj
        · obtain ⟨kk, l, hrel, hget⟩ := hC5 j hj
          by_cases hkk : kk = (uf_find p i n).2
          · rw [hkk] at hget
            rw [hget] at hg
            exact absurd hg (by simp)
          · exact ⟨kk, l, hrel, by rw [alistGet?_alistSet_ne _ hkk]; exact hget⟩
        · rw [List.mem_singleton] at hj
          refine ⟨(uf_find p i n).2, [i], ?_, alistGet?_alistSet_self d _ [i]⟩
          rw [hj]
          exact hri'
      · intro kk l hget
        by_cases hkk : kk = (uf_find p i n).2
        · rw [hkk]
          exact hrootIs
        · rw [alistGet?_alistSet_ne _ hkk] at hget
          exact hC7 kk l hget
    · -- existing key: push appends `i` to the stored list
      rw [alistPush_eq_set_some hg]
      apply hmain
      · rw [alistSet_keys_of_mem]
        · exact hC3
        · exact List.mem_map_of_mem Prod.fst (alistGet?_mem hg)
      · intro kk l hget z
        by_cases hkk : kk = (uf_find p i n).2
        · rw [hkk, alistGet?_alistSet_self] at hget
          have hl : l = l0 ++ [i] := by simpa using hget.symm
          subst hl
          simp only [List.mem_append, List.mem_singleton]
          constructor
          · rintro (hz | hz)
            · obtain ⟨hzP, hrel⟩ := (hC4 _ l0 hg z).1 hz
              exact ⟨Or.inl hzP, by rw [hkk]; exact hrel⟩
            · refine ⟨Or.inr hz, ?_⟩
              rw [hz, hkk]
              exact hri'
          · rintro ⟨hz | hz, hrel⟩
            · exact Or.inl ((hC4 _ l0 hg z).2 ⟨hz, by rw [← hkk]; exact hrel⟩)
            · exact Or.inr hz
        · rw [alistGet?_alistSet_ne _ hkk] at hget
          rw [hC4 kk l hget z]
          simp only [List.mem_append, List.mem_singleton]
          constructor
          · rintro ⟨hz, hrel⟩
            exact ⟨Or.inl hz, hrel⟩
          · rintro ⟨hz | hz, hrel⟩
            · exact ⟨hz, hrel⟩
            · subst hz
              exact absurd (RootRel.unique hrel hri') hkk
      · intro j hj
        rcases List.mem_append.1 hj with hj | hj
        · obtain ⟨kk, l, hrel, hget⟩ := hC5 j hj
          by_cases hkk : kk = (uf_find p i n).2
          · exact ⟨kk, l0 ++ [i], hrel, by rw [hkk, alistGet?_alistSet_self]⟩
          · exact ⟨kk, l, hrel, by rw [alistGet?_alistSet_ne _ hkk]; exact hget⟩
        · rw [List.mem_singleton] at hj
          refine ⟨(uf_find p i n).2, l0 ++ [i], ?_, alistGet?_alistSet_self d _ _⟩
          rw [hj]
          exact hri'
      · intro kk l hget
        by_cases hkk : kk = (uf_find p i n).2
        · rw [hkk]
          exact hrootIs
        · rw [alistGet?_alistSet_ne _ hkk] at hget
          exact hC7 kk l hget

/-- The pairwise adjacency test `_group_cards` uses (diagonal cleared,
epsilon-regularised overlap against the threshold). -/
def uf_test (t : ℚ) (boxes : List Box) (i j : Fin boxes.length) : Bool :=
  if i = j then false
  else if overlap_entry (boxes.get i) (boxes.get j) ≥ t then true
  else false

/-- Characterization of the union-find grouper: its groups, viewed as
finsets of indices, are exactly the connected components of the
epsilon-regularised overlap graph. -/
theorem uf_group_cards_char (boxes : List Box) (t : ℚ) (S : Finset Nat) :
    S ∈ (group_cards t boxes).map List.toFinset ↔
      ∃ i : Fin boxes.length,
        (∀ z : Fin boxes.length, z.val ∈ S ↔ ConnRel (uf_test t boxes) i z) ∧
        (∀ m ∈ S, m < boxes.length) := by
  by_cases hn : boxes.length = 0
  · have hgc : group_cards t boxes = [] := by
      unfold group_cards
      rw [if_pos hn]
    rw [hgc]
    simp only [List.map_nil, List.not_mem_nil, false_iff, not_exists]
    intro i _
    exact absurd i.isLt (by omega)
  · obtain ⟨hPinv, hPsame⟩ := uf_parent_spec (uf_test t boxes)
    have hcol := collect_fold_spec
      ((pairsFin boxes.length).foldl
        (fun p ij => if uf_test t boxes ij.1 ij.2 then uf_union p ij.1 ij.2 else p)
        (fun x => x))
      (List.finRange boxes.length) []
      ((pairsFin boxes.length).foldl
        (fun p ij => if uf_test t boxes ij.1 ij.2 then uf_union p ij.1 ij.2 else p)
        (fun x => x))
      [] hPinv (fun y s => Iff.rfl) (by simp)
      (by intro kk l h; exact absurd h (by simp [alistGet?]))
      (by intro i hi; exact absurd hi (List.not_mem_nil i))
      (by intro kk l h; exact absurd h (by simp [alistGet?]))
    obtain ⟨hc3, hc4, hc5, hc7⟩ := hcol
    have hc4' : ∀ kk l, alistGet? ((List.finRange boxes.length).foldl group_collect
        ((pairsFin boxes.length).foldl
          (fun p ij => if uf_test t boxes ij.1 ij.2 then uf_union p ij.1 ij.2 else p)
          (fun x => x), [])).2 kk = some l →
        ∀ z, z ∈ l ↔ RootRel ((pairsFin boxes.length).foldl
          (fun p ij => if uf_test t boxes ij.1 ij.2 then uf_union p ij.1 ij.2 else p)
          (fun x => x)) z kk := by
      intro kk l h z
      rw [hc4 kk l h z]
      simp [List.mem_finRange]
    have hkey : ∀ kk l, alistGet? ((List.finRange boxes.length).foldl group_collect
        ((pairsFin boxes.length).foldl
          (fun p ij => if uf_test t boxes ij.1 ij.2 then uf_union p ij.1 ij.2 else p)
          (fun x => x), [])).2 kk = some l →
        ∀ z, z ∈ l ↔ ConnRel (uf_test t boxes) kk z := by
      intro kk l h z
      rw [hc4' kk l h z]
      have hkroot := hc7 kk l h
      constructor
      · intro hr
        exact connRel_symm ((hPsame z kk).1 ⟨kk, hr, RootRel.of_root hkroot⟩)
      · intro hc
        obtain ⟨r, hzr, hkr⟩ := (hPsame z kk).2 (connRel_symm hc)
        have hrkk : r = kk := RootRel.unique hkr (RootRel.of_root hkroot)
        rwa [hrkk] at hzr
    have hgc : group_cards t boxes =
        ((List.finRange boxes.length).foldl group_collect
          ((pairsFin boxes.length).foldl
            (fun p ij => if uf_test t boxes ij.1 ij.2 then uf_union p ij.1 ij.2 else p)
            (fun x => x), [])).2.map (fun e => e.2.map Fin.val) := by
      unfold group_cards
      rw [if_neg hn]
      rfl
    rw [hgc]
    constructor
    · intro hS
      rw [List.map_map, List.mem_map] at hS
      obtain ⟨e, heD, hSe⟩ := hS
      have hget := alistGet?_eq_some_of_mem_nodup hc3 heD
      refine ⟨e.1, ?_, ?_⟩
      · intro z
        rw [← hSe]
        simp only [Function.comp_apply, List.mem_toFinset, List.mem_map]
        constructor
        · rintro ⟨w, hw, hwz⟩
          have hwz' : w = z := Fin.ext hwz
          rw [← hwz']
          exact (hkey e.1 e.2 hget w).1 hw
        · intro hc
          exact ⟨z, (hkey e.1 e.2 hget z).2 hc, rfl⟩
      · intro m hm
        rw [← hSe] at hm
        simp only [Function.comp_apply, List.mem_toFinset, List.mem_map] at hm
        obtain ⟨w, _, hwm⟩ := hm
        exact hwm ▸ w.isLt
    · rintro ⟨i, hiS, hbound⟩
      obtain ⟨kk, l, hrel, hget⟩ := hc5 i (by simp [List.mem_finRange])
      rw [List.map_map, List.mem_map]
      refine ⟨(kk, l), alistGet?_mem hget, ?_⟩
      have hkroot := hc7 kk l hget
      have hik : ConnRel (uf_test t boxes) i kk :=
        (hPsame i kk).1 ⟨kk, hrel, RootRel.of_root hkroot⟩
      apply Finset.ext
      intro m
      simp only [Function.comp_apply, List.mem_toFinset, List.mem_map]
      by_cases hm : m < boxes.length
      · constructor
        · rintro ⟨w, hw, hwm⟩
          rw [← hwm]
          exact (hiS w).2 (connRel_trans hik ((hkey kk l hget w).1 hw))
        · intro hmS
          refine ⟨⟨m, hm⟩, (hkey kk l hget ⟨m, hm⟩).2 ?_, rfl⟩
          exact connRel_trans (connRel_symm hik) ((hiS ⟨m, hm⟩).1 hmS)
      · constructor
        · rintro ⟨w, _, hwm⟩
          exact absurd (hwm ▸ w.isLt) hm
        · intro hmS
          exact absurd (hbound m hmS) hm

end HandTracker

/-- A unit square at the origin, used as a concrete input. -/
def unit_box : Box := ⟨0, 0, 1, 1⟩

/-- A unit square far away from the origin, used as a concrete input. -/
def far_box : Box := ⟨10, 10, 11, 11⟩

/-- C4: counterexample. On two identical unit boxes with threshold 1 the
DFS grouper of `detection_utils` joins indices 0 and 1 (their overlap
ratio is exactly 1), while `HandTracker._group_cards` computes the
epsilon-regularised ratio 1000000/1000001 < 1 and keeps them apart, so
the two groupers do not return the same partition. -/
theorem group_cards_equivalence_counterexample :
    ¬ (((DetectionUtils.group_cards [unit_box, unit_box] 1).map List.toFinset).toFinset =
      ((HandTracker.group_cards 1 [unit_box, unit_box]).map List.toFinset).toFinset) := by
  intro heq
  have hco : DetectionUtils.compute_overlap unit_box unit_box = 1 := by
    unfold DetectionUtils.compute_overlap unit_box
    norm_num
  have hgetu : ∀ u : Fin ([unit_box, unit_box] : List Box).length,
      ([unit_box, unit_box] : List Box).get u = unit_box := by
    intro u
    rcases u with ⟨uv, hu⟩
    rcases uv with _ | _ | uv
    · rfl
    · rfl
    · simp only [List.length_cons, List.length_nil] at hu
      omega
  have hge : DetectionUtils.compute_overlap
      (([unit_box, unit_box] : List Box).get ⟨0, by norm_num⟩)
      (([unit_box, unit_box] : List Box).get ⟨1, by norm_num⟩) ≥ (1 : ℚ) := by
    rw [hgetu, hgetu, hco]
  have htest : DetectionUtils.dfs_test [unit_box, unit_box] 1
      ⟨0, by norm_num⟩ ⟨1, by norm_num⟩ = true := by
    unfold DetectionUtils.dfs_test
    rw [if_pos hge]
  have hconn01 : ConnRel (DetectionUtils.dfs_test [unit_box, unit_box] 1)
      ⟨0, by norm_num⟩ ⟨1, by norm_num⟩ :=
    Relation.ReflTransGen.single (Or.inl ⟨by decide, htest⟩)
  have hdfs : ({0, 1} : Finset Nat) ∈
      (DetectionUtils.group_cards [unit_box, unit_box] 1).map List.toFinset := by
    rw [DetectionUtils.dfs_group_cards_char]
    refine ⟨⟨0, by norm_num⟩, ?_, ?_⟩
    · intro z
      constructor
      · intro _
        rcases z with ⟨zv, hz⟩
        rcases zv with _ | _ | zv
        · exact connRel_refl
        · exact hconn01
        · simp only [List.length_cons, List.length_nil] at hz
          omega
      · intro _
        rcases z with ⟨zv, hz⟩
        rcases zv with _ | _ | zv
        · simp
        · simp
        · simp only [List.length_cons, List.length_nil] at hz
          omega
    · intro m hm
      have hm01 : m = 0 ∨ m = 1 := by simpa using hm
      rcases hm01 with hm01 | hm01 <;> rw [hm01] <;> norm_num
  have huf : ({0, 1} : Finset Nat) ∈
      (HandTracker.group_cards 1 [unit_box, unit_box]).map List.toFinset := by
    rw [← List.mem_toFinset, ← heq, List.mem_toFinset]
    exact hdfs
  rw [HandTracker.uf_group_cards_char] at huf
  obtain ⟨i, hi, _⟩ := huf
  have hent : ¬ (HandTracker.overlap_entry unit_box unit_box ≥ (1 : ℚ)) := by
    unfold HandTracker.overlap_entry unit_box
    norm_num
  have htestuf : ∀ (u v : Fin ([unit_box, unit_box] : List Box).length), u ≠ v →
      HandTracker.uf_test 1 [unit_box, unit_box] u v = false := by
    intro u v huv
    unfold HandTracker.uf_test
    rw [if_neg huv, if_neg]
    rw [hgetu, hgetu]
    exact hent
  have hnoadj : ∀ a b : Fin ([unit_box, unit_box] : List Box).length,
      ¬ AdjRel (HandTracker.uf_test 1 [unit_box, unit_box]) a b := by
    rintro a b (⟨hlt, ht⟩ | ⟨hlt, ht⟩)
    · rw [htestuf a b (ne_of_lt hlt)] at ht
      exact absurd ht (by simp)
    · rw [htestuf b a (ne_of_lt hlt)] at ht
      exact absurd ht (by simp)
  have hempty : ∀ (a b : Fin ([unit_box, unit_box] : List Box).length),
      ConnRel (HandTracker.uf_test 1 [unit_box, unit_box]) a b → a = b := by
    intro a b h
    induction h with
    | refl => rfl
    | tail h1 h2 ih => exact absurd h2 (hnoadj _ _)
  have h0 : ConnRel (HandTracker.uf_test 1 [unit_box, unit_box]) i ⟨0, by norm_num⟩ :=
    (hi ⟨0, by norm_num⟩).1 (by decide)
  have h1 : ConnRel (HandTracker.uf_test 1 [unit_box, unit_box]) i ⟨1, by norm_num⟩ :=
    (hi ⟨1, by norm_num⟩).1 (by decide)
  have h01 := connRel_trans (connRel_symm h0) h1
  exact absurd (hempty _ _ h01) (by decide)

/-- C4 (amended): the DFS grouper and the union-find grouper compute the
same partition (equal as sets of groups) whenever, for every index pair
i < j, the exact overlap ratio clears the threshold exactly when the
epsilon-regularised ratio does. The epsilon in `_compute_overlap_matrix`'s
denominator is the only divergence between the two adjacency tests. -/
theorem group_cards_groupers_agree (boxes : List Box) (t : ℚ)
    (h : ∀ a b : Fin boxes.length, a < b →
      (DetectionUtils.compute_overlap (boxes.get a) (boxes.get b) ≥ t ↔
        HandTracker.overlap_entry (boxes.get a) (boxes.get b) ≥ t)) :
    ((DetectionUtils.group_cards boxes t).map List.toFinset).toFinset =
      ((HandTracker.group_cards t boxes).map List.toFinset).toFinset := by
  have hne : ∀ (u v : Fin boxes.length), u < v →
      (DetectionUtils.dfs_test boxes t u v = true ↔
        HandTracker.uf_test t boxes u v = true) := by
    intro u v huv
    unfold DetectionUtils.dfs_test HandTracker.uf_test
    rw [if_neg (ne_of_lt huv)]
    by_cases hc : DetectionUtils.compute_overlap (boxes.get u) (boxes.get v) ≥ t
    · rw [if_pos hc, if_pos ((h u v huv).1 hc)]
    · rw [if_neg hc, if_neg (fun ho => hc ((h u v huv).2 ho))]
  have hAdj : ∀ a b : Fin boxes.length,
      AdjRel (DetectionUtils.dfs_test boxes t) a b ↔
        AdjRel (HandTracker.uf_test t boxes) a b := by
    intro a b
    constructor
    · rintro (⟨hlt, ht⟩ | ⟨hlt, ht⟩)
      · exact Or.inl ⟨hlt, (hne a b hlt).1 ht⟩
      · exact Or.inr ⟨hlt, (hne b a hlt).1 ht⟩
    · rintro (⟨hlt, ht⟩ | ⟨hlt, ht⟩)
      · exact Or.inl ⟨hlt, (hne a b hlt).2 ht⟩
      · exact Or.inr ⟨hlt, (hne b a hlt).2 ht⟩
  have hConn : ∀ a b : Fin boxes.length,
      ConnRel (DetectionUtils.dfs_test boxes t) a b ↔
        ConnRel (HandTracker.uf_test t boxes) a b := by
    intro a b
    constructor
    · exact Relation.ReflTransGen.mono (fun x y hxy => (hAdj x y).1 hxy)
    · exact Relation.ReflTransGen.mono (fun x y hxy => (hAdj x y).2 hxy)
  apply Finset.ext
  intro S
  rw [List.mem_toFinset, List.mem_toFinset, DetectionUtils.dfs_group_cards_char,
    HandTracker.uf_group_cards_char]
  constructor
  · rintro ⟨i, hi, hb⟩
    exact ⟨i, fun z => (hi z).trans (hConn i z), hb⟩
  · rintro ⟨i, hi, hb⟩
    exact ⟨i, fun z => (hi z).trans (hConn i z).symm, hb⟩

/-- C4 witness: on a unit box and a far-away box with threshold 1/2,
both adjacency tests reject the only pair, and the theorem applies. -/
theorem group_cards_groupers_agree_witness :
    ((DetectionUtils.group_cards [unit_box, far_box] (1/2)).map List.toFinset).toFinset =
      ((HandTracker.group_cards (1/2) [unit_box, far_box]).map List.toFinset).toFinset := by
  have h1 : ¬ (DetectionUtils.compute_overlap unit_box far_box ≥ (1/2 : ℚ)) := by
    unfold DetectionUtils.compute_overlap unit_box far_box
    norm_num
  have h2 : ¬ (HandTracker.overlap_entry unit_box far_box ≥ (1/2 : ℚ)) := by
    unfold HandTracker.overlap_entry unit_box far_box
    norm_num
  apply group_cards_groupers_agree
  intro a b hab
  fin_cases a <;> fin_cases b
  · exact absurd hab (by decide)
  · exact iff_of_false h1 h2
  · exact absurd hab (by decide)
  · exact absurd hab (by decide)

namespace HandTracker

/-- One track's info dict as `HandTracker.update` reads it: the `state`
entry (absent means the default 1), the bounding box and the label. -/
structure HInfo where
  state : Option Nat
  bbox : Box
  label : Int
deriving DecidableEq

/-- One hand entry of the returned mapping: cards, score and boxes. -/
structure HandVal where
  cards : List Int
  score : Int
  boxes : List Box
deriving DecidableEq

/-- `min(boxes[idx][0] for idx in group) if group else 0`. -/
def min_x (boxes : List Box) (g : List Nat) : ℚ :=
  match g with
  | [] => 0
  | idx :: rest =>
    (rest.map (fun j => (boxes.getD j ⟨0, 0, 0, 0⟩).x1)).foldl min
      (boxes.getD idx ⟨0, 0, 0, 0⟩).x1

/-- Embedding of `HandTracker.update`: filter to tracks whose `state`
(default 1) equals 1 (Confirmed), group their boxes, pool all singleton
groups into one "Dealer" entry, and number the multi-card groups
"Player 1".. in ascending min-x order (Python's stable sort). -/
def update (t : ℚ) (tracks : List (Nat × HInfo)) : List (String × HandVal) :=
  let stable := tracks.filter (fun e => e.2.state.getD 1 == 1)
  let boxes := stable.map (fun e => e.2.bbox)
  let labels := stable.map (fun e => e.2.label)
  let groups := group_cards t boxes
  let single_groups := groups.filter (fun g => g.length == 1)
  let dealer_indices := single_groups.join
  let dealer_part : List (String × HandVal) :=
    if dealer_indices.isEmpty then []
    else
      [("Dealer", ⟨dealer_indices.map (fun idx => labels.getD idx 0),
        score_hand (dealer_indices.map (fun idx => labels.getD idx 0)),
        dealer_indices.map (fun idx => boxes.getD idx ⟨0, 0, 0, 0⟩)⟩)]
  let player_groups := groups.filter (fun g => decide (1 < g.length))
  let sorted_groups := player_groups.mergeSort
    (fun g1 g2 => decide (min_x boxes g1 ≤ min_x boxes g2))
  let player_part := ((List.range sorted_groups.length).zip sorted_groups).map
    (fun pr => ("Player " ++ toString (pr.1 + 1),
      (⟨pr.2.map (fun idx => labels.getD idx 0),
        score_hand (pr.2.map (fun idx => labels.getD idx 0)),
        pr.2.map (fun idx => boxes.getD idx ⟨0, 0, 0, 0⟩)⟩ : HandVal)))
  dealer_part ++ player_part

end HandTracker

/-- Two overlapping boxes forming a left hand, min-x 0. -/
def boxA1 : Box := ⟨0, 0, 2, 2⟩

def boxA2 : Box := ⟨1, 0, 3, 2⟩

/-- Two overlapping boxes forming a second hand, same min-x 0, far below. -/
def boxB1 : Box := ⟨0, 10, 2, 12⟩

def boxB2 : Box := ⟨1, 10, 3, 12⟩

/-- Four confirmed tracks, hand A inserted first. -/
def tracksAB : List (Nat × HandTracker.HInfo) :=
  [(1, ⟨some 1, boxA1, 1⟩), (2, ⟨some 1, boxA2, 1⟩),
   (3, ⟨some 1, boxB1, 5⟩), (4, ⟨some 1, boxB2, 5⟩)]

/-- The same four tracks, hand B inserted first. -/
def tracksBA : List (Nat × HandTracker.HInfo) :=
  [(3, ⟨some 1, boxB1, 5⟩), (4, ⟨some 1, boxB2, 5⟩),
   (1, ⟨some 1, boxA1, 1⟩), (2, ⟨some 1, boxA2, 1⟩)]

set_option maxRecDepth 4000 in
theorem uf_groups_eval_AB :
    HandTracker.group_cards (1/10) [boxA1, boxA2, boxB1, boxB2] = [[0, 1], [2, 3]] := by
  have hA : HandTracker.overlap_entry boxA1 boxA2 ≥ 1/10 := by
    unfold HandTracker.overlap_entry boxA1 boxA2
    norm_num
  have hB : HandTracker.overlap_entry boxB1 boxB2 ≥ 1/10 := by
    unfold HandTracker.overlap_entry boxB1 boxB2
    norm_num
  have h13 : ¬ (HandTracker.overlap_entry boxA1 boxB1 ≥ 1/10) := by
    unfold HandTracker.overlap_entry boxA1 boxB1
    norm_num
  have h14 : ¬ (HandTracker.overlap_entry boxA1 boxB2 ≥ 1/10) := by
    unfold HandTracker.overlap_entry boxA1 boxB2
    norm_num
  have h23 : ¬ (HandTracker.overlap_entry boxA2 boxB1 ≥ 1/10) := by
    unfold HandTracker.overlap_entry boxA2 boxB1
    norm_num
  have h24 : ¬ (HandTracker.overlap_entry boxA2 boxB2 ≥ 1/10) := by
    unfold HandTracker.overlap_entry boxA2 boxB2
    norm_num
  show ((pairsFin 4).foldl
      (fun p ij => if (fun i j : Fin 4 =>
        if i = j then false
        else if HandTracker.overlap_entry (([boxA1, boxA2, boxB1, boxB2] : List Box).get i)
            (([boxA1, boxA2, boxB1, boxB2] : List Box).get j) ≥ (1/10 : ℚ) then true
        else false) ij.1 ij.2 then HandTracker.uf_union p ij.1 ij.2 else p)
      (fun x => x) |>
      (fun parent => ((List.finRange 4).foldl HandTracker.group_collect (parent, [])).2.map
        (fun e => e.2.map Fin.val))) = [[0, 1], [2, 3]]
  rw [show pairsFin 4 = [(0,1),(0,2),(0,3),(1,2),(1,3),(2,3)] from rfl]
  simp only [List.foldl_cons, List.foldl_nil, List.get]
  norm_num [hA, hB, h13, h14, h23, h24, Fin.ext_iff]
  decide

set_option maxRecDepth 4000 in
theorem uf_groups_eval_BA :
    HandTracker.group_cards (1/10) [boxB1, boxB2, boxA1, boxA2] = [[0, 1], [2, 3]] := by
  have hB : HandTracker.overlap_entry boxB1 boxB2 ≥ 1/10 := by
    unfold HandTracker.overlap_entry boxB1 boxB2
    norm_num
  have hA : HandTracker.overlap_entry boxA1 boxA2 ≥ 1/10 := by
    unfold HandTracker.overlap_entry boxA1 boxA2
    norm_num
  have h13 : ¬ (HandTracker.overlap_entry boxB1 boxA1 ≥ 1/10) := by
    unfold HandTracker.overlap_entry boxB1 boxA1
    norm_num
  have h14 : ¬ (HandTracker.overlap_entry boxB1 boxA2 ≥ 1/10) := by
    unfold HandTracker.overlap_entry boxB1 boxA2
    norm_num
  have h23 : ¬ (HandTracker.overlap_entry boxB2 boxA1 ≥ 1/10) := by
    unfold HandTracker.overlap_entry boxB2 boxA1
    norm_num
  have h24 : ¬ (HandTracker.overlap_entry boxB2 boxA2 ≥ 1/10) := by
    unfold HandTracker.overlap_entry boxB2 boxA2
    norm_num
  show ((pairsFin 4).foldl
      (fun p ij => if (fun i j : Fin 4 =>
        if i = j then false
        else if HandTracker.overlap_entry (([boxB1, boxB2, boxA1, boxA2] : List Box).get i)
            (([boxB1, boxB2, boxA1, boxA2] : List Box).get j) ≥ (1/10 : ℚ) then true
        else false) ij.1 ij.2 then HandTracker.uf_union p ij.1 ij.2 else p)
      (fun x => x) |>
      (fun parent => ((List.finRange 4).foldl HandTracker.group_collect (parent, [])).2.map
        (fun e => e.2.map Fin.val))) = [[0, 1], [2, 3]]
  rw [show pairsFin 4 = [(0,1),(0,2),(0,3),(1,2),(1,3),(2,3)] from rfl]
  simp only [List.foldl_cons, List.foldl_nil, List.get]
  norm_num [hB, hA, h13, h14, h23, h24, Fin.ext_iff]
  decide

/-- C7: counterexample. The same four confirmed tracks (two two-card hands
whose minimum x-coordinates are both 0) inserted in two different orders
give different "Player 1" hands: Python's stable sort keeps the grouper's
output order for equal keys, and that order follows dict insertion order,
so the numbering is not independent of insertion order when min-x ties. -/
theorem update_order_counterexample :
    tracksBA.Perm tracksAB ∧
    alistGet? (HandTracker.update (1/10) tracksAB) "Player 1" ≠
      alistGet? (HandTracker.update (1/10) tracksBA) "Player 1" := by
  have e1 : HandTracker.update (1/10) tracksAB =
      [("Player 1", ⟨[1, 1], 4, [boxA1, boxA2]⟩),
       ("Player 2", ⟨[5, 5], 12, [boxB1, boxB2]⟩)] := by
    simp only [HandTracker.update]
    rw [show (tracksAB.filter (fun e => e.2.state.getD 1 == 1)).map (fun e => e.2.bbox)
        = [boxA1, boxA2, boxB1, boxB2] from rfl]
    rw [show (tracksAB.filter (fun e => e.2.state.getD 1 == 1)).map (fun e => e.2.label)
        = [(1 : Int), 1, 5, 5] from rfl]
    rw [uf_groups_eval_AB]
    rw [show ([[0, 1], [2, 3]] : List (List Nat)).filter (fun g => decide (1 < g.length))
        = [[0, 1], [2, 3]] from rfl]
    rw [List.mergeSort_of_sorted (by decide)]
    decide
  have e2 : HandTracker.update (1/10) tracksBA =
      [("Player 1", ⟨[5, 5], 12, [boxB1, boxB2]⟩),
       ("Player 2", ⟨[1, 1], 4, [boxA1, boxA2]⟩)] := by
    simp only [HandTracker.update]
    rw [show (tracksBA.filter (fun e => e.2.state.getD 1 == 1)).map (fun e => e.2.bbox)
        = [boxB1, boxB2, boxA1, boxA2] from rfl]
    rw [show (tracksBA.filter (fun e => e.2.state.getD 1 == 1)).map (fun e => e.2.label)
        = [(5 : Int), 5, 1, 1] from rfl]
    rw [uf_groups_eval_BA]
    rw [show ([[0, 1], [2, 3]] : List (List Nat)).filter (fun g => decide (1 < g.length))
        = [[0, 1], [2, 3]] from rfl]
    rw [List.mergeSort_of_sorted (by decide)]
    decide
  refine ⟨by decide, ?_⟩
  rw [e1, e2]
  decide

namespace HandTracker

/-- The confirmed-track filter of `update` (`info.get("state", 1) == 1`). -/
def stable_tracks (tracks : List (Nat × HInfo)) : List (Nat × HInfo) :=
  tracks.filter (fun e => e.2.state.getD 1 == 1)

/-- The box list `update` builds from the confirmed tracks, in dict order. -/
def stable_boxes (tracks : List (Nat × HInfo)) : List Box :=
  (stable_tracks tracks).map (fun e => e.2.bbox)

/-- The label list `update` builds from the confirmed tracks, in dict order. -/
def stable_labels (tracks : List (Nat × HInfo)) : List Int :=
  (stable_tracks tracks).map (fun e => e.2.label)

/-- The hand entry `update` builds for a group of indices. -/
def hand_val (labels : List Int) (boxes : List Box) (g : List Nat) : HandVal :=
  ⟨g.map (fun idx => labels.getD idx 0),
   score_hand (g.map (fun idx => labels.getD idx 0)),
   g.map (fun idx => boxes.getD idx ⟨0, 0, 0, 0⟩)⟩

/-- All indices of singleton groups, pooled in group order. -/
def dealer_indices_of (t : ℚ) (tracks : List (Nat × HInfo)) : List Nat :=
  ((group_cards t (stable_boxes tracks)).filter (fun g => g.length == 1)).join

/-- The multi-card groups after the stable min-x sort. -/
def sorted_players (t : ℚ) (tracks : List (Nat × HInfo)) : List (List Nat) :=
  ((group_cards t (stable_boxes tracks)).filter (fun g => decide (1 < g.length))).mergeSort
    (fun g1 g2 => decide (min_x (stable_boxes tracks) g1 ≤ min_x (stable_boxes tracks) g2))

/-- The "Player i" entries of `update`, in order. -/
def players_part (t : ℚ) (tracks : List (Nat × HInfo)) : List (String × HandVal) :=
  ((List.range (sorted_players t tracks).length).zip (sorted_players t tracks)).map
    (fun pr => ("Player " ++ toString (pr.1 + 1),
      hand_val (stable_labels tracks) (stable_boxes tracks) pr.2))

/-- The multi-card hands of a tracks dict, each tagged with its min-x key,
in the grouper's order (before sorting). -/
def player_keyed (t : ℚ) (tracks : List (Nat × HInfo)) : List (ℚ × HandVal) :=
  ((group_cards t (stable_boxes tracks)).filter (fun g => decide (1 < g.length))).map
    (fun g => (min_x (stable_boxes tracks) g,
      hand_val (stable_labels tracks) (stable_boxes tracks) g))

/-- The min-x key recomputed from a hand entry's boxes. -/
def entry_min_x (h : HandVal) : ℚ :=
  match h.boxes with
  | [] => 0
  | b :: rest => (rest.map Box.x1).foldl min b.x1

theorem update_eq_parts (t : ℚ) (tracks : List (Nat × HInfo)) :
    update t tracks =
      (if (dealer_indices_of t tracks).isEmpty then []
       else [("Dealer", hand_val (stable_labels tracks) (stable_boxes tracks)
         (dealer_indices_of t tracks))]) ++ players_part t tracks := rfl

theorem player_key_ne_dealer (s : String) : ("Player " ++ s) ≠ "Dealer" := by
  intro h
  have hd := congrArg String.data h
  rw [String.data_append] at hd
  simp at hd

theorem update_stable_idem (t : ℚ) (tracks : List (Nat × HInfo)) :
    update t tracks = update t (stable_tracks tracks) := by
  unfold update stable_tracks
  rw [List.filter_filter]
  simp only [Bool.and_self]

theorem update_keys (t : ℚ) (tracks : List (Nat × HInfo)) :
    (update t tracks).map Prod.fst =
      (if (dealer_indices_of t tracks).isEmpty then [] else ["Dealer"]) ++
      (List.range (sorted_players t tracks).length).map
        (fun i => "Player " ++ toString (i + 1)) := by
  rw [update_eq_parts, List.map_append]
  congr 1
  · by_cases hd : (dealer_indices_of t tracks).isEmpty
    · rw [if_pos hd, if_pos hd]
      rfl
    · rw [if_neg hd, if_neg hd]
      rfl
  · unfold players_part
    rw [List.map_map]
    have hz : ((List.range (sorted_players t tracks).length).zip
        (sorted_players t tracks)).map Prod.fst
        = List.range (sorted_players t tracks).length :=
      List.map_fst_zip _ _ (by rw [List.length_range])
    rw [show (Prod.fst ∘ fun pr : Nat × List Nat =>
        ("Player " ++ toString (pr.1 + 1),
          hand_val (stable_labels tracks) (stable_boxes tracks) pr.2))
        = ((fun i => "Player " ++ toString (i + 1)) ∘ Prod.fst) from rfl]
    rw [← List.map_map, hz]

theorem update_players_filter (t : ℚ) (tracks : List (Nat × HInfo)) :
    (update t tracks).filter (fun e => decide (e.1 ≠ "Dealer")) = players_part t tracks := by
  rw [update_eq_parts, List.filter_append]
  have h1 : ((if (dealer_indices_of t tracks).isEmpty then []
      else [("Dealer", hand_val (stable_labels tracks) (stable_boxes tracks)
        (dealer_indices_of t tracks))]) :
      List (String × HandVal)).filter (fun e => decide (e.1 ≠ "Dealer")) = [] := by
    by_cases hd : (dealer_indices_of t tracks).isEmpty
    · rw [if_pos hd]
      rfl
    · rw [if_neg hd]
      simp
  have h2 : (players_part t tracks).filter (fun e => decide (e.1 ≠ "Dealer"))
      = players_part t tracks := by
    rw [List.filter_eq_self]
    intro e he
    unfold players_part at he
    rw [List.mem_map] at he
    obtain ⟨pr, _, hpr⟩ := he
    rw [← hpr]
    simpa using player_key_ne_dealer (toString (pr.1 + 1))
  rw [h1, h2, List.nil_append]

theorem sorted_players_pairwise (t : ℚ) (tracks : List (Nat × HInfo)) :
    List.Pairwise (fun g1 g2 =>
      min_x (stable_boxes tracks) g1 ≤ min_x (stable_boxes tracks) g2)
      (sorted_players t tracks) := by
  have htrans : ∀ (a b c : List Nat),
      (fun g1 g2 => decide (min_x (stable_boxes tracks) g1 ≤
        min_x (stable_boxes tracks) g2)) a b = true →
      (fun g1 g2 => decide (min_x (stable_boxes tracks) g1 ≤
        min_x (stable_boxes tracks) g2)) b c = true →
      (fun g1 g2 => decide (min_x (stable_boxes tracks) g1 ≤
        min_x (stable_boxes tracks) g2)) a c = true := by
    intro a b c h1 h2
    simp only [decide_eq_true_eq] at h1 h2 ⊢
    exact le_trans h1 h2
  have htotal : ∀ (a b : List Nat),
      ((fun g1 g2 => decide (min_x (stable_boxes tracks) g1 ≤
        min_x (stable_boxes tracks) g2)) a b ||
       (fun g1 g2 => decide (min_x (stable_boxes tracks) g1 ≤
        min_x (stable_boxes tracks) g2)) b a) = true := by
    intro a b
    rcases le_total (min_x (stable_boxes tracks) a) (min_x (stable_boxes tracks) b) with h | h
    · simp [h]
    · simp [h]
  have hs := List.sorted_mergeSort htrans htotal
    ((group_cards t (stable_boxes tracks)).filter (fun g => decide (1 < g.length)))
  exact hs.imp (fun h => by simpa using h)

theorem update_players_sorted (t : ℚ) (tracks : List (Nat × HInfo)) :
    List.Pairwise (fun e1 e2 => entry_min_x e1.2 ≤ entry_min_x e2.2)
      ((update t tracks).filter (fun e => decide (e.1 ≠ "Dealer"))) := by
  rw [update_players_filter]
  unfold players_part
  rw [List.pairwise_map]
  have hmx : ∀ g, entry_min_x (hand_val (stable_labels tracks) (stable_boxes tracks) g)
      = min_x (stable_boxes tracks) g := by
    intro g
    cases g with
    | nil => rfl
    | cons i rest =>
      unfold entry_min_x hand_val min_x
      simp only [List.map_cons, List.map_map]
      rfl
  simp only [hmx]
  have hzip : ((List.range (sorted_players t tracks).length).zip
      (sorted_players t tracks)).map Prod.snd = sorted_players t tracks :=
    List.map_snd_zip _ _ (by rw [List.length_range])
  have hs := sorted_players_pairwise t tracks
  rw [← hzip] at hs
  exact (@List.pairwise_map _ _ Prod.snd
    (fun g1 g2 => min_x (stable_boxes tracks) g1 ≤ min_x (stable_boxes tracks) g2) _).1 hs

theorem update_players_insertion (t : ℚ) (tracks tracks2 : List (Nat × HInfo))
    (hperm : (player_keyed t tracks).Perm (player_keyed t tracks2))
    (hnd : ((player_keyed t tracks).map Prod.fst).Nodup) :
    (update t tracks).filter (fun e => decide (e.1 ≠ "Dealer")) =
      (update t tracks2).filter (fun e => decide (e.1 ≠ "Dealer")) := by
  rw [update_players_filter, update_players_filter]
  have hp1 : ((sorted_players t tracks).map (fun g =>
      (min_x (stable_boxes tracks) g,
        hand_val (stable_labels tracks) (stable_boxes tracks) g))).Perm
      (player_keyed t tracks) :=
    (List.mergeSort_perm _ _).map _
  have hp2 : ((sorted_players t tracks2).map (fun g =>
      (min_x (stable_boxes tracks2) g,
        hand_val (stable_labels tracks2) (stable_boxes tracks2) g))).Perm
      (player_keyed t tracks2) :=
    (List.mergeSort_perm _ _).map _
  have hperm' : ((sorted_players t tracks).map (fun g =>
      (min_x (stable_boxes tracks) g,
        hand_val (stable_labels tracks) (stable_boxes tracks) g))).Perm
      ((sorted_players t tracks2).map (fun g =>
        (min_x (stable_boxes tracks2) g,
          hand_val (stable_labels tracks2) (stable_boxes tracks2) g))) :=
    hp1.trans (hperm.trans hp2.symm)
  have hsort1 : List.Pairwise (fun a b : ℚ × HandVal => a.1 ≤ b.1)
      ((sorted_players t tracks).map (fun g =>
        (min_x (stable_boxes tracks) g,
          hand_val (stable_labels tracks) (stable_boxes tracks) g))) := by
    rw [List.pairwise_map]
    exact sorted_players_pairwise t tracks
  have hsort2 : List.Pairwise (fun a b : ℚ × HandVal => a.1 ≤ b.1)
      ((sorted_players t tracks2).map (fun g =>
        (min_x (stable_boxes tracks2) g,
          hand_val (stable_labels tracks2) (stable_boxes tracks2) g))) := by
    rw [List.pairwise_map]
    exact sorted_players_pairwise t tracks2
  have hnd1 : (((sorted_players t tracks).map (fun g =>
      (min_x (stable_boxes tracks) g,
        hand_val (stable_labels tracks) (stable_boxes tracks) g))).map Prod.fst).Nodup :=
    (List.Perm.nodup_iff (hp1.map Prod.fst)).2 hnd
  have hnd2 : (((sorted_players t tracks2).map (fun g =>
      (min_x (stable_boxes tracks2) g,
        hand_val (stable_labels tracks2) (stable_boxes tracks2) g))).map Prod.fst).Nodup :=
    (List.Perm.nodup_iff (hp2.map Prod.fst)).2
      ((List.Perm.nodup_iff (hperm.map Prod.fst)).1 hnd)
  have hstrict : ∀ (l : List (ℚ × HandVal)),
      List.Pairwise (fun a b => a.1 ≤ b.1) l → (l.map Prod.fst).Nodup →
      List.Pairwise (fun a b : ℚ × HandVal => a.1 < b.1) l := by
    intro l hle hndl
    have hne : List.Pairwise (fun a b : ℚ × HandVal => a.1 ≠ b.1) l :=
      (@List.pairwise_map _ _ Prod.fst (fun a b : ℚ => a ≠ b) l).1 hndl
    exact (hle.and hne).imp (fun h => lt_of_le_of_ne h.1 h.2)
  haveI : IsAntisymm (ℚ × HandVal) (fun a b => a.1 < b.1) :=
    ⟨fun a b h1 h2 => absurd (lt_trans h1 h2) (lt_irrefl _)⟩
  have heq : ((sorted_players t tracks).map (fun g =>
      (min_x (stable_boxes tracks) g,
        hand_val (stable_labels tracks) (stable_boxes tracks) g)))
      = ((sorted_players t tracks2).map (fun g =>
        (min_x (stable_boxes tracks2) g,
          hand_val (stable_labels tracks2) (stable_boxes tracks2) g))) :=
    List.eq_of_perm_of_sorted hperm' (hstrict _ hsort1 hnd1) (hstrict _ hsort2 hnd2)
  have hpp : ∀ (tr : List (Nat × HInfo)), players_part t tr =
      ((List.range ((sorted_players t tr).map (fun g =>
        (min_x (stable_boxes tr) g,
          hand_val (stable_labels tr) (stable_boxes tr) g))).length).zip
        ((sorted_players t tr).map (fun g =>
          (min_x (stable_boxes tr) g,
            hand_val (stable_labels tr) (stable_boxes tr) g)))).map
        (fun pr => ("Player " ++ toString (pr.1 + 1), pr.2.2)) := by
    intro tr
    unfold players_part
    rw [List.length_map, List.zip_map_right, List.map_map]
    rfl
  rw [hpp tracks, hpp tracks2, heq]

end HandTracker

/-- Two confirmed tracks forming a single two-card hand. -/
def tracksW : List (Nat × HandTracker.HInfo) :=
  [(1, ⟨some 1, boxA1, 1⟩), (2, ⟨some 1, boxA2, 1⟩)]

set_option maxRecDepth 4000 in
theorem uf_groups_eval_W :
    HandTracker.group_cards (1/10) [boxA1, boxA2] = [[0, 1]] := by
  have hA : HandTracker.overlap_entry boxA1 boxA2 ≥ 1/10 := by
    unfold HandTracker.overlap_entry boxA1 boxA2
    norm_num
  show ((pairsFin 2).foldl
      (fun p ij => if (fun i j : Fin 2 =>
        if i = j then false
        else if HandTracker.overlap_entry (([boxA1, boxA2] : List Box).get i)
            (([boxA1, boxA2] : List Box).get j) ≥ (1/10 : ℚ) then true
        else false) ij.1 ij.2 then HandTracker.uf_union p ij.1 ij.2 else p)
      (fun x => x) |>
      (fun parent => ((List.finRange 2).foldl HandTracker.group_collect (parent, [])).2.map
        (fun e => e.2.map Fin.val))) = [[0, 1]]
  rw [show pairsFin 2 = [(0, 1)] from rfl]
  simp only [List.foldl_cons, List.foldl_nil, List.get]
  norm_num [hA, Fin.ext_iff]
  decide

/-- C7 (amended): `HandTracker.update` ignores non-Confirmed tracks
(pre-filtering to the confirmed ones leaves the result unchanged); the
returned keys are a single pooled "Dealer" entry — present exactly when
some singleton group exists, no matter how many singleton groups there
are — followed by "Player 1".."Player N" numbered consecutively over the
multi-card groups; the Player entries appear in nondecreasing order of
the minimum x-coordinate of their boxes; and whenever the multi-card
hands' min-x keys are pairwise distinct, the numbering is independent of
track ids and insertion order: two track dicts with the same keyed
multiset of multi-card hands produce identical Player entries. (With
tied min-x keys the order follows the grouper's insertion-dependent
output order, as the counterexample shows.) -/
theorem update_hand_spec (t : ℚ) (tracks tracks2 : List (Nat × HandTracker.HInfo)) :
    HandTracker.update t tracks = HandTracker.update t (HandTracker.stable_tracks tracks) ∧
    (HandTracker.update t tracks).map Prod.fst =
      (if (HandTracker.dealer_indices_of t tracks).isEmpty then [] else ["Dealer"]) ++
      (List.range (HandTracker.sorted_players t tracks).length).map
        (fun i => "Player " ++ toString (i + 1)) ∧
    List.Pairwise (fun e1 e2 =>
      HandTracker.entry_min_x e1.2 ≤ HandTracker.entry_min_x e2.2)
      ((HandTracker.update t tracks).filter (fun e => decide (e.1 ≠ "Dealer"))) ∧
    ((HandTracker.player_keyed t tracks).Perm (HandTracker.player_keyed t tracks2) →
      ((HandTracker.player_keyed t tracks).map Prod.fst).Nodup →
      (HandTracker.update t tracks).filter (fun e => decide (e.1 ≠ "Dealer")) =
        (HandTracker.update t tracks2).filter (fun e => decide (e.1 ≠ "Dealer"))) :=
  ⟨HandTracker.update_stable_idem t tracks, HandTracker.update_keys t tracks,
   HandTracker.update_players_sorted t tracks,
   fun hperm hnd => HandTracker.update_players_insertion t tracks tracks2 hperm hnd⟩

/-- C7 witness: on two confirmed tracks forming one hand, the keyed hand
list has duplicate-free keys and the theorem's conclusions apply. -/
theorem update_hand_spec_witness :
    ((HandTracker.player_keyed (1/10) tracksW).map Prod.fst).Nodup ∧
    (HandTracker.update (1/10) tracksW).filter (fun e => decide (e.1 ≠ "Dealer")) =
      (HandTracker.update (1/10) tracksW).filter (fun e => decide (e.1 ≠ "Dealer")) := by
  have he : HandTracker.player_keyed (1/10) tracksW
      = [(0, ⟨[1, 1], 4, [boxA1, boxA2]⟩)] := by
    unfold HandTracker.player_keyed HandTracker.stable_boxes HandTracker.stable_labels
      HandTracker.stable_tracks
    rw [show (tracksW.filter (fun e => e.2.state.getD 1 == 1)).map (fun e => e.2.bbox)
        = [boxA1, boxA2] from rfl]
    rw [show (tracksW.filter (fun e => e.2.state.getD 1 == 1)).map (fun e => e.2.label)
        = [(1 : Int), 1] from rfl]
    rw [uf_groups_eval_W]
    decide
  have hnd : ((HandTracker.player_keyed (1/10) tracksW).map Prod.fst).Nodup := by
    rw [he]
    decide
  exact ⟨hnd, (update_hand_spec (1/10) tracksW tracksW).2.2.2 (List.Perm.refl _) hnd⟩
